import Mathlib

/-!
# Verification of the `gravity` off-heap arena allocator

Shallow embedding of the repository's core (the free-space treap in
`treap/action.go`, the free-space manager, the sharded key→position map in
`vmap.go`, and the arena façade in `gravity.go`) together with proofs of the
specification's claims.

Modelling conventions:
* Go `uint64` values are modelled as `ℕ`.  All arithmetic that the verified
  theorems exercise stays far below `2 ^ 64` (the invariants carried by the
  theorems imply every intermediate value is bounded by the buffer length,
  which itself is assumed `< 2 ^ 64`), so `ℕ` arithmetic agrees with `uint64`
  arithmetic there; the one place where a wrap-around is semantically
  relevant (the key counter, `atomic.AddUint64`) is modelled with an explicit
  `% 2 ^ 64`.
* The backing buffer is a total function `ℕ → ℕ` (byte at offset) plus a
  separate length field, mirroring `g.mem []byte` and `g.size`.
* The treap nodes of `treap/action.go` carry `prev`/`next`/`parent` pointers
  maintained to be exactly the in-order predecessor/successor links (the
  repository's own test helper `VerifyInOrder` checks precisely this).  The
  functional model represents the treap as an inductive binary tree and
  derives those links from the tree: the in-order successor of a subtree root
  is the minimum of its right subtree when that subtree is non-empty, and the
  nearest ancestor on whose left spine the subtree hangs otherwise.  The
  ancestor is threaded through the recursion as an explicit parameter.
* `fastrandn(10) < 5` (a fair random bit) is modelled by an oracle
  `ℕ → Bool` together with a counter of consumed bits, threaded through
  every operation exactly where the Go code calls `fastrandn`.
* `float64` gravity values are modelled as exact rationals `ℚ`.  No theorem
  below depends on which of several sufficiently large nodes the gravity
  heuristic picks, so `float64` rounding differences are irrelevant to the
  stated properties (the spec itself notes: "any selection that chooses a
  sufficient-size interval is correct").
-/

namespace Gravity

/-! ## Free intervals (`treap` package, `FreeSpace`) -/

/-- `treap.FreeSpace`: an inclusive interval `[Start, End]` of buffer
offsets (field `End` is written `endp` because `end` is a Lean keyword). -/
structure FS where
  Start : ℕ
  endp : ℕ
deriving DecidableEq, Repr

/-- `FreeSpace.Size`: `0` when `Start > End`, else `End - Start + 1`.
(Go source: `if fs.Start > fs.End { return 0 }; return fs.End - fs.Start + 1`.) -/
def FS.Size (fs : FS) : ℕ :=
  if fs.Start > fs.endp then 0 else fs.endp - fs.Start + 1

/-- `Node.isOverlapping`: the source's "overlap" is adjacency —
`n.Fs.Start == other.Fs.End+1 || other.Fs.Start == n.Fs.End+1`. -/
def isOv (a b : FS) : Prop := a.Start = b.endp + 1 ∨ b.Start = a.endp + 1

instance (a b : FS) : Decidable (isOv a b) := by
  unfold isOv; infer_instance

/-- `Node.greater`: BST comparison — by `Start`, ties broken by `End`. -/
def greaterF (a b : FS) : Prop :=
  if a.Start = b.Start then a.endp > b.endp else a.Start > b.Start

instance (a b : FS) : Decidable (greaterF a b) := by
  unfold greaterF; infer_instance

/-- `Node.merge`: expand `a` to cover `b` (min of starts, max of ends). -/
def mrgIv (a b : FS) : FS := ⟨min a.Start b.Start, max a.endp b.endp⟩

/-- A point `i` lies in the interval `f`. -/
def inIv (i : ℕ) (f : FS) : Prop := f.Start ≤ i ∧ i ≤ f.endp

instance (i : ℕ) (f : FS) : Decidable (inIv i f) := by
  unfold inIv; infer_instance

/-- Intervals `a` and `b` are strictly separated: `a` ends at least two
positions before `b` starts (non-overlapping *and* non-adjacent, in order). -/
def sep (a b : FS) : Prop := a.endp + 1 < b.Start

instance (a b : FS) : Decidable (sep a b) := by
  unfold sep; infer_instance

/-- A proper (non-empty) interval. -/
def properIv (f : FS) : Prop := f.Start ≤ f.endp

instance (f : FS) : Decidable (properIv f) := by
  unfold properIv; infer_instance

/-- Set-disjointness of two intervals. -/
def DisjIv (a b : FS) : Prop := a.endp < b.Start ∨ b.endp < a.Start

instance (a b : FS) : Decidable (DisjIv a b) := by
  unfold DisjIv; infer_instance

/-- A point is covered by some interval of the list. -/
def covL (l : List FS) (i : ℕ) : Prop := ∃ f ∈ l, inIv i f

/-- Total size of a list of intervals. -/
def szSum (l : List FS) : ℕ := (l.map FS.Size).sum

theorem szSum_nil : szSum [] = 0 := rfl

theorem szSum_cons (f : FS) (l : List FS) : szSum (f :: l) = f.Size + szSum l := rfl

theorem szSum_append (l₁ l₂ : List FS) : szSum (l₁ ++ l₂) = szSum l₁ + szSum l₂ := by
  simp [szSum]

/-! ## The treap (`treap/action.go`)

The tree carries only the interval in each node; `left`/`right` are the
constructor arguments, and `prev`/`next`/`parent` are derived (see the file
header). -/

inductive Tr where
  | nil : Tr
  | node (fs : FS) (l r : Tr) : Tr
deriving DecidableEq, Repr

namespace Tr

/-- In-order traversal: the address-ordered list of free intervals. -/
def toL : Tr → List FS
  | .nil => []
  | .node fs l r => toL l ++ fs :: toL r

/-- Interval size of the root node (`crawl.Size()`); `0` for the empty tree
(the Go code never calls `Size` on a nil node — the `0` default is only used
through guards of the form `t ≠ nil ∧ …`). -/
def rsz : Tr → ℕ
  | .nil => 0
  | .node fs _ _ => fs.Size

/-- Interval of the root node (junk default for the empty tree). -/
def rfs : Tr → FS
  | .nil => ⟨0, 0⟩
  | .node fs _ _ => fs

/-- Leftmost interval: where the `prev == nil` end of the in-order list is. -/
def minT : Tr → Option FS
  | .nil => none
  | .node fs l _ => (minT l).getD fs

/-- Rightmost interval. -/
def maxT : Tr → Option FS
  | .nil => none
  | .node fs _ r => (maxT r).getD fs

/-- `rotateRight` (pointer fix-ups are implicit in the functional tree). -/
def rotR : Tr → Tr
  | .node fs (.node lf ll lr) r => .node lf ll (.node fs lr r)
  | t => t

/-- `rotateLeft`. -/
def rotL : Tr → Tr
  | .node fs l (.node rf rl rr) => .node rf (.node fs l rl) rr
  | t => t

/-- Deleting the root of a subtree whose children are `l` and `r`:
the source's `Remove` rotates the target toward the larger child
(`root.left.Size() > root.right.Size()` picks `rotateRight`) until the target
has at most one child, then splices it out (fixing the in-order links, which
are derived here).  Termination: each rotation strictly shrinks the combined
size of the target's two subtrees. -/
def removeRoot : Tr → Tr → Tr
  | .nil, r => r
  | l, .nil => l
  | .node lf ll lr, .node rf rl rr =>
    if (FS.Size lf) > (FS.Size rf) then
      -- rotateRight: the old left child `lf` becomes the root; the target,
      -- now its right child with subtrees `lr` and the old right tree,
      -- is removed recursively.
      .node lf ll (removeRoot lr (.node rf rl rr))
    else
      .node rf (removeRoot (.node lf ll lr) rl) rr
termination_by l r => sizeOf l + sizeOf r
decreasing_by
  all_goals simp_arith [sizeOf, Tr._sizeOf_1]

/-- `treap.Remove`, keyed by the interval of the node to delete (the Go code
passes the node; equality of nodes is equality of their `Fs` under the BST
discipline, cf. `Remove`'s `greater` tests). -/
def removeT : Tr → FS → Tr
  | .nil, _ => .nil
  | .node fs l r, x =>
    if greaterF fs x then .node fs (removeT l x) r
    else if greaterF x fs then .node fs l (removeT r x)
    else removeRoot l r

/-- Number of nodes (termination measure for the crawl loops). -/
def cnt : Tr → ℕ
  | .nil => 0
  | .node _ l r => cnt l + cnt r + 1

end Tr

/-- The `root.prev != nil && root.prev.isOverlapping(nn)` branch of
`mergeAndExpand` followed by the final plain `root.merge(nn)`; the
predecessor of the subtree root is `maxT l` when `l` is non-empty and the
threaded ancestor `pl` otherwise. -/
def mergeAndExpandPrev (fs : FS) (l r : Tr) (nn : FS) (pl : Option FS) : Tr :=
  match Tr.maxT l with
  | some p =>
    if isOv p nn then .node (mrgIv fs p) (Tr.removeT l p) r
    else .node (mrgIv fs nn) l r
  | none =>
    match pl with
    | some p =>
      if isOv p nn then .node (mrgIv fs p) l r  -- dead for `insertT` calls
      else .node (mrgIv fs nn) l r
    | none => .node (mrgIv fs nn) l r

/-- `mergeAndExpand` (`treap/action.go`): `nn` abuts the current root
interval `fs`.  If the root's in-order successor also abuts `nn`, that
successor is unlinked (`Remove(n.parent, n)`) and absorbed into the root;
symmetrically for the predecessor; otherwise the root is simply expanded by
`nn`.  The successor of the subtree root is `minT r` when `r` is non-empty
and the threaded ancestor `pr` otherwise.  When the abutting neighbour is the
*ancestor* the source would unlink a node above the recursion point; that
situation is impossible for calls arising from `insertT` — the recursion only
descends past an ancestor whose own adjacency test against `nn` failed, and
the very same test is the guard here — so the model keeps the tree shape and
only expands the root (the branch is dead code for every `insertT` call, as
the proof of `insertT_spec` shows). -/
def mergeAndExpandT (fs : FS) (l r : Tr) (nn : FS) (pl pr : Option FS) : Tr :=
  match Tr.minT r with
  | some m =>
    if isOv m nn then .node (mrgIv fs m) l (Tr.removeT r m)
    else mergeAndExpandPrev fs l r nn pl
  | none =>
    match pr with
    | some m =>
      if isOv m nn then .node (mrgIv fs m) l r  -- dead for `insertT` calls
      else mergeAndExpandPrev fs l r nn pl
    | none => mergeAndExpandPrev fs l r nn pl

/-- The deterministic half of `Insert`'s heapify step: rotate right when the
left child is strictly larger, else rotate left when the right child is
strictly larger.  (`root.left != nil` is subsumed: `rsz .nil = 0` is never
strictly greater than `fs.Size`.) -/
def heap1 : Tr → Tr
  | .nil => .nil
  | .node fs l r =>
    if Tr.rsz l > fs.Size then Tr.rotR (.node fs l r)
    else if Tr.rsz r > fs.Size then Tr.rotL (.node fs l r)
    else .node fs l r

/-- The randomized half of `Insert`'s heapify step: for an equal-sized left
(resp. right) child, rotate with probability one half (`fastrandn(10) < 5`).
Go's `&&` short-circuits, so a random bit is consumed exactly when the
corresponding structural test passes; if the left-side coin fails, the
right-side test (and possibly a second coin) is evaluated on the unchanged
root. -/
def heap2R (o : ℕ → Bool) : Tr → ℕ → Tr × ℕ
  | .nil, c => (.nil, c)
  | .node fs l r, c =>
    if r ≠ .nil ∧ Tr.rsz r = fs.Size then
      if o c then (Tr.rotL (.node fs l r), c + 1) else (.node fs l r, c + 1)
    else (.node fs l r, c)

/-- See `heap2R` for the right-child half. -/
def heap2 (o : ℕ → Bool) : Tr → ℕ → Tr × ℕ
  | .nil, c => (.nil, c)
  | .node fs l r, c =>
    if l ≠ .nil ∧ Tr.rsz l = fs.Size then
      if o c then (Tr.rotR (.node fs l r), c + 1)
      else heap2R o (.node fs l r) (c + 1)
    else heap2R o (.node fs l r) c

/-- `treap.Insert`.  `pl`/`pr` are the in-order neighbours contributed by the
ancestors (`nil`/`nil` at the top-level call from the free-space manager);
the `setNextPrev` bookkeeping of the source maintains exactly these links and
is implicit here.  Returns the new subtree and the advanced random counter. -/
def insertT (o : ℕ → Bool) : Tr → FS → Option FS → Option FS → ℕ → Tr × ℕ
  | .nil, nn, _, _, c => (.node nn .nil .nil, c)
  | .node fs l r, nn, pl, pr, c =>
    let s :=
      if isOv fs nn then (mergeAndExpandT fs l r nn pl pr, c)
      else if greaterF fs nn then
        let s' := insertT o l nn pl (some fs) c
        (Tr.node fs s'.1 r, s'.2)
      else
        let s' := insertT o r nn (some fs) pr c
        (Tr.node fs l s'.1, s'.2)
    heap2 o (heap1 s.1) s.2

/-! ## Gravity selection (`GreatestGravityNode`) -/

/-- Wrap-around distance `nextNode.Fs.Start - n.Fs.End` on `uint64`
(`Node.distance`); in every state the theorems reach, `m.Start > f.endp`, so
this equals the plain difference. -/
def distU (f m : FS) : ℕ := (m.Start + 2 ^ 64 - f.endp) % 2 ^ 64

/-- `Node.gravity` of a root with in-order successor `m`:
`size * size(next) / distance²`, and `-1` with no successor.  `float64`
arithmetic is modelled exactly over `ℚ`. -/
def gravQ (f : FS) : Option FS → ℚ
  | none => -1
  | some m => (f.Size * m.Size : ℚ) / ((distU f m : ℚ) ^ 2)

/-- Gravity of the root of subtree `t` whose nearest right-ancestor is `pr`. -/
def gravT : Tr → Option FS → ℚ
  | .nil, _ => -1  -- the `g(nil) = -1.0` wrapper in `GreatestGravityNode`
  | .node fs _ r, pr => gravQ fs ((Tr.minT r).orElse fun _ => pr)

/-- One descent of `GreatestGravityNode`'s crawl loop.  `rootFs` is the
interval of the tree the walk started from: if the crawl steps to a nil
child (possible only when the competing gravities are all `-1`), the source's
`for crawl != nil` loop exits and returns the original root. -/
def ggnGo (rootFs : FS) : Tr → ℕ → Option FS → FS
  | .nil, _, _ => rootFs
  | .node fs l r, size, pr =>
    -- children are considered only if they satisfy `min_size`
    let lE : Tr := if l ≠ .nil ∧ Tr.rsz l ≥ size then l else .nil
    let rE : Tr := if r ≠ .nil ∧ Tr.rsz r ≥ size then r else .nil
    if lE = .nil ∧ rE = .nil then fs
    else
      let ga := gravT (.node fs l r) pr
      let gb := gravT lE (some fs)
      let gc := gravT rE pr
      -- `max(crawl, l, r)` with the source's nested strict comparisons
      if ga > gb then
        if ga > gc then fs
        else ggnGo rootFs rE size pr
      else if gb > gc then ggnGo rootFs lE size (some fs)
      else ggnGo rootFs rE size pr
termination_by t => Tr.cnt t
decreasing_by
  all_goals split <;> simp_arith [Tr.cnt]

/-- `treap.GreatestGravityNode` (returns the chosen node's interval). -/
def ggnT (t : Tr) (size : ℕ) : FS :=
  ggnGo (Tr.rfs t) t size none

/-! ## `GetFittingNeighbours` -/

/-- The accumulation loop of `GetFittingNeighbours`: starting from the chosen
node (already in `fss` with its size in `ts`), extend along the successor
chain `nc`; when it is exhausted, extend along the predecessor chain `pc`
(prepending, so the result stays in ascending address order).  `none` models
the source's `panic("size not satisfied")`. -/
def fetchLoop (size : ℕ) : ℕ → List FS → List FS → List FS → Option (List FS × ℕ)
  | ts, fss, nc, pc =>
    if ts ≥ size then some (fss, ts)
    else
      match nc, pc with
      | n :: nc', pc => fetchLoop size (ts + n.Size) (fss ++ [n]) nc' pc
      | [], p :: pc' => fetchLoop size (ts + p.Size) (p :: fss) [] pc'
      | [], [] => none
termination_by _ _ nc pc => nc.length + pc.length

/-- `treap.GetFittingNeighbours`: collect the chosen node's interval together
with enough in-order neighbours to reach `size`, remove them all from the
tree, and return them in ascending order together with the new root and the
total size removed.  The node's successor/predecessor chains are the parts of
the in-order list after/before its interval `x` (which is how the source's
`next`/`prev` pointers are maintained). -/
def gfnT (t : Tr) (x : FS) (size : ℕ) : Option (List FS × Tr × ℕ) :=
  let l := Tr.toL t
  let before := l.takeWhile (fun f => f ≠ x)
  let after := (l.dropWhile (fun f => f ≠ x)).tail
  match fetchLoop size x.Size [x] after before.reverse with
  | none => none
  | some (fss, ts) => some (fss, fss.foldl Tr.removeT t, ts)

/-! ## The free-space manager (`fsm.go`) -/

/-- Errors visible in the model (Go `error` values and panics). -/
inductive GErr where
  | wrongReadPosition     -- `WrongReadPosition`
  | notEnoughSpace        -- `NotEnoughSpace`
  | outOfBound            -- `errors.New("out of bound")` in `Gravity.Read`
  | emptyFreespace        -- `errors.New("empty freespace")` in `fsm.add`
  | illegalPoolPut        -- `illegalPoolPut`
  | blocked               -- `pcond.Wait()` with no writer to wake us: not
                          -- reachable in the sequential executions modelled
  | panicMove             -- `panic("Trying to move src beyond size")`
  | panicSizeNotSatisfied -- `panic("size not satisfied")`
  | sliceBound            -- a Go slice-bounds runtime panic
deriving DecidableEq, Repr

/-- `freeSpaceManager` state: treap root, pool-tracked total free space and
the count of extracted (checked-out) bundles.  `extracted` is an `ℤ`
because the Go `int32` may be driven negative by `poolPut` (which is how
`illegalPoolPut` is detected). -/
structure FSMS where
  root : Tr
  tfs : ℕ
  extracted : ℤ
deriving Repr

/-- `newFSM`. -/
def newFSMS : FSMS := ⟨.nil, 0, 0⟩

/-- `fsm.add`: reject empty intervals, insert (merging with any abutting
interval) and account the added bytes.  `o`/`c` is the random oracle state
consumed by the insertion's heapify step. -/
def addF (o : ℕ → Bool) (st : FSMS) (fs : FS) (c : ℕ) : Except GErr FSMS × ℕ :=
  if fs.Size = 0 then (.error .emptyFreespace, c)
  else
    let s := insertT o st.root fs none none c
    (.ok { root := s.1, tfs := st.tfs + fs.Size, extracted := st.extracted }, s.2)

/-- `fsm.poolExtract`.  The condition-variable wait (`pcond.Wait` while the
root is too small and some other writer holds extracted space) cannot make
progress in a sequential execution; it is modelled by the `blocked` error and
is unreachable in every theorem below (they all carry `extracted = 0`). -/
def poolExtractF (st : FSMS) (size : ℕ) : Except GErr (List FS × FSMS) :=
  if (st.root = .nil ∨ Tr.rsz st.root < size) ∧ st.extracted > 0 then .error .blocked
  else if st.root = .nil ∨ st.tfs < size then .error .notEnoughSpace
  else
    let expectedNodeSize := if Tr.rsz st.root < size then 0 else size
    let nodeFs := ggnT st.root expectedNodeSize
    match gfnT st.root nodeFs size with
    | none => .error .panicSizeNotSatisfied
    | some (fss, nr, extractedSize) =>
      .ok (fss, { root := nr, tfs := st.tfs - extractedSize,
                  extracted := st.extracted + 1 })

/-- `fsm.poolPut`: decrement the extracted count (detecting
`illegalPoolPut`), drop empty intervals, insert non-empty ones.  The
decrement happens before the error return, exactly as in the source. -/
def poolPutF (o : ℕ → Bool) (st : FSMS) (fs : FS) (c : ℕ) :
    (FSMS × Option GErr) × ℕ :=
  let st1 : FSMS := { st with extracted := st.extracted - 1 }
  if st1.extracted < 0 then ((st1, some .illegalPoolPut), c)
  else if fs.Size = 0 then ((st1, none), c)
  else
    let s := insertT o st1.root fs none none c
    (({ root := s.1, tfs := st1.tfs + fs.Size, extracted := st1.extracted },
      none), s.2)

/-- `fsm.totalFreeSpaceSize`: waits until `extracted = 0`, then reads the
counter; the executions modelled are quiescent, so the wait is a no-op. -/
def totalFreeSpaceSizeF (st : FSMS) : ℕ := st.tfs


/-! ## The sharded key→position map (`vmap.go`) -/

/-- `maxBucket = 0x20`. -/
def maxBucket : ℕ := 32

/-- `bucketIdx`: `key & (maxBucket-1)`, i.e. `key % 32`. -/
def bucketIdx (k : ℕ) : ℕ := k % maxBucket

/-- Store into one shard's Go map (`silo.m[key] = value`): replace the
binding if the key is present, else add it. -/
def alStore (l : List (ℕ × ℕ)) (k v : ℕ) : List (ℕ × ℕ) :=
  if l.any (fun kv => kv.1 = k) then
    l.map (fun kv => if kv.1 = k then (k, v) else kv)
  else (k, v) :: l

/-- The sharded `vmap`: 32 buckets of key/value bindings. -/
structure VM where
  buckets : List (List (ℕ × ℕ))
deriving DecidableEq, Repr

/-- `newShardedStore`: all 32 buckets initialised empty. -/
def newShardedStore : VM := ⟨List.replicate maxBucket []⟩

namespace VM

/-- `vmap.store` (the bucket for `bucketIdx key` always exists). -/
def store (m : VM) (k v : ℕ) : VM :=
  ⟨m.buckets.set (bucketIdx k) (alStore (m.buckets.getD (bucketIdx k) []) k v)⟩

/-- `vmap.load`. -/
def load (m : VM) (k : ℕ) : Option ℕ :=
  ((m.buckets.getD (bucketIdx k) []).find? (fun kv => kv.1 = k)).map Prod.snd

/-- `vmap.loadAndDelete`: look up, and delete the binding when present. -/
def loadAndDelete (m : VM) (k : ℕ) : Option ℕ × VM :=
  match load m k with
  | none => (none, m)
  | some v =>
    (some v,
     ⟨m.buckets.set (bucketIdx k)
        ((m.buckets.getD (bucketIdx k) []).filter (fun kv => kv.1 ≠ k))⟩)

/-- All bindings, across shards (used to state the cover invariant). -/
def entries (m : VM) : List (ℕ × ℕ) := m.buckets.flatten

end VM

/-! ## Little-endian `uint64` encoding (`encoding/binary`) -/

/-- Byte buffer: byte value at each offset. -/
def Mem : Type := ℕ → ℕ

/-- Byte `i` of the little-endian encoding of `v`. -/
def byteAt (v i : ℕ) : ℕ := v / 256 ^ i % 256

/-- `binary.LittleEndian.PutUint64` at offset `pos`. -/
def wr64 (mem : Mem) (pos v : ℕ) : Mem :=
  fun i => if pos ≤ i ∧ i < pos + 8 then byteAt v (i - pos) else mem i

/-- `binary.LittleEndian.Uint64` at offset `pos`. -/
def rd64 (mem : Mem) (pos : ℕ) : ℕ :=
  ((List.range 8).map (fun i => mem (pos + i) * 256 ^ i)).sum

/-! ## The arena façade (`gravity.go`) -/

/-- `Gravity` state.  `oracle`/`octr` thread the random bits consumed by the
treap insertions (see the file header). -/
structure GS where
  mem : Mem
  size : ℕ
  key : ℕ
  vmap : VM
  fsm : FSMS
  oracle : ℕ → Bool
  octr : ℕ

/-- `NewGravity`: requires `len(mem) > HeaderLen+KeyLen = 16` and seeds the
free-space manager with one interval covering the whole buffer (that `add`
cannot fail since the interval is non-empty). -/
def newGravityG (mem : Mem) (size : ℕ) (o : ℕ → Bool) : Option GS :=
  if size ≤ 16 then none
  else
    match addF o newFSMS ⟨0, size - 1⟩ 0 with
    | (.error _, _) => none
    | (.ok fsms, c) =>
      some { mem := mem, size := size, key := 1, vmap := newShardedStore,
             fsm := fsms, oracle := o, octr := c }

/-- `Gravity.writeAt`: 8 bytes little-endian length, 8 bytes little-endian
key, then the payload.  (The `n != len(data)` error branch is dead code:
`copy` between equal-length views always copies everything; a Go
slice-bounds panic cannot occur in any state the theorems reach, where the
target interval lies inside the buffer.) -/
def writeAtG (mem : Mem) (pos : ℕ) (data : List ℕ) (k : ℕ) : Mem :=
  let m2 := wr64 (wr64 mem pos data.length) (pos + 8) k
  fun i =>
    if pos + 16 ≤ i ∧ i < pos + 16 + data.length then data.getD (i - (pos + 16)) 0
    else m2 i

/-- The header walk of `Gravity.readAndShift`: step record by record through
`[start, srcEnd)` using the in-buffer length/key headers, re-pointing each
key in the vmap to its destination offset.  `none` is the
`panic("Trying to move src beyond size")` check. -/
def rasLoop (mem : Mem) (gsize srcEnd dstStart : ℕ) :
    VM → ℕ → ℕ → Option VM
  | vm, start, run =>
    if start < srcEnd then
      if start + 16 > gsize then none
      else
        let dl := rd64 mem start
        let key := rd64 mem (start + 8)
        rasLoop mem gsize srcEnd dstStart (vm.store key (dstStart + run))
          (start + (dl + 16)) (run + (dl + 16))
    else some vm
termination_by _ start _ => srcEnd - start
decreasing_by omega

/-- Go's `copy(dst, src)` of `min` length (memmove semantics). -/
def memCopy (mem : Mem) (dstStart dstEnd srcStart srcEnd : ℕ) : Mem :=
  let n := min (dstEnd - dstStart) (srcEnd - srcStart)
  fun i => if dstStart ≤ i ∧ i < dstStart + n then mem (srcStart + (i - dstStart)) else mem i

/-- `Gravity.readAndShift`: re-point the vmap entries of every record in
`[srcStart, srcEnd)`, then move the bytes to `[dstStart, dstEnd)`. -/
def readAndShiftG (g : GS) (srcStart srcEnd dstStart dstEnd : ℕ) : Option GS :=
  match rasLoop g.mem g.size srcEnd dstStart g.vmap srcStart 0 with
  | none => none
  | some vm' =>
    some { g with vmap := vm', mem := memCopy g.mem dstStart dstEnd srcStart srcEnd }

/-- `Gravity.merge`: left-shift the run of live records between each
adjacent pair of bundle intervals, fusing the free space into the final
interval, which is returned.  (`[]` cannot be produced by `poolExtract`; the
source would index `fss[len(fss)-1]` out of range.) -/
def mergeG (g : GS) : List FS → Option (GS × FS)
  | [] => none
  | [fs] => some (g, fs)
  | fs :: nfs :: rest =>
    let destEnd := fs.Start + (nfs.Start - fs.endp - 1)
    match readAndShiftG g (fs.endp + 1) nfs.Start fs.Start destEnd with
    | none => none
    | some g' => mergeG g' ({ nfs with Start := destEnd } :: rest)
termination_by fss => fss.length

/-- `Gravity.write` (the unexported one): extract a bundle, merge it, write
the record at the head of the fused interval, publish the key's position,
and return the shrunken tail to the pool (the source's deferred
`poolPut`). -/
def writeInner (g : GS) (data : List ℕ) (k : ℕ) : Except GErr Unit × GS :=
  let totalLen := 16 + data.length
  match poolExtractF g.fsm totalLen with
  | .error e => (.error e, g)
  | .ok (fss, fsm1) =>
    let g1 := { g with fsm := fsm1 }
    match mergeG g1 fss with
    | none => (.error .panicMove, g1)
    | some (g2, fs) =>
      let npos := fs.Start
      let g3 := { g2 with mem := writeAtG g2.mem npos data k }
      let g4 := { g3 with vmap := g3.vmap.store k npos }
      let fs' := { fs with Start := fs.Start + totalLen }
      let s := poolPutF g4.oracle g4.fsm fs' g4.octr
      (.ok (), { g4 with fsm := s.1.1, octr := s.2 })

/-- `Gravity.Write`: allocate a fresh key (`atomic.AddUint64`, which wraps
at `2 ^ 64`), then run the write; the key is consumed even when the write
fails. -/
def writeG (g : GS) (data : List ℕ) : (ℕ × Option GErr) × GS :=
  let k := (g.key + 1) % 2 ^ 64
  let g0 := { g with key := k }
  match writeInner g0 data k with
  | (.ok _, g') => ((k, none), g')
  | (.error e, g') => ((k, some e), g')

/-- `Gravity.Read`: pure with respect to the arena state.  An unknown key
fails with `WrongReadPosition`; a stored position `≥ size` fails with the
*distinct* error `errors.New("out of bound")`; the two inner `sliceBound`
guards model the Go slice-bounds panics of `mem[pos:pos+8]` and
`mem[pos+16:pos+16+dl]` (unreachable from states with a consistent vmap). -/
def readG (g : GS) (key : ℕ) : Except GErr (List ℕ) :=
  match g.vmap.load key with
  | none => .error .wrongReadPosition
  | some pos =>
    if pos ≥ g.size then .error .outOfBound
    else if pos + 8 > g.size then .error .sliceBound
    else
      let dl := rd64 g.mem pos
      if pos + 16 + dl > g.size then .error .sliceBound
      else .ok ((List.range dl).map (fun j => g.mem (pos + 16 + j)))

/-- `Gravity.Free`: remove the key's binding, read the stored length, and
hand the record's whole span back to the free-space manager (which merges it
with abutting free intervals).  `Free` performs no bounds check of its own;
the `sliceBound` guard models the Go slice panic of `mem[pos:pos+8]`. -/
def freeG (g : GS) (key : ℕ) : Except GErr Unit × GS :=
  match g.vmap.loadAndDelete key with
  | (none, _) => (.error .wrongReadPosition, g)
  | (some pos, vm') =>
    if pos + 8 > g.size then (.error .sliceBound, { g with vmap := vm' })
    else
      let dl := rd64 g.mem pos
      let s := addF g.oracle g.fsm ⟨pos, pos + (16 + dl) - 1⟩ g.octr
      match s.1 with
      | .error e => (.error e, { g with vmap := vm', octr := s.2 })
      | .ok fsm' => (.ok (), { g with vmap := vm', fsm := fsm', octr := s.2 })

/-- `Gravity.TotalFreeSpace` (quiescent: the manager's wait for outstanding
extractions is a no-op when `extracted = 0`, which every theorem below
guarantees). -/
def totalFreeSpaceG (g : GS) : ℕ := totalFreeSpaceSizeF g.fsm

/-- User-level operations for whole-trace statements. -/
inductive Op where
  | write (data : List ℕ)
  | free (k : ℕ)
  | read (k : ℕ)

/-- State transition of one operation (`Read` does not change state). -/
def execOp (g : GS) : Op → GS
  | .write d => (writeG g d).2
  | .free k => (freeG g k).2
  | .read _ => g

/-- Run a list of operations. -/
def execOps (g : GS) (ops : List Op) : GS := ops.foldl execOp g

/-! ## Basic facts used by several claims -/

theorem szSum_ge_of_mem {f : FS} {l : List FS} (h : f ∈ l) : f.Size ≤ szSum l := by
  induction l with
  | nil => cases h
  | cons a l ih =>
    rcases List.mem_cons.mp h with rfl | h'
    · simp [szSum_cons]
    · have := ih h'
      simp [szSum_cons]; omega

theorem rfs_mem_toL {t : Tr} (h : t ≠ .nil) : Tr.rfs t ∈ Tr.toL t := by
  cases t with
  | nil => exact absurd rfl h
  | node fs l r => simp [Tr.toL, Tr.rfs]

theorem rsz_eq_rfs {t : Tr} (h : t ≠ .nil) : Tr.rsz t = (Tr.rfs t).Size := by
  cases t with
  | nil => exact absurd rfl h
  | node fs l r => rfl

/-- The gravity crawl returns either the interval of some node of the tree it
crawls, or (when the loop steps to a nil child) the original root's interval;
and under the `min_size` filter, whenever the starting interval and the tree
root satisfy the size bound, so does the returned interval. -/
theorem ggnGo_spec (rootFs : FS) (t : Tr) (size : ℕ) (pr : Option FS) :
    (ggnGo rootFs t size pr = rootFs ∨ ggnGo rootFs t size pr ∈ Tr.toL t) ∧
    (rootFs.Size ≥ size → (t = .nil ∨ Tr.rsz t ≥ size) →
      (ggnGo rootFs t size pr).Size ≥ size) := by
  induction t, size, pr using ggnGo.induct rootFs with
  | case1 size pr =>
    refine ⟨Or.inl (by simp [ggnGo]), fun hroot _ => ?_⟩
    simpa [ggnGo] using hroot
  | case2 fs l r size pr lE rE hnil =>
    simp only [lE, rE, dite_eq_ite] at hnil
    simp only [ggnGo, if_pos hnil]
    refine ⟨Or.inr (by simp [Tr.toL]), fun _ ht => ?_⟩
    rcases ht with ht | ht
    · cases ht
    · simpa [Tr.rsz] using ht
  | case3 fs l r size pr lE rE hnil ga gb gc hga hgc =>
    simp only [lE, rE, dite_eq_ite] at hnil
    simp only [ga, gb, gc, lE, rE, dite_eq_ite] at hga hgc
    simp only [ggnGo, if_neg hnil, if_pos hga, if_pos hgc]
    refine ⟨Or.inr (by simp [Tr.toL]), fun _ ht => ?_⟩
    rcases ht with ht | ht
    · cases ht
    · simpa [Tr.rsz] using ht
  | case4 fs l r size pr lE rE hnil ga gb gc hga hgc ih =>
    simp only [lE, rE, dite_eq_ite] at hnil
    simp only [ga, gb, gc, lE, rE, dite_eq_ite] at hga hgc
    simp only [lE, rE, dite_eq_ite] at ih
    simp only [ggnGo, if_neg hnil, if_pos hga, if_neg hgc]
    by_cases hc : r ≠ Tr.nil ∧ Tr.rsz r ≥ size
    · rw [if_pos hc] at ih ⊢
      refine ⟨?_, fun hroot _ => ih.2 hroot (Or.inr hc.2)⟩
      rcases ih.1 with h | h
      · exact Or.inl h
      · exact Or.inr (by simp only [Tr.toL, List.mem_append, List.mem_cons]; tauto)
    · rw [if_neg hc] at ih ⊢
      refine ⟨?_, fun hroot _ => ih.2 hroot (Or.inl rfl)⟩
      rcases ih.1 with h | h
      · exact Or.inl h
      · simp [Tr.toL] at h
  | case5 fs l r size pr lE rE hnil ga gb gc hga hgb ih =>
    simp only [lE, rE, dite_eq_ite] at hnil
    simp only [ga, gb, gc, lE, rE, dite_eq_ite] at hga hgb
    simp only [lE, rE, dite_eq_ite] at ih
    simp only [ggnGo, if_neg hnil, if_neg hga, if_pos hgb]
    by_cases hc : l ≠ Tr.nil ∧ Tr.rsz l ≥ size
    · rw [if_pos hc] at ih ⊢
      refine ⟨?_, fun hroot _ => ih.2 hroot (Or.inr hc.2)⟩
      rcases ih.1 with h | h
      · exact Or.inl h
      · exact Or.inr (by simp only [Tr.toL, List.mem_append, List.mem_cons]; tauto)
    · rw [if_neg hc] at ih ⊢
      refine ⟨?_, fun hroot _ => ih.2 hroot (Or.inl rfl)⟩
      rcases ih.1 with h | h
      · exact Or.inl h
      · simp [Tr.toL] at h
  | case6 fs l r size pr lE rE hnil ga gb gc hga hgb ih =>
    simp only [lE, rE, dite_eq_ite] at hnil
    simp only [ga, gb, gc, lE, rE, dite_eq_ite] at hga hgb
    simp only [lE, rE, dite_eq_ite] at ih
    simp only [ggnGo, if_neg hnil, if_neg hga, if_neg hgb]
    by_cases hc : r ≠ Tr.nil ∧ Tr.rsz r ≥ size
    · rw [if_pos hc] at ih ⊢
      refine ⟨?_, fun hroot _ => ih.2 hroot (Or.inr hc.2)⟩
      rcases ih.1 with h | h
      · exact Or.inl h
      · exact Or.inr (by simp only [Tr.toL, List.mem_append, List.mem_cons]; tauto)
    · rw [if_neg hc] at ih ⊢
      refine ⟨?_, fun hroot _ => ih.2 hroot (Or.inl rfl)⟩
      rcases ih.1 with h | h
      · exact Or.inl h
      · simp [Tr.toL] at h

/-- Exit case of the accumulation loop: the already-accumulated size
suffices. -/
theorem fetchLoop_exit {size ts : ℕ} (h : ts ≥ size) (fss nc pc : List FS) :
    fetchLoop size ts fss nc pc = some (fss, ts) := by
  rw [fetchLoop.eq_def]
  exact if_pos h

/-- **C7.**  Whenever `poolExtract(required_size)` runs against a manager
whose treap root interval already has size at least `required_size` (with the
pool counter consistent: `totalFreeSpace` is the sum of the treap's interval
sizes), the returned bundle is exactly one interval, and that interval's size
is at least `required_size`: the greatest-gravity selector is constrained to
nodes of size `≥ required_size`, and `GetFittingNeighbours` exits its
accumulation loop immediately on a sufficient node. -/
theorem C7_poolExtract_single_node (st : FSMS) (req : ℕ)
    (htfs : st.tfs = szSum (Tr.toL st.root))
    (hne : st.root ≠ .nil)
    (hroot : Tr.rsz st.root ≥ req) :
    ∃ x fsm2, poolExtractF st req = .ok ([x], fsm2) ∧ req ≤ x.Size := by
  have hx := ggnGo_spec (Tr.rfs st.root) st.root req none
  have hxsz : req ≤ (ggnT st.root req).Size := by
    refine hx.2 ?_ (Or.inr hroot)
    rwa [← rsz_eq_rfs hne]
  have htfsge : req ≤ st.tfs := by
    have h1 : (Tr.rfs st.root).Size ≤ szSum (Tr.toL st.root) :=
      szSum_ge_of_mem (rfs_mem_toL hne)
    have h2 := rsz_eq_rfs hne
    omega
  refine ⟨ggnT st.root req,
    { root := [ggnT st.root req].foldl Tr.removeT st.root,
      tfs := st.tfs - (ggnT st.root req).Size,
      extracted := st.extracted + 1 }, ?_, hxsz⟩
  rw [poolExtractF]
  rw [if_neg (fun hc => absurd hc.1 (by push_neg; exact ⟨hne, by omega⟩))]
  rw [if_neg (by push_neg; exact ⟨hne, by omega⟩)]
  have hexp : (if Tr.rsz st.root < req then 0 else req) = req := by
    rw [if_neg (by omega)]
  simp only [hexp, gfnT, fetchLoop_exit hxsz]

/-- The single-node extraction at a concrete manager state. -/
theorem C7_witness :
    (10 : ℕ) = szSum (Tr.toL (.node ⟨0, 9⟩ .nil .nil)) ∧
    (Tr.node ⟨0, 9⟩ .nil .nil ≠ .nil) ∧
    Tr.rsz (.node ⟨0, 9⟩ .nil .nil) ≥ 5 ∧
    ∃ x fsm2,
      poolExtractF ⟨.node ⟨0, 9⟩ .nil .nil, 10, 0⟩ 5 = .ok ([x], fsm2) ∧ 5 ≤ x.Size :=
  ⟨by decide, by decide, by decide,
   C7_poolExtract_single_node ⟨.node ⟨0, 9⟩ .nil .nil, 10, 0⟩ 5
     (by decide) (by decide) (by decide)⟩

/-- **C10.**  `FreeSpace.Size` is total and never underflows: it returns
`End − Start + 1` for a proper interval and `0` whenever `Start > End`.
Consequently the zero-sized tail interval of a write that consumed its whole
bundle (its `Start` advanced to `End + 1`) is treated as empty by `poolPut`:
the extracted count is decremented but nothing is inserted into the treap and
`totalFreeSpace` is unchanged. -/
theorem C10_size_total_poolPut_empty :
    (∀ fs : FS, fs.Start ≤ fs.endp → fs.Size = fs.endp - fs.Start + 1) ∧
    (∀ fs : FS, fs.Start > fs.endp → fs.Size = 0) ∧
    (∀ (o : ℕ → Bool) (st : FSMS) (e c : ℕ), 1 ≤ st.extracted →
      poolPutF o st ⟨e + 1, e⟩ c =
        (({ st with extracted := st.extracted - 1 }, none), c)) := by
  refine ⟨fun fs h => ?_, fun fs h => ?_, fun o st e c h => ?_⟩
  · rw [FS.Size, if_neg (by omega)]
  · rw [FS.Size, if_pos h]
  · have h1 : ¬ ((st.extracted - 1 : ℤ) < 0) := by omega
    have hsz : (⟨e + 1, e⟩ : FS).Size = 0 := by
      rw [FS.Size]; exact if_pos (by show e + 1 > e; omega)
    simp only [poolPutF, hsz]
    rw [if_neg h1]
    simp

/-- `FS.Size` and the empty-tail `poolPut` evaluated at concrete inputs. -/
theorem C10_witness :
    ((⟨2, 5⟩ : FS).Start ≤ (⟨2, 5⟩ : FS).endp ∧ (⟨2, 5⟩ : FS).Size = 5 - 2 + 1) ∧
    ((⟨6, 5⟩ : FS).Start > (⟨6, 5⟩ : FS).endp ∧ (⟨6, 5⟩ : FS).Size = 0) ∧
    ((1 : ℤ) ≤ (1 : ℤ) ∧
      poolPutF (fun _ => true) ⟨.nil, 7, 1⟩ ⟨6, 5⟩ 0 =
        ((⟨.nil, 7, 0⟩, none), 0)) :=
  ⟨⟨by decide, C10_size_total_poolPut_empty.1 ⟨2, 5⟩ (by decide)⟩,
   ⟨by decide, C10_size_total_poolPut_empty.2.1 ⟨6, 5⟩ (by decide)⟩,
   ⟨le_refl 1, C10_size_total_poolPut_empty.2.2 (fun _ => true) ⟨.nil, 7, 1⟩ 6 0
      (le_refl 1)⟩⟩

/-- A manufactured arena state whose key→position map stores an
out-of-bounds position (the situation claim C3's defensive check is about). -/
def c3g : GS :=
  { mem := fun _ => 0, size := 20, key := 1,
    vmap := VM.store newShardedStore 5 100,
    fsm := newFSMS, oracle := fun _ => true, octr := 0 }

/-- **C3 (counterexample).**  In `gravity.go`, `Read` with a stored position
`≥ size` fails with `errors.New("out of bound")`, which is a *different*
error value from `WrongReadPosition`: at a state whose map sends key `5` to
position `100` in a 20-byte arena, `Read(5)` does not return
`WrongReadPosition`. -/
theorem C3_counterexample :
    VM.load c3g.vmap 5 = some 100 ∧ 100 ≥ c3g.size ∧
    readG c3g 5 = .error .outOfBound ∧
    readG c3g 5 ≠ .error .wrongReadPosition := by
  refine ⟨by decide, by decide, rfl, fun h => ?_⟩
  rw [show readG c3g 5 = Except.error GErr.outOfBound from rfl] at h
  exact absurd (Except.error.inj h) (by decide)

/-- **C3 (amended).**  If `read(key)` finds the key in the key→position map
but the stored position is out of bounds (`pos ≥ size`), it fails with the
dedicated out-of-bounds error (`errors.New("out of bound")`), not with
`WrongReadPosition`. -/
theorem C3_read_out_of_bound (g : GS) (k p : ℕ)
    (hload : VM.load g.vmap k = some p) (hp : p ≥ g.size) :
    readG g k = .error .outOfBound := by
  simp only [readG, hload]
  rw [if_pos hp]

/-- The amended C3 behaviour at the concrete state `c3g`. -/
theorem C3_witness :
    VM.load c3g.vmap 5 = some 100 ∧ 100 ≥ c3g.size ∧
    readG c3g 5 = .error .outOfBound :=
  ⟨by decide, by decide, C3_read_out_of_bound c3g 5 100 (by decide) (by decide)⟩

/-- A fresh 20-byte arena (what `NewGravity(make([]byte, 20))` constructs). -/
def c4g : GS :=
  { mem := fun _ => 0, size := 20, key := 1, vmap := newShardedStore,
    fsm := ⟨.node ⟨0, 19⟩ .nil .nil, 20, 0⟩,
    oracle := fun _ => true, octr := 0 }

theorem c4g_is_new : newGravityG (fun _ => 0) 20 (fun _ => true) = some c4g := rfl

/-- **C4 (counterexample).**  A `Write` that fails with `NotEnoughSpace`
does *not* leave the arena exactly as if the call had never happened: the
key counter was already incremented by `Write` before the space check, so
the failed call consumes a key.  Concretely, on a fresh 20-byte arena
(counter = 1), writing a 5-byte payload fails with `NotEnoughSpace` yet the
counter afterwards is 2. -/
theorem C4_counterexample :
    (writeG c4g (List.replicate 5 0)).1.2 = some .notEnoughSpace ∧
    c4g.key = 1 ∧ (writeG c4g (List.replicate 5 0)).2.key = 2 := by
  refine ⟨by decide, by decide, by decide⟩

/-- **C4 (amended).**  When `write` fails with `NotEnoughSpace`, no buffer
byte is modified, no key→position entry is added or removed, and the
free-space treap, `totalFreeSpace` and the extracted count are exactly as
before the call — the *only* state change is the key counter, which was
atomically incremented before the space check (the failed call consumes a
key, so subsequent key values differ from an execution in which the call
never happened). -/
theorem C4_write_notEnoughSpace (g : GS) (data : List ℕ)
    (h : (writeG g data).1.2 = some .notEnoughSpace) :
    (writeG g data).2 = { g with key := (g.key + 1) % 2 ^ 64 } := by
  cases hpe : poolExtractF ({ g with key := (g.key + 1) % 2 ^ 64 } : GS).fsm
      (16 + data.length) with
  | error e => simp only [writeG, writeInner, hpe]
  | ok v =>
    exfalso
    rcases v with ⟨fss, fsm1⟩
    cases hm : mergeG { g with key := (g.key + 1) % 2 ^ 64, fsm := fsm1 } fss with
    | none =>
      simp only [writeG, writeInner, hpe, hm] at h
      exact absurd (Option.some.inj h) (by decide)
    | some gfs =>
      simp only [writeG, writeInner, hpe, hm] at h
      exact Option.noConfusion h

/-- The amended C4 behaviour at the fresh 20-byte arena. -/
theorem C4_witness :
    (writeG c4g (List.replicate 5 0)).1.2 = some .notEnoughSpace ∧
    (writeG c4g (List.replicate 5 0)).2 = { c4g with key := (c4g.key + 1) % 2 ^ 64 } :=
  ⟨by decide, C4_write_notEnoughSpace c4g (List.replicate 5 0) (by decide)⟩

/-! ## List-level facts about the treap operations -/

/-- The in-order neighbour lists contributed by an optional ancestor. -/
def optL : Option FS → List FS
  | none => []
  | some f => [f]

theorem optL_mem {p : Option FS} {f : FS} (h : f ∈ optL p) : p = some f := by
  cases p with
  | none => cases h
  | some q => simp [optL] at h; simp [h]

theorem sep_irrefl {a : FS} (ha : properIv a) : ¬ sep a a := by
  simp [sep, properIv] at *; omega

theorem sep_ne {a b : FS} (ha : properIv a) (h : sep a b) : a ≠ b := by
  rintro rfl; exact sep_irrefl ha h

theorem sep_trans_mid {x m y : FS} (hm : properIv m) (h₁ : sep x m) (h₂ : sep m y) :
    sep x y := by
  simp [sep, properIv] at *; omega

theorem sep_to_gt {a b : FS} (ha : properIv a) (h : sep a b) : greaterF b a := by
  simp [sep, properIv, greaterF] at *
  rw [if_neg (by omega)]
  omega

theorem greaterF_asymm {a b : FS} (h : greaterF a b) : ¬ greaterF b a := by
  simp only [greaterF] at *
  by_cases hs : a.Start = b.Start
  · rw [if_pos hs] at h
    rw [if_pos hs.symm]
    omega
  · rw [if_neg hs] at h
    rw [if_neg (fun hc => hs hc.symm)]
    omega

theorem greaterF_total_eq {a b : FS} (h₁ : ¬ greaterF a b) (h₂ : ¬ greaterF b a) :
    a = b := by
  simp [greaterF] at h₁ h₂
  by_cases hs : a.Start = b.Start
  · rw [if_pos hs] at h₁; rw [if_pos hs.symm] at h₂
    cases a; cases b
    simp_all; omega
  · rw [if_neg hs] at h₁; rw [if_neg (Ne.symm hs)] at h₂
    exact absurd (Nat.le_antisymm (by omega) (by omega)) hs

/-- Rotations do not change the in-order sequence. -/
theorem toL_rotR (t : Tr) : (Tr.rotR t).toL = t.toL := by
  cases t with
  | nil => rfl
  | node fs l r =>
    cases l with
    | nil => rfl
    | node lf ll lr => simp [Tr.rotR, Tr.toL]

theorem toL_rotL (t : Tr) : (Tr.rotL t).toL = t.toL := by
  cases t with
  | nil => rfl
  | node fs l r =>
    cases r with
    | nil => rfl
    | node rf rl rr => simp [Tr.rotL, Tr.toL]

theorem toL_heap1 (t : Tr) : (heap1 t).toL = t.toL := by
  cases t with
  | nil => rfl
  | node fs l r =>
    rw [heap1]
    split
    · exact toL_rotR _
    · split
      · exact toL_rotL _
      · rfl

theorem toL_heap2R (o : ℕ → Bool) (t : Tr) (c : ℕ) : (heap2R o t c).1.toL = t.toL := by
  cases t with
  | nil => rfl
  | node fs l r =>
    rw [heap2R]
    split
    · split
      · exact toL_rotL _
      · rfl
    · rfl

theorem toL_heap2 (o : ℕ → Bool) (t : Tr) (c : ℕ) : (heap2 o t c).1.toL = t.toL := by
  cases t with
  | nil => rfl
  | node fs l r =>
    rw [heap2]
    split
    · split
      · exact toL_rotR _
      · exact toL_heap2R _ _ _
    · exact toL_heap2R _ _ _

/-- `minT` is the head of the in-order list. -/
theorem minT_eq_head (t : Tr) : t.minT = t.toL.head? := by
  induction t with
  | nil => rfl
  | node fs l r ihl ihr =>
    rw [Tr.minT, Tr.toL, ihl]
    cases hl : l.toL with
    | nil => simp
    | cons a tl => simp

theorem getLast?_cons_getD {α : Type} (a : α) (xs : List α) :
    (a :: xs).getLast? = some (xs.getLast?.getD a) := by
  induction xs generalizing a with
  | nil => rfl
  | cons b tl ih =>
    rw [List.getLast?_cons_cons, ih b]
    simp

/-- `maxT` is the last element of the in-order list. -/
theorem maxT_eq_getLast (t : Tr) : t.maxT = t.toL.getLast? := by
  induction t with
  | nil => rfl
  | node fs l r ihl ihr =>
    rw [Tr.maxT, Tr.toL, ihr, List.getLast?_append, getLast?_cons_getD]
    simp [Option.or]

/-- Removing a root merges the two child sequences. -/
theorem toL_removeRoot (l r : Tr) : (Tr.removeRoot l r).toL = l.toL ++ r.toL := by
  induction l, r using Tr.removeRoot.induct with
  | case1 r => simp [Tr.removeRoot, Tr.toL]
  | case2 l h =>
    cases l with
    | nil => simp [Tr.removeRoot, Tr.toL]
    | node lf ll lr => simp [Tr.removeRoot, Tr.toL]
  | case3 lf ll lr rf rl rr hgt ih =>
    rw [Tr.removeRoot, if_pos hgt]
    simp only [Tr.toL, ih]
    simp [Tr.toL]
  | case4 lf ll lr rf rl rr hgt ih =>
    rw [Tr.removeRoot, if_neg hgt]
    simp only [Tr.toL, ih]
    simp [Tr.toL]

/-- `greaterF` is irreflexive. -/
theorem greaterF_irrefl (a : FS) : ¬ greaterF a a := by
  simp [greaterF]

theorem greaterF_ne {a b : FS} (h : greaterF a b) : a ≠ b := by
  rintro rfl; exact greaterF_irrefl a h

theorem greaterF_trans {a b c : FS} (h₁ : greaterF a b) (h₂ : greaterF b c) :
    greaterF a c := by
  simp only [greaterF] at *
  by_cases hab : a.Start = b.Start
  · rw [if_pos hab] at h₁
    by_cases hbc : b.Start = c.Start
    · rw [if_pos hbc] at h₂
      rw [if_pos (hab.trans hbc)]
      omega
    · rw [if_neg hbc] at h₂
      rw [if_neg (by omega)]
      omega
  · rw [if_neg hab] at h₁
    by_cases hbc : b.Start = c.Start
    · rw [if_pos hbc] at h₂
      rw [if_neg (by omega)]
      omega
    · rw [if_neg hbc] at h₂
      rw [if_neg (by omega)]
      omega

/-- `Remove` erases exactly the requested interval from the in-order
sequence (the BST discipline is provided by the pairwise-`greaterF`
hypothesis on the in-order list). -/
theorem toL_removeT {t : Tr} (x : FS)
    (hpw : t.toL.Pairwise (fun a b => greaterF b a)) :
    (t.removeT x).toL = t.toL.erase x := by
  induction t with
  | nil => rfl
  | node fs l r ihl ihr =>
    rw [Tr.toL] at hpw
    have hl : l.toL.Pairwise (fun a b => greaterF b a) :=
      hpw.sublist (List.sublist_append_left _ _)
    have hr : r.toL.Pairwise (fun a b => greaterF b a) :=
      hpw.sublist ((List.sublist_cons_self _ _).trans (List.sublist_append_right _ _))
    have hmid := List.pairwise_append.mp hpw
    have hfsR : ∀ b ∈ r.toL, greaterF b fs :=
      fun b hb => (List.pairwise_cons.mp hmid.2.1).1 b hb
    have hLfs : ∀ b ∈ l.toL, greaterF fs b :=
      fun b hb => hmid.2.2 b hb fs (by simp)
    rw [Tr.removeT]
    by_cases h1 : greaterF fs x
    · rw [if_pos h1]
      have hxR : x ∉ r.toL := fun hm =>
        greaterF_ne (greaterF_trans (hfsR x hm) h1) rfl
      have hxfs : fs ≠ x := greaterF_ne h1
      simp only [Tr.toL, ihl hl]
      by_cases hxL : x ∈ l.toL
      · rw [List.erase_append_left _ hxL]
      · rw [List.erase_of_not_mem hxL, List.erase_append_right _ hxL,
          List.erase_cons_tail (by simp [hxfs]), List.erase_of_not_mem hxR]
    · rw [if_neg h1]
      by_cases h2 : greaterF x fs
      · rw [if_pos h2]
        have hxL : x ∉ l.toL := fun hm =>
          greaterF_ne (greaterF_trans h2 (hLfs x hm)) rfl
        have hxfs : fs ≠ x := fun hc => greaterF_ne h2 hc.symm
        simp only [Tr.toL, ihr hr]
        rw [List.erase_append_right _ hxL, List.erase_cons_tail (by simp [hxfs])]
      · rw [if_neg h2]
        have hx : fs = x := greaterF_total_eq h1 h2
        subst hx
        have hxL : fs ∉ l.toL := fun hm => greaterF_ne (hLfs fs hm) rfl
        simp only [Tr.toL]
        rw [toL_removeRoot, List.erase_append_right _ hxL, List.erase_cons_head]

/-! ## Pairwise-separation helpers for the insertion invariant -/

theorem covL_nil (i : ℕ) : covL [] i ↔ False := by simp [covL]

theorem covL_cons {f : FS} {l : List FS} {i : ℕ} :
    covL (f :: l) i ↔ inIv i f ∨ covL l i := by
  simp [covL]

theorem covL_append {l₁ l₂ : List FS} {i : ℕ} :
    covL (l₁ ++ l₂) i ↔ covL l₁ i ∨ covL l₂ i := by
  simp [covL, or_and_right, exists_or]

/-- Decompose a pairwise-separated list around a distinguished element. -/
theorem pairwise_extract {xs ys : List FS} {a : FS}
    (h : (xs ++ a :: ys).Pairwise sep) :
    (∀ x ∈ xs, sep x a) ∧ (∀ y ∈ ys, sep a y) ∧
    xs.Pairwise sep ∧ ys.Pairwise sep ∧ (∀ x ∈ xs, ∀ y ∈ ys, sep x y) := by
  have h1 := List.pairwise_append.mp h
  have h2 := List.pairwise_cons.mp h1.2.1
  refine ⟨fun x hx => h1.2.2 x hx a (by simp), h2.1, h1.1, h2.2, ?_⟩
  exact fun x hx y hy => h1.2.2 x hx y (by simp [hy])

/-- Replace the block around a distinguished element by a single interval
`c`, possibly dropping some (sublist) of the outer elements. -/
theorem pairwise_mid3 {xs xs' ys ys' : List FS} {a c : FS}
    (h : (xs ++ a :: ys).Pairwise sep)
    (hxs : xs'.Sublist xs) (hys : ys'.Sublist ys)
    (hL : ∀ x ∈ xs', sep x c) (hR : ∀ y ∈ ys', sep c y) :
    (xs' ++ c :: ys').Pairwise sep := by
  obtain ⟨-, -, hxp, hyp, hxy⟩ := pairwise_extract h
  rw [List.pairwise_append]
  refine ⟨hxp.sublist hxs, List.pairwise_cons.mpr ⟨hR, hyp.sublist hys⟩, ?_⟩
  rintro x hx y hy
  rcases List.mem_cons.mp hy with rfl | hy'
  · exact hL x hx
  · exact hxy x (hxs.mem hx) y (hys.mem hy')

/-- Graft a rebuilt left part onto the untouched right part, bridging
through the (proper) pivot `fs`. -/
theorem pairwise_graft (AL : List FS) {fs : FS} (RB : List FS)
    (h1 : (AL ++ [fs]).Pairwise sep)
    (h2 : (fs :: RB).Pairwise sep)
    (hp : properIv fs) :
    (AL ++ fs :: RB).Pairwise sep := by
  have e1 := List.pairwise_append.mp h1
  have e2 := List.pairwise_cons.mp h2
  rw [List.pairwise_append]
  refine ⟨e1.1, h2, ?_⟩
  rintro x hx y hy
  have hxfs : sep x fs := e1.2.2 x hx fs (by simp)
  rcases List.mem_cons.mp hy with rfl | hy'
  · exact hxfs
  · exact sep_trans_mid hp hxfs (e2.1 y hy')

/-- A pairwise-separated list of proper intervals is strictly increasing in
the `greaterF` BST order (used to run `Remove` against it). -/
theorem pairwise_sep_to_gt {l : List FS} (h : l.Pairwise sep)
    (hp : ∀ f ∈ l, properIv f) :
    l.Pairwise (fun a b => greaterF b a) :=
  List.Pairwise.imp_of_mem (fun {a _} ha _ hab => sep_to_gt (hp a ha) hab) h

/-- In the descend-left case of `Insert`, the new interval is strictly
separated below the root interval. -/
theorem sep_nn_fs_of_left {fs nn : FS} (hno : ¬ isOv fs nn) (hgt : greaterF fs nn)
    (hd : DisjIv nn fs) (hpf : properIv fs) (hpn : properIv nn) : sep nn fs := by
  simp only [isOv, greaterF, DisjIv, properIv, sep] at *
  push_neg at hno
  by_cases hs : fs.Start = nn.Start
  · rw [if_pos hs] at hgt; omega
  · rw [if_neg hs] at hgt; omega

/-- In the descend-right case of `Insert`, the new interval is strictly
separated above the root interval. -/
theorem sep_fs_nn_of_right {fs nn : FS} (hno : ¬ isOv fs nn) (hgt : ¬ greaterF fs nn)
    (hd : DisjIv nn fs) (hpf : properIv fs) (hpn : properIv nn) : sep fs nn := by
  simp only [isOv, greaterF, DisjIv, properIv, sep] at *
  push_neg at hno
  by_cases hs : fs.Start = nn.Start
  · rw [if_pos hs] at hgt; omega
  · rw [if_neg hs] at hgt; omega

/-- The branch structure of `insertT` at a node, at the level of in-order
sequences (the heapify rotations do not change the sequence). -/
theorem insertT_node_toL (o : ℕ → Bool) (fs : FS) (l r : Tr) (nn : FS)
    (pl pr : Option FS) (c : ℕ) :
    (insertT o (.node fs l r) nn pl pr c).1.toL =
      (if isOv fs nn then mergeAndExpandT fs l r nn pl pr
       else if greaterF fs nn then .node fs (insertT o l nn pl (some fs) c).1 r
       else .node fs l (insertT o r nn (some fs) pr c).1).toL := by
  rw [insertT]
  by_cases h1 : isOv fs nn
  · simp only [if_pos h1, toL_heap2, toL_heap1]
  · simp only [if_neg h1]
    by_cases h2 : greaterF fs nn
    · simp only [if_pos h2, toL_heap2, toL_heap1]
    · simp only [if_neg h2, toL_heap2, toL_heap1]

theorem size_of_proper {f : FS} (h : properIv f) : f.Size = f.endp - f.Start + 1 := by
  rw [FS.Size, if_neg (by simp only [properIv] at h; omega)]

/-- The plain-expansion case of `mergeAndExpand` (`root.merge(nn)`): the new
interval abuts the root on one side and is strictly separated from the root's
in-order neighbours on that side. -/
theorem expand_spec {A L R B : List FS} {fs nn : FS}
    (h : ((A ++ L) ++ fs :: (R ++ B)).Pairwise sep)
    (hprop : ∀ f ∈ (A ++ L) ++ fs :: (R ++ B), properIv f)
    (hpn : properIv nn) (hov : isOv fs nn)
    (hprev : ∀ p, (A ++ L).getLast? = some p → fs.Start = nn.endp + 1 → sep p nn)
    (hnext : ∀ m, (R ++ B).head? = some m → nn.Start = fs.endp + 1 → sep nn m) :
    ((A ++ (L ++ mrgIv fs nn :: R)) ++ B).Pairwise sep ∧
    (∀ f ∈ L ++ mrgIv fs nn :: R, properIv f) ∧
    (∀ i, covL (L ++ mrgIv fs nn :: R) i ↔ covL (L ++ fs :: R) i ∨ inIv i nn) ∧
    szSum (L ++ mrgIv fs nn :: R) = szSum (L ++ fs :: R) + nn.Size := by
  have hpfs : properIv fs := hprop fs (List.mem_append_right _ (by simp))
  obtain ⟨hbef, haft, hALpw, hRBpw, hcross⟩ := pairwise_extract h
  have hpn' := hpn
  have hpfs' := hpfs
  simp only [properIv] at hpn' hpfs'
  -- the two orientations give explicit endpoints for the merged interval
  have hends : ((mrgIv fs nn).Start = nn.Start ∧ (mrgIv fs nn).endp = fs.endp ∧
        fs.Start = nn.endp + 1) ∨
      ((mrgIv fs nn).Start = fs.Start ∧ (mrgIv fs nn).endp = nn.endp ∧
        nn.Start = fs.endp + 1) := by
    rcases hov with h1 | h1
    · refine Or.inl ⟨?_, ?_, h1⟩
      · show min fs.Start nn.Start = nn.Start
        exact min_eq_right (by omega)
      · show max fs.endp nn.endp = fs.endp
        exact max_eq_left (by omega)
    · refine Or.inr ⟨?_, ?_, h1⟩
      · show min fs.Start nn.Start = fs.Start
        exact min_eq_left (by omega)
      · show max fs.endp nn.endp = nn.endp
        exact max_eq_right (by omega)
  have hpmrg : properIv (mrgIv fs nn) := by
    simp only [properIv]
    rcases hends with ⟨e1, e2, e3⟩ | ⟨e1, e2, e3⟩ <;> rw [e1, e2] <;> omega
  -- separation of the merged interval from the left context
  have hL : ∀ x ∈ A ++ L, sep x (mrgIv fs nn) := by
    intro x hx
    have hxfs := hbef x hx
    rcases hends with ⟨e1, e2, e3⟩ | ⟨e1, e2, e3⟩
    · -- nn extends fs to the left: must use the predecessor guard
      rcases List.eq_nil_or_concat (A ++ L) with hAL | ⟨tl, p, hAL⟩
      · rw [hAL] at hx; cases hx
      · have hplast : (A ++ L).getLast? = some p := by
          rw [hAL, List.concat_eq_append, List.getLast?_concat]
        have hpnn := hprev p hplast e3
        have hpp : properIv p := hprop p (List.mem_append_left _ (by
          rw [hAL]; simp))
        rw [hAL, List.concat_eq_append] at hx
        rcases List.mem_append.mp hx with hxtl | hxp
        · have hxp' : sep x p := by
            have hpw2 : (tl ++ p :: []).Pairwise sep := by
              rw [← List.concat_eq_append, ← hAL]; exact hALpw
            exact (pairwise_extract hpw2).1 x hxtl
          simp only [sep, properIv] at *
          rw [e1]
          omega
        · have hx' : x = p := by simpa using hxp
          subst hx'
          simp only [sep] at *
          rw [e1]
          omega
    · -- nn extends fs to the right: left end of the merge is fs.Start
      simp only [sep] at *
      rw [e1]
      omega
  -- separation of the merged interval from the right context
  have hR : ∀ y ∈ R ++ B, sep (mrgIv fs nn) y := by
    intro y hy
    rcases hends with ⟨e1, e2, e3⟩ | ⟨e1, e2, e3⟩
    · have := haft y hy
      simp only [sep] at *
      rw [e2]
      omega
    · cases hRB : R ++ B with
      | nil => rw [hRB] at hy; cases hy
      | cons m rest =>
        have hmnn := hnext m (by rw [hRB]; rfl) e3
        have hmp : properIv m := hprop m (List.mem_append_right _ (by
          rw [hRB]; simp))
        rw [hRB] at hy
        rcases List.mem_cons.mp hy with rfl | hyr
        · simp only [sep] at *
          rw [e2]
          omega
        · have hmy : sep m y := by
            have h2 := List.pairwise_cons.mp (by rw [hRB] at hRBpw; exact hRBpw)
            exact h2.1 y hyr
          simp only [sep, properIv] at *
          rw [e2]
          omega
  refine ⟨?_, ?_, ?_, ?_⟩
  · have := pairwise_mid3 (c := mrgIv fs nn) h (List.Sublist.refl _)
      (List.Sublist.refl _) hL hR
    simpa [List.append_assoc] using this
  · intro f hf
    rcases (by simpa using hf : f ∈ L ∨ f = mrgIv fs nn ∨ f ∈ R) with hfl | rfl | hfr
    · exact hprop f (List.mem_append_left _ (List.mem_append_right _ hfl))
    · exact hpmrg
    · exact hprop f (List.mem_append_right _ (by simp [hfr]))
  · intro i
    have hkey : inIv i (mrgIv fs nn) ↔ inIv i fs ∨ inIv i nn := by
      simp only [inIv]
      rcases hends with ⟨e1, e2, e3⟩ | ⟨e1, e2, e3⟩ <;> rw [e1, e2] <;> omega
    simp only [covL_append, covL_cons, hkey]
    tauto
  · have hsz : (mrgIv fs nn).Size = fs.Size + nn.Size := by
      rw [size_of_proper hpmrg, size_of_proper hpfs, size_of_proper hpn]
      rcases hends with ⟨e1, e2, e3⟩ | ⟨e1, e2, e3⟩ <;> rw [e1, e2] <;> omega
    simp only [szSum_append, szSum_cons, hsz]
    omega

/-- The absorb-successor case of `mergeAndExpand`: `nn` exactly fills the
gap between the root interval `fs` and its in-order successor `m`; the
successor is removed and the root expands over all three. -/
theorem absorb_succ_spec {A L tr B : List FS} {fs m nn : FS}
    (h : ((A ++ L) ++ fs :: ((m :: tr) ++ B)).Pairwise sep)
    (hprop : ∀ f ∈ (A ++ L) ++ fs :: ((m :: tr) ++ B), properIv f)
    (hpn : properIv nn) (hov : isOv fs nn) (hovm : isOv m nn)
    (hdfs : DisjIv nn fs) (hdm : DisjIv nn m) :
    ((A ++ (L ++ mrgIv fs m :: tr)) ++ B).Pairwise sep ∧
    (∀ f ∈ L ++ mrgIv fs m :: tr, properIv f) ∧
    (∀ i, covL (L ++ mrgIv fs m :: tr) i ↔ covL (L ++ fs :: m :: tr) i ∨ inIv i nn) ∧
    szSum (L ++ mrgIv fs m :: tr) = szSum (L ++ fs :: m :: tr) + nn.Size := by
  have hpfs : properIv fs := hprop fs (List.mem_append_right _ (by simp))
  have hpm : properIv m := hprop m (List.mem_append_right _ (by simp))
  obtain ⟨hbef, haft, hALpw, hRBpw, hcross⟩ := pairwise_extract h
  have hsepfm : sep fs m := haft m (by simp)
  have hor : nn.Start = fs.endp + 1 ∧ m.Start = nn.endp + 1 := by
    simp only [isOv, DisjIv, sep, properIv] at *
    omega
  have e1 : (mrgIv fs m).Start = fs.Start := by
    show min fs.Start m.Start = fs.Start
    simp only [sep, properIv] at hsepfm hpfs
    exact min_eq_left (by omega)
  have e2 : (mrgIv fs m).endp = m.endp := by
    show max fs.endp m.endp = m.endp
    simp only [sep, properIv] at hsepfm hpm
    exact max_eq_right (by omega)
  have hpmrg : properIv (mrgIv fs m) := by
    simp only [properIv] at *
    rw [e1, e2]
    simp only [sep] at hsepfm
    omega
  have hL : ∀ x ∈ A ++ L, sep x (mrgIv fs m) := by
    intro x hx
    have := hbef x hx
    simp only [sep] at *
    rw [e1]; omega
  have hR : ∀ y ∈ tr ++ B, sep (mrgIv fs m) y := by
    intro y hy
    have h2 := List.pairwise_cons.mp hRBpw
    have := h2.1 y hy
    simp only [sep] at *
    rw [e2]; omega
  refine ⟨?_, ?_, ?_, ?_⟩
  · have := pairwise_mid3 (c := mrgIv fs m) h (List.Sublist.refl _)
      (List.sublist_cons_self m (tr ++ B)) hL hR
    simpa [List.append_assoc] using this
  · intro f hf
    rcases (by simpa using hf : f ∈ L ∨ f = mrgIv fs m ∨ f ∈ tr) with hfl | rfl | hfr
    · exact hprop f (List.mem_append_left _ (List.mem_append_right _ hfl))
    · exact hpmrg
    · exact hprop f (List.mem_append_right _ (by simp [hfr]))
  · intro i
    have hkey : inIv i (mrgIv fs m) ↔ inIv i fs ∨ inIv i nn ∨ inIv i m := by
      simp only [inIv]
      rw [e1, e2]
      simp only [properIv] at hpfs hpm hpn
      omega
    simp only [covL_append, covL_cons, hkey]
    tauto
  · have hsz : (mrgIv fs m).Size = fs.Size + nn.Size + m.Size := by
      rw [size_of_proper hpmrg, size_of_proper hpfs, size_of_proper hpn,
        size_of_proper hpm, e1, e2]
      simp only [properIv] at hpfs hpm hpn
      omega
    simp only [szSum_append, szSum_cons, hsz]
    omega

/-- The absorb-predecessor case of `mergeAndExpand`: `nn` exactly fills the
gap between the root's in-order predecessor `p` and the root interval `fs`. -/
theorem absorb_pred_spec {A tl R B : List FS} {fs p nn : FS}
    (h : ((A ++ (tl ++ [p])) ++ fs :: (R ++ B)).Pairwise sep)
    (hprop : ∀ f ∈ (A ++ (tl ++ [p])) ++ fs :: (R ++ B), properIv f)
    (hpn : properIv nn) (hov : isOv fs nn) (hovp : isOv p nn)
    (hdfs : DisjIv nn fs) (hdp : DisjIv nn p) :
    ((A ++ (tl ++ mrgIv fs p :: R)) ++ B).Pairwise sep ∧
    (∀ f ∈ tl ++ mrgIv fs p :: R, properIv f) ∧
    (∀ i, covL (tl ++ mrgIv fs p :: R) i ↔ covL ((tl ++ [p]) ++ fs :: R) i ∨ inIv i nn) ∧
    szSum (tl ++ mrgIv fs p :: R) = szSum ((tl ++ [p]) ++ fs :: R) + nn.Size := by
  have hpfs : properIv fs := hprop fs (List.mem_append_right _ (by simp))
  have hpp : properIv p := hprop p (List.mem_append_left _ (by simp))
  obtain ⟨hbef, haft, hALpw, hRBpw, hcross⟩ := pairwise_extract h
  have hseppf : sep p fs := hbef p (by simp)
  have hor : fs.Start = nn.endp + 1 ∧ nn.Start = p.endp + 1 := by
    simp only [isOv, DisjIv, sep, properIv] at *
    omega
  have e1 : (mrgIv fs p).Start = p.Start := by
    show min fs.Start p.Start = p.Start
    simp only [sep, properIv] at hseppf hpp
    exact min_eq_right (by omega)
  have e2 : (mrgIv fs p).endp = fs.endp := by
    show max fs.endp p.endp = fs.endp
    simp only [sep, properIv] at hseppf hpfs
    exact max_eq_left (by omega)
  have hpmrg : properIv (mrgIv fs p) := by
    simp only [properIv] at *
    rw [e1, e2]
    simp only [sep] at hseppf
    omega
  have hL : ∀ x ∈ A ++ tl, sep x (mrgIv fs p) := by
    intro x hx
    have hpw2 : ((A ++ tl) ++ p :: []).Pairwise sep := by
      simpa [List.append_assoc] using hALpw
    have := (pairwise_extract hpw2).1 x hx
    simp only [sep] at *
    rw [e1]; omega
  have hR : ∀ y ∈ R ++ B, sep (mrgIv fs p) y := by
    intro y hy
    have := haft y hy
    simp only [sep] at *
    rw [e2]; omega
  refine ⟨?_, ?_, ?_, ?_⟩
  · have hxs : (A ++ tl).Sublist (A ++ (tl ++ [p])) := by
      refine List.Sublist.append_left ?_ _
      exact List.sublist_append_left tl [p]
    have := pairwise_mid3 (c := mrgIv fs p) h hxs (List.Sublist.refl _) hL hR
    simpa [List.append_assoc] using this
  · intro f hf
    rcases (by simpa using hf : f ∈ tl ∨ f = mrgIv fs p ∨ f ∈ R) with hfl | rfl | hfr
    · exact hprop f (List.mem_append_left _ (by simp [hfl]))
    · exact hpmrg
    · exact hprop f (List.mem_append_right _ (by simp [hfr]))
  · intro i
    have hkey : inIv i (mrgIv fs p) ↔ inIv i p ∨ inIv i nn ∨ inIv i fs := by
      simp only [inIv]
      rw [e1, e2]
      simp only [properIv] at hpfs hpp hpn
      omega
    simp only [covL_append, covL_cons, covL_nil, hkey]
    tauto
  · have hsz : (mrgIv fs p).Size = fs.Size + nn.Size + p.Size := by
      rw [size_of_proper hpmrg, size_of_proper hpfs, size_of_proper hpn,
        size_of_proper hpp, e1, e2]
      simp only [properIv] at hpfs hpp hpn
      omega
    simp only [szSum_append, szSum_cons, szSum_nil, hsz]
    omega

/-- The predecessor branch of `mergeAndExpand`
(`mergeAndExpandPrev`), after the successor test has failed (`hnext`
carries what that failure means for the right context). -/
theorem mergeAndExpandPrev_spec (fs : FS) (l r : Tr) (nn : FS) (pl pr : Option FS)
    (h : ((optL pl ++ l.toL) ++ fs :: (r.toL ++ optL pr)).Pairwise sep)
    (hprop : ∀ f ∈ (optL pl ++ l.toL) ++ fs :: (r.toL ++ optL pr), properIv f)
    (hpn : properIv nn) (hov : isOv fs nn)
    (hdisj : ∀ f ∈ l.toL ++ fs :: r.toL, DisjIv nn f)
    (hpl : ∀ p, pl = some p → sep p nn)
    (hnext : ∀ m', (r.toL ++ optL pr).head? = some m' → nn.Start = fs.endp + 1 →
      sep nn m') :
    ((optL pl ++ (mergeAndExpandPrev fs l r nn pl).toL) ++ optL pr).Pairwise sep ∧
    (∀ f ∈ (mergeAndExpandPrev fs l r nn pl).toL, properIv f) ∧
    (∀ i, covL (mergeAndExpandPrev fs l r nn pl).toL i ↔
      covL (l.toL ++ fs :: r.toL) i ∨ inIv i nn) ∧
    szSum (mergeAndExpandPrev fs l r nn pl).toL =
      szSum (l.toL ++ fs :: r.toL) + nn.Size := by
  have hpfs : properIv fs := hprop fs (List.mem_append_right _ (by simp))
  obtain ⟨hbef, haft, hALpw, hRBpw, hcross⟩ := pairwise_extract h
  cases hx : Tr.maxT l with
  | some p =>
    have hlast : l.toL.getLast? = some p := by rw [← maxT_eq_getLast]; exact hx
    obtain ⟨tl, htl⟩ := List.getLast?_eq_some_iff.mp hlast
    have hpp : properIv p := hprop p (List.mem_append_left _
      (List.mem_append_right _ (by simp [htl])))
    have hdp : DisjIv nn p := hdisj p (List.mem_append_left _ (by simp [htl]))
    have hseppf : sep p fs := hbef p (List.mem_append_right _ (by simp [htl]))
    by_cases hovp : isOv p nn
    · -- absorb the predecessor
      simp only [mergeAndExpandPrev, hx, if_pos hovp]
      have hdfs : DisjIv nn fs := hdisj fs (by simp)
      -- remove `p` from the left subtree
      have hpntl : p ∉ tl := by
        intro hmem
        have hpw2 : ((optL pl ++ tl) ++ p :: []).Pairwise sep := by
          have : optL pl ++ l.toL = (optL pl ++ tl) ++ [p] := by
            rw [htl]; simp [List.append_assoc]
          rw [this] at hALpw
          simpa using hALpw
        have := (pairwise_extract hpw2).1 p (List.mem_append_right _ hmem)
        exact sep_irrefl hpp this
      have hrem : (Tr.removeT l p).toL = tl := by
        have hlpw : l.toL.Pairwise sep := hALpw.sublist (List.sublist_append_right _ _)
        have hlprop : ∀ f ∈ l.toL, properIv f := fun f hf =>
          hprop f (List.mem_append_left _ (List.mem_append_right _ hf))
        rw [toL_removeT p (pairwise_sep_to_gt hlpw hlprop), htl,
          List.erase_append_right _ hpntl]
        simp
      have hmassage : (optL pl ++ l.toL) ++ fs :: (r.toL ++ optL pr)
          = ((optL pl ++ (tl ++ [p])) ++ fs :: (r.toL ++ optL pr)) := by
        rw [htl]
      rw [hmassage] at h hprop
      have habs := absorb_pred_spec h hprop hpn hov hovp hdfs hdp
      refine ⟨?_, ?_, ?_, ?_⟩
      · have := habs.1
        simp only [Tr.toL, hrem]
        simpa [List.append_assoc] using this
      · intro f hf
        refine habs.2.1 f ?_
        simpa [Tr.toL, hrem] using hf
      · intro i
        have := habs.2.2.1 i
        simp only [Tr.toL, hrem]
        rw [htl]
        simpa [List.append_assoc] using this
      · have := habs.2.2.2
        simp only [Tr.toL, hrem]
        rw [htl]
        simpa [List.append_assoc] using this
    · -- plain expansion
      simp only [mergeAndExpandPrev, hx, if_neg hovp]
      have hprev : ∀ q, (optL pl ++ l.toL).getLast? = some q →
          fs.Start = nn.endp + 1 → sep q nn := by
        intro q hq h1
        have : (optL pl ++ l.toL).getLast? = some p := by
          rw [List.getLast?_append, hlast]; rfl
        rw [this] at hq
        cases hq
        simp only [isOv, not_or] at hovp
        simp only [DisjIv, sep, properIv] at *
        omega
      have hexp := expand_spec h hprop hpn hov hprev hnext
      refine ⟨?_, ?_, ?_, ?_⟩
      · have := hexp.1
        simp only [Tr.toL]
        simpa [List.append_assoc] using this
      · intro f hf
        exact hexp.2.1 f (by simpa [Tr.toL] using hf)
      · intro i
        have := hexp.2.2.1 i
        simpa [Tr.toL] using this
      · have := hexp.2.2.2
        simpa [Tr.toL] using this
  | none =>
    have hlnil : l.toL = [] := by
      rw [← List.getLast?_eq_none_iff, ← maxT_eq_getLast]; exact hx
    cases hpl' : pl with
    | some p =>
      have hpp : properIv p := hprop p (List.mem_append_left _
        (List.mem_append_left _ (by simp [hpl', optL])))
      by_cases hovp : isOv p nn
      · -- dead branch: an adjacent ancestor would have merged higher up
        exact absurd (hpl p hpl') (by
          simp only [isOv] at hovp
          simp only [sep, properIv, not_lt] at *
          omega)
      · simp only [mergeAndExpandPrev, hx, hpl', if_neg hovp]
        have hprev : ∀ q, (optL pl ++ l.toL).getLast? = some q →
            fs.Start = nn.endp + 1 → sep q nn := by
          intro q hq h1
          rw [hlnil, hpl'] at hq
          simp [optL] at hq
          subst hq
          exact hpl p hpl'
        have hexp := expand_spec h hprop hpn hov hprev hnext
        refine ⟨?_, ?_, ?_, ?_⟩
        · have := hexp.1
          rw [← hpl']
          simp only [Tr.toL]
          simpa [List.append_assoc] using this
        · intro f hf
          exact hexp.2.1 f (by simpa [Tr.toL] using hf)
        · intro i
          have := hexp.2.2.1 i
          simpa [Tr.toL] using this
        · have := hexp.2.2.2
          simpa [Tr.toL] using this
    | none =>
      simp only [mergeAndExpandPrev, hx, hpl']
      have hprev : ∀ q, (optL pl ++ l.toL).getLast? = some q →
          fs.Start = nn.endp + 1 → sep q nn := by
        intro q hq h1
        rw [hlnil, hpl'] at hq
        simp [optL] at hq
      have hexp := expand_spec h hprop hpn hov hprev hnext
      refine ⟨?_, ?_, ?_, ?_⟩
      · have := hexp.1
        rw [← hpl']
        simp only [Tr.toL]
        simpa [List.append_assoc] using this
      · intro f hf
        exact hexp.2.1 f (by simpa [Tr.toL] using hf)
      · intro i
        have := hexp.2.2.1 i
        simpa [Tr.toL] using this
      · have := hexp.2.2.2
        simpa [Tr.toL] using this

/-- **Insertion invariant.**  `Insert` (with its in-order neighbour context
and random oracle) keeps the free intervals pairwise strictly separated and
proper, makes the covered byte set grow by exactly the inserted interval,
and adds exactly the inserted interval's size to the total.  The inserted
interval must be proper and set-disjoint from every interval already held
(abutting is allowed and triggers the merge paths). -/
theorem insertT_spec (o : ℕ → Bool) (t : Tr) :
    ∀ (nn : FS) (pl pr : Option FS) (c : ℕ),
    (optL pl ++ t.toL ++ optL pr).Pairwise sep →
    (∀ f ∈ optL pl ++ t.toL ++ optL pr, properIv f) →
    properIv nn →
    (∀ f ∈ t.toL, DisjIv nn f) →
    (∀ p, pl = some p → sep p nn) →
    (∀ q, pr = some q → sep nn q) →
    (optL pl ++ (insertT o t nn pl pr c).1.toL ++ optL pr).Pairwise sep ∧
    (∀ f ∈ (insertT o t nn pl pr c).1.toL, properIv f) ∧
    (∀ i, covL (insertT o t nn pl pr c).1.toL i ↔ covL t.toL i ∨ inIv i nn) ∧
    szSum (insertT o t nn pl pr c).1.toL = szSum t.toL + nn.Size := by
  induction t with
  | nil =>
    intro nn pl pr c h hprop hpn hdisj hpl hpr
    have htoL : (insertT o .nil nn pl pr c).1.toL = [nn] := rfl
    rw [htoL]
    refine ⟨?_, ?_, ?_, ?_⟩
    · cases pl with
      | none =>
        cases pr with
        | none => simp [optL]
        | some q =>
          have h1 : sep nn q := hpr q rfl
          have : optL none ++ [nn] ++ optL (some q) = [nn, q] := by simp [optL]
          rw [this]
          exact List.pairwise_cons.mpr
            ⟨fun y hy => by rcases (by simpa using hy : y = q) with rfl; exact h1,
             by simp⟩
      | some p =>
        cases pr with
        | none =>
          have h1 : sep p nn := hpl p rfl
          have : optL (some p) ++ [nn] ++ optL none = [p, nn] := by simp [optL]
          rw [this]
          exact List.pairwise_cons.mpr
            ⟨fun y hy => by rcases (by simpa using hy : y = nn) with rfl; exact h1,
             by simp⟩
        | some q =>
          have hpq : sep p q := by
            have h2 := (by simpa [optL, Tr.toL] using h :
              List.Pairwise sep [p, q])
            exact (List.pairwise_cons.mp h2).1 q (by simp)
          have : optL (some p) ++ [nn] ++ optL (some q) = [p, nn, q] := by
            simp [optL]
          rw [this]
          refine List.pairwise_cons.mpr ⟨?_, ?_⟩
          · intro y hy
            rcases (by simpa using hy : y = nn ∨ y = q) with rfl | rfl
            · exact hpl p rfl
            · exact hpq
          · exact List.pairwise_cons.mpr
              ⟨fun y hy => by
                rcases (by simpa using hy : y = q) with rfl
                exact hpr _ rfl,
               by simp⟩
    · intro f hf
      rcases (by simpa using hf : f = nn) with rfl
      exact hpn
    · intro i
      simp [covL_cons, covL_nil, Tr.toL, covL]
    · simp [szSum, Tr.toL]
  | node fs l r ihl ihr =>
    intro nn pl pr c h hprop hpn hdisj hpl hpr
    have h' : ((optL pl ++ l.toL) ++ fs :: (r.toL ++ optL pr)).Pairwise sep := by
      simpa [Tr.toL, List.append_assoc] using h
    have hprop' : ∀ f ∈ (optL pl ++ l.toL) ++ fs :: (r.toL ++ optL pr),
        properIv f := by
      intro f hf
      refine hprop f ?_
      simp only [Tr.toL]
      simp at hf ⊢
      tauto
    obtain ⟨hbef, haft, hALpw, hRBpw, hcross⟩ := pairwise_extract h'
    have hpfs : properIv fs := hprop' fs (List.mem_append_right _ (by simp))
    have hdfs : DisjIv nn fs := hdisj fs (by simp [Tr.toL])
    rw [insertT_node_toL]
    by_cases hov : isOv fs nn
    · rw [if_pos hov]
      cases hm : Tr.minT r with
      | some m =>
        have hmhead : r.toL.head? = some m := by rw [← minT_eq_head]; exact hm
        obtain ⟨tr, htr⟩ : ∃ tr, r.toL = m :: tr := by
          cases hrl : r.toL with
          | nil => rw [hrl] at hmhead; cases hmhead
          | cons a tl2 =>
            rw [hrl] at hmhead
            simp only [List.head?_cons, Option.some.injEq] at hmhead
            exact ⟨tl2, by rw [hmhead]⟩
        have hpm : properIv m := hprop' m (List.mem_append_right _
          (by simp [htr]))
        have hdm : DisjIv nn m := hdisj m (by simp [Tr.toL, htr])
        by_cases hovm : isOv m nn
        · -- absorb the successor
          simp only [mergeAndExpandT, hm, if_pos hovm]
          have hrem : (Tr.removeT r m).toL = tr := by
            have hrpw : r.toL.Pairwise sep :=
              hRBpw.sublist (List.sublist_append_left _ _)
            have hrprop : ∀ f ∈ r.toL, properIv f := fun f hf =>
              hprop' f (List.mem_append_right _ (by simp [hf]))
            rw [toL_removeT m (pairwise_sep_to_gt hrpw hrprop), htr,
              List.erase_cons_head]
          have hmassage : ((optL pl ++ l.toL) ++ fs :: (r.toL ++ optL pr))
              = ((optL pl ++ l.toL) ++ fs :: ((m :: tr) ++ optL pr)) := by
            rw [htr]
          rw [hmassage] at h' hprop'
          have habs := absorb_succ_spec h' hprop' hpn hov hovm hdfs hdm
          refine ⟨?_, ?_, ?_, ?_⟩
          · have := habs.1
            simp only [Tr.toL, hrem]
            simpa [List.append_assoc] using this
          · intro f hf
            exact habs.2.1 f (by simpa [Tr.toL, hrem] using hf)
          · intro i
            have := habs.2.2.1 i
            simp only [Tr.toL, hrem, htr]
            simpa using this
          · have := habs.2.2.2
            simp only [Tr.toL, hrem, htr]
            simpa using this
        · -- successor not adjacent: predecessor branch
          simp only [mergeAndExpandT, hm, if_neg hovm]
          have hnext : ∀ m', (r.toL ++ optL pr).head? = some m' →
              nn.Start = fs.endp + 1 → sep nn m' := by
            intro m' hm' h1
            have hhd : (r.toL ++ optL pr).head? = some m := by
              rw [htr]; rfl
            rw [hhd] at hm'
            injection hm' with hm2
            subst hm2
            have hsepfm : sep fs m := haft m (by simp [htr])
            simp only [isOv, not_or] at hovm
            simp only [DisjIv, sep, properIv] at *
            omega
          have hmp := mergeAndExpandPrev_spec fs l r nn pl pr h' hprop' hpn hov
            (fun f hf => hdisj f (by simpa [Tr.toL] using hf)) hpl hnext
          refine ⟨by simpa [List.append_assoc] using hmp.1, hmp.2.1, ?_, ?_⟩
          · intro i
            have := hmp.2.2.1 i
            simpa [Tr.toL] using this
          · have := hmp.2.2.2
            simpa [Tr.toL] using this
      | none =>
        have hrnil : r.toL = [] := by
          rw [← List.head?_eq_none_iff, ← minT_eq_head]; exact hm
        cases hpr' : pr with
        | some q =>
          by_cases hovq : isOv q nn
          · -- dead: this ancestor's own adjacency test failed before descending
            exact absurd (hpr q hpr') (by
              have hpq : properIv q := hprop' q (List.mem_append_right _
                (by simp [hpr', optL]))
              simp only [isOv] at hovq
              simp only [sep, properIv, not_lt] at *
              omega)
          · simp only [mergeAndExpandT, hm, hpr', if_neg hovq]
            have hnext : ∀ m', (r.toL ++ optL pr).head? = some m' →
                nn.Start = fs.endp + 1 → sep nn m' := by
              intro m' hm' h1
              rw [hrnil, hpr'] at hm'
              simp only [optL, List.nil_append, List.head?_cons,
                Option.some.injEq] at hm'
              subst hm'
              exact hpr q hpr'
            have hmp := mergeAndExpandPrev_spec fs l r nn pl pr h' hprop' hpn hov
              (fun f hf => hdisj f (by simpa [Tr.toL] using hf)) hpl hnext
            refine ⟨by rw [← hpr']; simpa [List.append_assoc] using hmp.1,
              hmp.2.1, ?_, ?_⟩
            · intro i
              have := hmp.2.2.1 i
              simpa [Tr.toL] using this
            · have := hmp.2.2.2
              simpa [Tr.toL] using this
        | none =>
          simp only [mergeAndExpandT, hm, hpr']
          have hnext : ∀ m', (r.toL ++ optL pr).head? = some m' →
              nn.Start = fs.endp + 1 → sep nn m' := by
            intro m' hm' h1
            rw [hrnil, hpr'] at hm'
            simp [optL] at hm'
          have hmp := mergeAndExpandPrev_spec fs l r nn pl pr h' hprop' hpn hov
            (fun f hf => hdisj f (by simpa [Tr.toL] using hf)) hpl hnext
          refine ⟨by rw [← hpr']; simpa [List.append_assoc] using hmp.1,
            hmp.2.1, ?_, ?_⟩
          · intro i
            have := hmp.2.2.1 i
            simpa [Tr.toL] using this
          · have := hmp.2.2.2
            simpa [Tr.toL] using this
    · rw [if_neg hov]
      by_cases hgt : greaterF fs nn
      · rw [if_pos hgt]
        -- descend into the left subtree
        have hsep_nf : sep nn fs := sep_nn_fs_of_left hov hgt hdfs hpfs hpn
        have hg1 : ((optL pl ++ l.toL) ++ [fs]).Pairwise sep := by
          rw [List.pairwise_append]
          refine ⟨hALpw, by simp, ?_⟩
          intro x hx y hy
          rcases (by simpa using hy : y = fs) with rfl
          exact hbef x hx
        have ih := ihl nn pl (some fs) c
          (by simpa [optL, List.append_assoc] using hg1)
          (by
            intro f hf
            simp only [optL] at hf
            refine hprop' f ?_
            simp at hf ⊢
            tauto)
          hpn
          (fun f hf => hdisj f (by simp [Tr.toL, hf]))
          hpl
          (fun q hq => by injection hq with hq2; subst hq2; exact hsep_nf)
        obtain ⟨ia, ib, ic, id⟩ := ih
        refine ⟨?_, ?_, ?_, ?_⟩
        · have hgraft := pairwise_graft
            (optL pl ++ (insertT o l nn pl (some fs) c).1.toL)
            (r.toL ++ optL pr)
            (by simpa [optL, List.append_assoc] using ia)
            (List.pairwise_cons.mpr ⟨haft, hRBpw⟩)
            hpfs
          simpa [Tr.toL, List.append_assoc] using hgraft
        · intro f hf
          rcases (by simpa [Tr.toL] using hf :
              f ∈ (insertT o l nn pl (some fs) c).1.toL ∨ f = fs ∨ f ∈ r.toL)
            with hfl | rfl | hfr
          · exact ib f hfl
          · exact hpfs
          · exact hprop' f (List.mem_append_right _ (by simp [hfr]))
        · intro i
          have := ic i
          simp only [Tr.toL, covL_append, covL_cons] at *
          tauto
        · have := id
          simp only [Tr.toL, szSum_append, szSum_cons] at *
          omega
      · rw [if_neg hgt]
        -- descend into the right subtree
        have hsep_fn : sep fs nn := sep_fs_nn_of_right hov hgt hdfs hpfs hpn
        have hg2 : (optL (some fs) ++ r.toL ++ optL pr).Pairwise sep := by
          simp only [optL, List.singleton_append]
          exact List.pairwise_cons.mpr ⟨haft, hRBpw⟩
        have ih := ihr nn (some fs) pr c
          hg2
          (by
            intro f hf
            simp only [optL] at hf
            refine hprop' f ?_
            simp at hf ⊢
            tauto)
          hpn
          (fun f hf => hdisj f (by simp [Tr.toL, hf]))
          (fun p hp => by injection hp with hp2; subst hp2; exact hsep_fn)
          hpr
        obtain ⟨ia, ib, ic, id⟩ := ih
        refine ⟨?_, ?_, ?_, ?_⟩
        · have hg1 : ((optL pl ++ l.toL) ++ [fs]).Pairwise sep := by
            rw [List.pairwise_append]
            refine ⟨hALpw, by simp, ?_⟩
            intro x hx y hy
            rcases (by simpa using hy : y = fs) with rfl
            exact hbef x hx
          have hgraft := pairwise_graft
            (optL pl ++ l.toL)
            ((insertT o r nn (some fs) pr c).1.toL ++ optL pr)
            hg1
            (by simpa [optL, List.append_assoc] using ia)
            hpfs
          simpa [Tr.toL, List.append_assoc] using hgraft
        · intro f hf
          rcases (by simpa [Tr.toL] using hf :
              f ∈ l.toL ∨ f = fs ∨ f ∈ (insertT o r nn (some fs) pr c).1.toL)
            with hfl | rfl | hfr
          · exact hprop' f (List.mem_append_left _ (List.mem_append_right _ hfl))
          · exact hpfs
          · exact ib f hfr
        · intro i
          have := ic i
          simp only [Tr.toL, covL_append, covL_cons] at *
          tauto
        · have := id
          simp only [Tr.toL, szSum_append, szSum_cons] at *
          omega

/-- A sequence of insertions into a treap (each through the manager's
top-level call, i.e. with no ancestor context). -/
def insertFold (o : ℕ → Bool) : Tr × ℕ → List FS → Tr × ℕ
  | s, [] => s
  | s, iv :: rest => insertFold o (insertT o s.1 iv none none s.2) rest

/-- The claim's hypothesis, step by step: every inserted interval is proper
and does not properly overlap the free space present at its insertion. -/
def goodSeq (o : ℕ → Bool) : Tr × ℕ → List FS → Prop
  | _, [] => True
  | s, iv :: rest =>
    properIv iv ∧ (∀ f ∈ s.1.toL, DisjIv iv f) ∧
    goodSeq o (insertT o s.1 iv none none s.2) rest

theorem insertFold_inv (o : ℕ → Bool) (ivs : List FS) :
    ∀ s : Tr × ℕ, s.1.toL.Pairwise sep → (∀ f ∈ s.1.toL, properIv f) →
    goodSeq o s ivs →
    (insertFold o s ivs).1.toL.Pairwise sep ∧
    (∀ f ∈ (insertFold o s ivs).1.toL, properIv f) ∧
    (∀ i, covL (insertFold o s ivs).1.toL i ↔
      covL s.1.toL i ∨ ∃ iv ∈ ivs, inIv i iv) := by
  induction ivs with
  | nil =>
    intro s hpw hprop _
    refine ⟨hpw, hprop, fun i => ?_⟩
    simp [insertFold]
  | cons iv rest ih =>
    intro s hpw hprop hgood
    obtain ⟨hgp, hgd, hgrest⟩ := hgood
    have hstep := insertT_spec o s.1 iv none none s.2
      (by simpa [optL] using hpw)
      (by simpa [optL] using hprop)
      hgp hgd (fun p hp => by cases hp) (fun q hq => by cases hq)
    obtain ⟨sa, sb, sc, _⟩ := hstep
    have ihr := ih (insertT o s.1 iv none none s.2)
      (by simpa [optL] using sa) sb hgrest
    refine ⟨ihr.1, ihr.2.1, fun i => ?_⟩
    rw [show insertFold o s (iv :: rest) =
      insertFold o (insertT o s.1 iv none none s.2) rest from rfl]
    rw [ihr.2.2 i, sc i]
    simp only [List.mem_cons]
    constructor
    · rintro ((hc | hc) | ⟨f, hf, hc⟩)
      · exact Or.inl hc
      · exact Or.inr ⟨iv, Or.inl rfl, hc⟩
      · exact Or.inr ⟨f, Or.inr hf, hc⟩
    · rintro (hc | ⟨f, rfl | hf, hc⟩)
      · exact Or.inl (Or.inl hc)
      · exact Or.inl (Or.inr hc)
      · exact Or.inr ⟨f, hf, hc⟩

/-- **C6.**  Starting from an empty treap, after any sequence of `Insert`
calls in which no inserted interval properly overlaps the free space already
present, the intervals held in the treap are pairwise non-overlapping and
pairwise non-adjacent, and the bytes covered are exactly the bytes of all
inserted intervals — an abutting interval is merged into an existing node
(absorbing the in-order neighbour when the expansion makes them abut)
rather than inserted as a new node. -/
theorem C6_insert_non_adjacent (o : ℕ → Bool) (ivs : List FS) (c : ℕ)
    (hgood : goodSeq o (.nil, c) ivs) :
    (∀ f₁ ∈ (insertFold o (.nil, c) ivs).1.toL,
      ∀ f₂ ∈ (insertFold o (.nil, c) ivs).1.toL,
        f₁ ≠ f₂ → DisjIv f₁ f₂ ∧ ¬ isOv f₁ f₂) ∧
    (∀ i, covL (insertFold o (.nil, c) ivs).1.toL i ↔ ∃ iv ∈ ivs, inIv i iv) := by
  obtain ⟨ha, hb, hc⟩ := insertFold_inv o ivs (.nil, c)
    (by simp [Tr.toL]) (by simp [Tr.toL]) hgood
  constructor
  · have hsym : Symmetric (fun a b : FS => DisjIv a b ∧ ¬ isOv a b) := by
      intro a b ⟨h1, h2⟩
      refine ⟨?_, ?_⟩
      · simp only [DisjIv] at *; tauto
      · simp only [isOv] at *; tauto
    have hpw2 : (insertFold o (.nil, c) ivs).1.toL.Pairwise
        (fun a b => DisjIv a b ∧ ¬ isOv a b) := by
      refine List.Pairwise.imp_of_mem ?_ ha
      intro a b hma hmb hsep
      have hpa := hb a hma
      have hpb := hb b hmb
      simp only [sep, DisjIv, isOv, properIv] at *
      omega
    intro f₁ h₁ f₂ h₂ hne
    exact List.Pairwise.forall hsym hpw2 h₁ h₂ hne
  · intro i
    rw [hc i]
    simp [Tr.toL, covL_nil]

/-- Splitting the in-order list at a member (how `gfnT` reconstructs the
`prev`/`next` chains of the chosen node). -/
theorem split_at_mem {l : List FS} {x : FS} (hx : x ∈ l) :
    l = l.takeWhile (fun f => f ≠ x) ++ x :: (l.dropWhile (fun f => f ≠ x)).tail := by
  induction l with
  | nil => cases hx
  | cons a tl ih =>
    by_cases ha : a = x
    · subst ha
      simp [List.takeWhile_cons, List.dropWhile_cons]
    · have hx' : x ∈ tl := by
        rcases List.mem_cons.mp hx with h | h
        · exact absurd h.symm ha
        · exact h
      simp only [List.takeWhile_cons, List.dropWhile_cons]
      rw [if_pos (by simpa using ha), if_pos (by simpa using ha)]
      rw [List.cons_append]
      exact congrArg (a :: ·) (ih hx')

/-- What the accumulation loop of `GetFittingNeighbours` produces: a prefix
of the successor chain, then (only if that chain is exhausted) a prefix of
the predecessor chain, prepended in reverse; the accumulated size is the
sum and reaches the requested size. -/
theorem fetchLoop_spec (req : ℕ) :
    ∀ (nc pc fss : List FS) (ts : ℕ), ts = szSum fss →
    req ≤ ts + szSum nc + szSum pc →
    ∃ ncT ncR pcT pcR out ts2,
      nc = ncT ++ ncR ∧ pc = pcT ++ pcR ∧
      fetchLoop req ts fss nc pc = some (out, ts2) ∧
      out = pcT.reverse ++ fss ++ ncT ∧ ts2 = szSum out ∧ req ≤ ts2 := by
  intro nc
  induction nc with
  | nil =>
    intro pc
    induction pc with
    | nil =>
      intro fss ts hts hreq
      simp only [szSum_nil] at hreq
      have hstop : ts ≥ req := by omega
      refine ⟨[], [], [], [], fss, ts, rfl, rfl, ?_, by simp, hts, hstop⟩
      exact fetchLoop_exit hstop _ _ _
    | cons p pc' ihp =>
      intro fss ts hts hreq
      by_cases hstop : ts ≥ req
      · refine ⟨[], [], [], p :: pc', fss, ts, rfl, rfl, ?_, by simp, hts, hstop⟩
        exact fetchLoop_exit hstop _ _ _
      · have hstep := ihp (p :: fss) (ts + p.Size)
          (by rw [hts]; simp [szSum_cons]; omega)
          (by simp only [szSum_cons, szSum_nil] at hreq ⊢; omega)
        obtain ⟨ncT, ncR, pcT, pcR, out, ts2, he1, he2, he3, he4, he5, he6⟩ := hstep
        have hncT : ncT = [] := by
          cases ncT with
          | nil => rfl
          | cons a b => exact absurd he1 (by simp)
        subst hncT
        refine ⟨[], [], p :: pcT, pcR, out, ts2, rfl, by simp [he2], ?_, ?_, he5, he6⟩
        · rw [fetchLoop.eq_def]
          exact (if_neg hstop).trans he3
        · rw [he4]
          simp [List.append_assoc]
  | cons n nc' ihn =>
    intro pc fss ts hts hreq
    by_cases hstop : ts ≥ req
    · refine ⟨[], n :: nc', [], pc, fss, ts, rfl, rfl, ?_, by simp, hts, hstop⟩
      exact fetchLoop_exit hstop _ _ _
    · have hstep := ihn pc (fss ++ [n]) (ts + n.Size)
        (by rw [hts]; simp [szSum_append, szSum_cons, szSum_nil])
        (by simp only [szSum_cons] at hreq ⊢; omega)
      obtain ⟨ncT, ncR, pcT, pcR, out, ts2, he1, he2, he3, he4, he5, he6⟩ := hstep
      refine ⟨n :: ncT, ncR, pcT, pcR, out, ts2, by simp [he1], he2, ?_, ?_, he5, he6⟩
      · rw [fetchLoop.eq_def]
        exact (if_neg hstop).trans he3
      · rw [he4]
        simp [List.append_assoc]

/-- Folding `Remove` over a list of intervals erases them one by one from
the in-order sequence. -/
theorem toL_removeT_foldl (fss : List FS) :
    ∀ t : Tr, t.toL.Pairwise (fun a b => greaterF b a) →
    (fss.foldl Tr.removeT t).toL =
      fss.foldl (fun acc f => acc.erase f) t.toL := by
  induction fss with
  | nil => intro t _; rfl
  | cons f fss' ih =>
    intro t hpw
    have h1 := toL_removeT f hpw
    have hpw' : (Tr.removeT t f).toL.Pairwise (fun a b => greaterF b a) := by
      rw [h1]
      exact hpw.sublist (List.erase_sublist f t.toL)
    simp only [List.foldl_cons]
    rw [ih _ hpw', h1]

/-- Erasing the middle block of a duplicate-free partition leaves the outer
parts. -/
theorem foldl_erase_middle :
    ∀ (mid pre suf : List FS), (pre ++ mid ++ suf).Nodup →
    mid.foldl (fun acc f => acc.erase f) (pre ++ mid ++ suf) = pre ++ suf := by
  intro mid
  induction mid with
  | nil => intro pre suf _; simp
  | cons m mid' ih =>
    intro pre suf hnd
    have hmpre : m ∉ pre := by
      intro hm
      have hsub1 : (pre ++ m :: mid').Sublist (pre ++ (m :: mid' ++ suf)) :=
        List.Sublist.append_left (List.sublist_append_left (m :: mid') suf) pre
      have := List.Nodup.sublist hsub1 (by simpa using hnd)
      rw [List.nodup_append] at this
      exact this.2.2 hm (by simp)
    have he : (pre ++ (m :: mid') ++ suf).erase m = pre ++ mid' ++ suf := by
      rw [List.append_assoc, List.erase_append_right _ hmpre,
        List.cons_append, List.erase_cons_head, List.append_assoc]
    simp only [List.foldl_cons]
    rw [he]
    refine ih pre suf ?_
    have : (pre ++ mid' ++ suf).Sublist (pre ++ (m :: mid') ++ suf) := by
      refine List.Sublist.append ?_ (List.Sublist.refl _)
      exact List.Sublist.append_left (List.sublist_cons_self m mid') _
    exact hnd.sublist this

/-- **C8.**  For every treap (at rest: pairwise separated, proper intervals)
containing `node`, if the total size of all intervals is at least
`required_size`, then `GetFittingNeighbours` succeeds (no panic) and returns
intervals in strictly ascending start order whose combined size is at least
`required_size`; every returned interval is removed from the returned tree,
and the reported removed total equals the sum of the returned sizes. -/
theorem C8_getFittingNeighbours (t : Tr) (x : FS) (req : ℕ)
    (hpw : t.toL.Pairwise sep) (hprop : ∀ f ∈ t.toL, properIv f)
    (hx : x ∈ t.toL) (htot : req ≤ szSum t.toL) :
    ∃ fss t2 ts, gfnT t x req = some (fss, t2, ts) ∧
      fss.Pairwise (fun a b => a.Start < b.Start) ∧
      req ≤ szSum fss ∧ ts = szSum fss ∧
      ∀ f ∈ fss, f ∉ t2.toL := by
  have hsplit := split_at_mem hx
  set before := t.toL.takeWhile (fun f => f ≠ x) with hbdef
  set after := (t.toL.dropWhile (fun f => f ≠ x)).tail with hadef
  have hsz : szSum t.toL = szSum before + x.Size + szSum after := by
    rw [hsplit]
    simp [szSum_append, szSum_cons]
    omega
  have hfetch := fetchLoop_spec req after before.reverse [x] x.Size
    (by simp [szSum_cons, szSum_nil])
    (by
      have : szSum before.reverse = szSum before := by
        simp [szSum, List.map_reverse, List.sum_reverse]
      omega)
  obtain ⟨ncT, ncR, pcT, pcR, out, ts2, he1, he2, he3, he4, he5, he6⟩ := hfetch
  have hout : out = pcT.reverse ++ x :: ncT := by
    rw [he4]; simp
  -- `out` is a sublist of the in-order list
  have hsub : out.Sublist t.toL := by
    rw [hout]
    conv_rhs => rw [hsplit]
    refine List.Sublist.append ?_ ?_
    · have h1 : pcT.Sublist before.reverse := he2 ▸ List.sublist_append_left _ _
      have := h1.reverse
      simpa using this
    · exact (he1 ▸ List.sublist_append_left ncT ncR).cons₂ x
  have houtpw : out.Pairwise sep := hpw.sublist hsub
  have houtprop : ∀ f ∈ out, properIv f := fun f hf => hprop f (hsub.mem hf)
  -- the treap's in-order list has no duplicates
  have hnd : t.toL.Nodup := by
    refine List.Pairwise.imp_of_mem ?_ hpw
    intro a b hma _ hab
    exact sep_ne (hprop a hma) hab
  -- `out` is the contiguous middle block of the in-order list
  have hbefore : before = pcR.reverse ++ pcT.reverse := by
    have h0 := congrArg List.reverse he2
    simpa [List.reverse_append] using h0
  have hmid : t.toL = pcR.reverse ++ out ++ ncR := by
    conv_lhs => rw [hsplit]
    rw [hbefore, he1, hout]
    simp [List.append_assoc]
  have hnd2 : (pcR.reverse ++ out ++ ncR).Nodup := hmid ▸ hnd
  have ht2 : (out.foldl Tr.removeT t).toL = pcR.reverse ++ ncR := by
    rw [toL_removeT_foldl out t (pairwise_sep_to_gt hpw hprop), hmid]
    exact foldl_erase_middle out _ _ hnd2
  have hgfn : gfnT t x req = some (out, out.foldl Tr.removeT t, ts2) := by
    simp only [gfnT]
    rw [← hbdef, ← hadef, he3]
  refine ⟨out, out.foldl Tr.removeT t, ts2, hgfn, ?_, ?_, by rw [he5], ?_⟩
  · refine List.Pairwise.imp_of_mem ?_ houtpw
    intro a b hma hmb hab
    have := houtprop a hma
    simp only [sep, properIv] at *
    omega
  · rw [← he5]; exact he6
  · intro f hf
    rw [ht2]
    have hnodupflat := hnd2
    rw [List.append_assoc] at hnodupflat
    have hps := List.nodup_append.mp hnodupflat
    have hos := List.nodup_append.mp hps.2.1
    simp only [List.mem_append, not_or]
    constructor
    · intro hfpre
      exact hps.2.2 hfpre (List.mem_append_left _ hf)
    · intro hfsuf
      exact hos.2.2 hf hfsuf

/-- `GetFittingNeighbours` at a concrete treap. -/
theorem C8_witness :
    (Tr.node ⟨10, 14⟩ (.node ⟨0, 4⟩ .nil .nil) (.node ⟨20, 29⟩ .nil .nil)).toL.Pairwise
      sep ∧
    (∀ f ∈ (Tr.node ⟨10, 14⟩ (.node ⟨0, 4⟩ .nil .nil)
        (.node ⟨20, 29⟩ .nil .nil)).toL, properIv f) ∧
    (⟨10, 14⟩ : FS) ∈ (Tr.node ⟨10, 14⟩ (.node ⟨0, 4⟩ .nil .nil)
        (.node ⟨20, 29⟩ .nil .nil)).toL ∧
    12 ≤ szSum (Tr.node ⟨10, 14⟩ (.node ⟨0, 4⟩ .nil .nil)
        (.node ⟨20, 29⟩ .nil .nil)).toL ∧
    ∃ fss t2 ts,
      gfnT (Tr.node ⟨10, 14⟩ (.node ⟨0, 4⟩ .nil .nil) (.node ⟨20, 29⟩ .nil .nil))
        ⟨10, 14⟩ 12 = some (fss, t2, ts) ∧
      fss.Pairwise (fun a b => a.Start < b.Start) ∧
      12 ≤ szSum fss ∧ ts = szSum fss ∧ ∀ f ∈ fss, f ∉ t2.toL :=
  ⟨by decide, by decide, by decide, by decide,
   C8_getFittingNeighbours _ ⟨10, 14⟩ 12 (by decide) (by decide) (by decide)
     (by decide)⟩

/-- A non-overlap/merge insertion sequence at concrete input: the third
interval fills the gap between the first two. -/
theorem C6_witness :
    goodSeq (fun _ => true) (.nil, 0) [⟨0, 4⟩, ⟨10, 14⟩, ⟨5, 9⟩] ∧
    ((∀ f₁ ∈ (insertFold (fun _ => true) (.nil, 0)
        [⟨0, 4⟩, ⟨10, 14⟩, ⟨5, 9⟩]).1.toL,
      ∀ f₂ ∈ (insertFold (fun _ => true) (.nil, 0)
        [⟨0, 4⟩, ⟨10, 14⟩, ⟨5, 9⟩]).1.toL,
        f₁ ≠ f₂ → DisjIv f₁ f₂ ∧ ¬ isOv f₁ f₂) ∧
    (∀ i, covL (insertFold (fun _ => true) (.nil, 0)
        [⟨0, 4⟩, ⟨10, 14⟩, ⟨5, 9⟩]).1.toL i ↔
      ∃ iv ∈ [(⟨0, 4⟩ : FS), ⟨10, 14⟩, ⟨5, 9⟩], inIv i iv)) := by
  have hg : goodSeq (fun _ => true) (.nil, 0) [⟨0, 4⟩, ⟨10, 14⟩, ⟨5, 9⟩] :=
    ⟨by decide, by decide, by decide, by decide, by decide, by decide, trivial⟩
  exact ⟨hg, C6_insert_non_adjacent (fun _ => true) _ 0 hg⟩

/-! ## `poolExtract` returns a contiguous run of the free list -/

/-- `GetFittingNeighbours`, decomposed: the returned bundle is a contiguous
run of the in-order free list containing the chosen node, it is removed
exactly, and its size reaches the request. -/
theorem gfnT_decomp (t : Tr) (x : FS) (req : ℕ)
    (hpw : t.toL.Pairwise sep) (hprop : ∀ f ∈ t.toL, properIv f)
    (hx : x ∈ t.toL) (htot : req ≤ szSum t.toL) :
    ∃ pre out suf ts2,
      gfnT t x req = some (out, out.foldl Tr.removeT t, ts2) ∧
      t.toL = pre ++ out ++ suf ∧
      (out.foldl Tr.removeT t).toL = pre ++ suf ∧
      out ≠ [] ∧ ts2 = szSum out ∧ req ≤ ts2 := by
  have hsplit := split_at_mem hx
  set before := t.toL.takeWhile (fun f => f ≠ x) with hbdef
  set after := (t.toL.dropWhile (fun f => f ≠ x)).tail with hadef
  have hsz : szSum t.toL = szSum before + x.Size + szSum after := by
    rw [hsplit]
    simp [szSum_append, szSum_cons]
    omega
  have hfetch := fetchLoop_spec req after before.reverse [x] x.Size
    (by simp [szSum_cons, szSum_nil])
    (by
      have : szSum before.reverse = szSum before := by
        simp [szSum, List.map_reverse, List.sum_reverse]
      omega)
  obtain ⟨ncT, ncR, pcT, pcR, out, ts2, he1, he2, he3, he4, he5, he6⟩ := hfetch
  have hout : out = pcT.reverse ++ x :: ncT := by
    rw [he4]; simp
  have hnd : t.toL.Nodup := by
    refine List.Pairwise.imp_of_mem ?_ hpw
    intro a b hma _ hab
    exact sep_ne (hprop a hma) hab
  have hbefore : before = pcR.reverse ++ pcT.reverse := by
    have h0 := congrArg List.reverse he2
    simpa [List.reverse_append] using h0
  have hmid : t.toL = pcR.reverse ++ out ++ ncR := by
    conv_lhs => rw [hsplit]
    rw [hbefore, he1, hout]
    simp [List.append_assoc]
  have hnd2 : (pcR.reverse ++ out ++ ncR).Nodup := hmid ▸ hnd
  have ht2 : (out.foldl Tr.removeT t).toL = pcR.reverse ++ ncR := by
    rw [toL_removeT_foldl out t (pairwise_sep_to_gt hpw hprop), hmid]
    exact foldl_erase_middle out _ _ hnd2
  have hgfn : gfnT t x req = some (out, out.foldl Tr.removeT t, ts2) := by
    simp only [gfnT]
    rw [← hbdef, ← hadef, he3]
  refine ⟨pcR.reverse, out, ncR, ts2, hgfn, hmid, ht2, ?_, he5, he6⟩
  rw [hout]
  simp

/-- `poolExtract` (quiescent, enough total space): succeeds, and the bundle
is a nonempty contiguous run of the free list, removed exactly, with the
pool total and extraction count adjusted. -/
theorem poolExtractF_ok (st : FSMS) (req : ℕ)
    (hpw : (Tr.toL st.root).Pairwise sep)
    (hprop : ∀ f ∈ Tr.toL st.root, properIv f)
    (htfs : st.tfs = szSum (Tr.toL st.root))
    (hext : st.extracted = 0)
    (hreq : 0 < req) (hsz : req ≤ st.tfs) :
    ∃ pre out suf fsm2,
      poolExtractF st req = .ok (out, fsm2) ∧
      Tr.toL st.root = pre ++ out ++ suf ∧
      Tr.toL fsm2.root = pre ++ suf ∧
      out ≠ [] ∧ req ≤ szSum out ∧
      fsm2.tfs = st.tfs - szSum out ∧ fsm2.extracted = 1 := by
  have hne : st.root ≠ .nil := by
    intro h
    rw [h] at htfs
    simp [Tr.toL, szSum_nil] at htfs
    omega
  have hxmem : ggnT st.root (if Tr.rsz st.root < req then 0 else req) ∈
      Tr.toL st.root := by
    rcases (ggnGo_spec (Tr.rfs st.root) st.root
        (if Tr.rsz st.root < req then 0 else req) none).1 with h | h
    · rw [ggnT, h]
      exact rfs_mem_toL hne
    · exact h
  obtain ⟨pre, out, suf, ts2, hgfn, hmid, ht2, hnem, hge, hts⟩ :=
    gfnT_decomp st.root (ggnT st.root (if Tr.rsz st.root < req then 0 else req))
      req hpw hprop hxmem (htfs ▸ hsz)
  refine ⟨pre, out, suf,
    { root := out.foldl Tr.removeT st.root, tfs := st.tfs - ts2,
      extracted := st.extracted + 1 }, ?_, hmid, ht2, hnem, hge ▸ hts, by
        rw [hge], by simp [hext]⟩
  rw [poolExtractF]
  rw [if_neg (fun hc => absurd hc.2 (by rw [hext]; omega))]
  rw [if_neg (by push_neg; exact ⟨hne, by omega⟩)]
  simp only [ggnT] at hgfn ⊢
  rw [hgfn]

/-! ## The arena invariant: live records -/

/-- A live record (ghost view): key, current header offset, payload. -/
structure Rec where
  k : ℕ
  pos : ℕ
  data : List ℕ
deriving DecidableEq, Repr

/-- Bytes occupied by a record: 8 length + 8 key + payload. -/
def Rec.spanLen (r : Rec) : ℕ := 16 + r.data.length

/-- A byte offset inside a record's span. -/
def inSpan (i : ℕ) (r : Rec) : Prop := r.pos ≤ i ∧ i < r.pos + r.spanLen

/-- The buffer stores the record's wire format at its offset
(§6: length little-endian, key little-endian, payload). -/
def encodes (mem : Mem) (r : Rec) : Prop :=
  (∀ j < 8, mem (r.pos + j) = byteAt r.data.length j) ∧
  (∀ j < 8, mem (r.pos + 8 + j) = byteAt r.k j) ∧
  (∀ j < r.data.length, mem (r.pos + 16 + j) = r.data.getD j 0)

/-- A byte offset covered by some live record. -/
def covR (recs : List Rec) (i : ℕ) : Prop := ∃ r ∈ recs, inSpan i r

/-- Two records' spans are disjoint. -/
def spanDisj (a b : Rec) : Prop :=
  a.pos + a.spanLen ≤ b.pos ∨ b.pos + b.spanLen ≤ a.pos

/-! ## Little-endian round trip -/

theorem rd64_eq_digits (mem : Mem) (pos : ℕ) :
    rd64 mem pos =
      mem pos + mem (pos + 1) * 256 + mem (pos + 2) * 256 ^ 2 +
      mem (pos + 3) * 256 ^ 3 + mem (pos + 4) * 256 ^ 4 +
      mem (pos + 5) * 256 ^ 5 + mem (pos + 6) * 256 ^ 6 +
      mem (pos + 7) * 256 ^ 7 := by
  simp [rd64, List.range_succ]
  ring

/-- Decoding eight little-endian digit bytes gives back the value. -/
theorem rd64_of_bytes {mem : Mem} {pos v : ℕ}
    (h : ∀ j < 8, mem (pos + j) = byteAt v j) (hv : v < 2 ^ 64) :
    rd64 mem pos = v := by
  have h0 : mem pos = byteAt v 0 := by simpa using h 0 (by omega)
  rw [rd64_eq_digits,
    h0, h 1 (by omega), h 2 (by omega), h 3 (by omega),
    h 4 (by omega), h 5 (by omega), h 6 (by omega), h 7 (by omega)]
  simp only [byteAt]
  omega

/-- `PutUint64` writes the digit bytes. -/
theorem wr64_read {mem : Mem} {pos v : ℕ} :
    ∀ j < 8, wr64 mem pos v (pos + j) = byteAt v j := by
  intro j hj
  simp only [wr64]
  rw [if_pos (by omega)]
  congr 1
  omega

theorem wr64_outside {mem : Mem} {pos v i : ℕ} (h : i < pos ∨ pos + 8 ≤ i) :
    wr64 mem pos v i = mem i := by
  simp only [wr64]
  rw [if_neg (by omega)]

/-! ## The sharded map: load/store/delete behaviour -/

theorem find?_mapReplace (l : List (ℕ × ℕ)) (k v k' : ℕ) (hk : k' ≠ k) :
    (l.map (fun kv => if kv.1 = k then (k, v) else kv)).find? (fun kv => kv.1 = k') =
      l.find? (fun kv => kv.1 = k') := by
  induction l with
  | nil => rfl
  | cons a tl ih =>
    simp only [List.map_cons]
    by_cases ha : a.1 = k
    · rw [List.find?_cons_of_neg _ (by simp [ha]; exact Ne.symm hk),
        List.find?_cons_of_neg _ (by simp [ha]; exact fun hh => hk (hh ▸ ha ▸ rfl))]
      exact ih
    · by_cases ha' : a.1 = k'
      · rw [List.find?_cons_of_pos _ (by simp [ha]; exact ha'),
          List.find?_cons_of_pos _ (by simp [ha'])]
        simp [ha]
      · rw [List.find?_cons_of_neg _ (by simp [ha]; exact ha'),
          List.find?_cons_of_neg _ (by simp [ha'])]
        exact ih

theorem find?_mapReplace_self (l : List (ℕ × ℕ)) (k v : ℕ)
    (h : (l.any fun kv => kv.1 = k) = true) :
    (l.map (fun kv => if kv.1 = k then (k, v) else kv)).find? (fun kv => kv.1 = k) =
      some (k, v) := by
  induction l with
  | nil => simp at h
  | cons a tl ih =>
    simp only [List.map_cons]
    by_cases ha : a.1 = k
    · rw [List.find?_cons_of_pos _ (by simp [ha])]
      simp [ha]
    · rw [List.find?_cons_of_neg _ (by simp [ha])]
      refine ih ?h
      rcases List.any_eq_true.mp h with ⟨kv, hkv, hkvp⟩
      rcases List.mem_cons.mp hkv with rfl | hkv'
      · exact absurd (of_decide_eq_true hkvp) ha
      · exact List.any_eq_true.mpr ⟨kv, hkv', hkvp⟩

theorem alStore_find? (l : List (ℕ × ℕ)) (k v k' : ℕ) :
    (alStore l k v).find? (fun kv => kv.1 = k') =
      if k' = k then some (k, v) else l.find? (fun kv => kv.1 = k') := by
  by_cases hk : k' = k
  · subst hk
    rw [if_pos rfl, alStore]
    split
    · rename_i hany
      exact find?_mapReplace_self l k' v hany
    · rw [List.find?_cons_of_pos _ (by simp)]
  · rw [if_neg hk, alStore]
    split
    · exact find?_mapReplace l k v k' hk
    · rw [List.find?_cons_of_neg _ (by simp; exact Ne.symm hk)]

theorem getD_set_self_ {α : Type} {l : List α} {i : ℕ} (h : i < l.length) (a d : α) :
    (l.set i a).getD i d = a := by
  rw [List.getD_eq_getElem?_getD, List.getElem?_set_self h]
  rfl

theorem getD_set_ne_ {α : Type} {l : List α} {i j : ℕ} (h : i ≠ j) (a d : α) :
    (l.set i a).getD j d = l.getD j d := by
  rw [List.getD_eq_getElem?_getD, List.getElem?_set_ne h, ← List.getD_eq_getElem?_getD]

theorem VM.length_store (m : VM) (k v : ℕ) :
    (VM.store m k v).buckets.length = m.buckets.length :=
  List.length_set ..

theorem VM.load_store (m : VM) (hlen : m.buckets.length = maxBucket) (k v k' : ℕ) :
    VM.load (VM.store m k v) k' = if k' = k then some v else VM.load m k' := by
  by_cases hb : bucketIdx k' = bucketIdx k
  · simp only [VM.load, VM.store, hb]
    rw [getD_set_self_ (by rw [hlen]; exact Nat.mod_lt _ (by simp [maxBucket]))]
    rw [alStore_find?]
    by_cases hk : k' = k
    · rw [if_pos hk, if_pos hk]
      rfl
    · rw [if_neg hk, if_neg hk]
  · have hk : k' ≠ k := fun he => hb (he ▸ rfl)
    rw [if_neg hk]
    simp only [VM.load, VM.store]
    rw [getD_set_ne_ (fun he => hb he.symm)]

theorem VM.length_loadAndDelete (m : VM) (k : ℕ) :
    (VM.loadAndDelete m k).2.buckets.length = m.buckets.length := by
  rw [VM.loadAndDelete]
  cases h : VM.load m k with
  | none => rfl
  | some v => exact List.length_set ..

theorem VM.loadAndDelete_fst (m : VM) (k : ℕ) :
    (VM.loadAndDelete m k).1 = VM.load m k := by
  rw [VM.loadAndDelete]
  cases h : VM.load m k with
  | none => rfl
  | some v => rfl

theorem VM.load_loadAndDelete (m : VM) (k k' : ℕ) :
    VM.load (VM.loadAndDelete m k).2 k' = if k' = k then none else VM.load m k' := by
  rw [VM.loadAndDelete]
  cases h : VM.load m k with
  | none =>
    by_cases hk : k' = k
    · subst hk
      rw [if_pos rfl]
      exact h
    · rw [if_neg hk]
  | some v =>
    by_cases hb : bucketIdx k' = bucketIdx k
    · simp only [VM.load, hb]
      rw [getD_set_self_]
      · by_cases hk : k' = k
        · rw [if_pos hk]
          subst hk
          rw [List.find?_filter]
          rw [List.find?_eq_none.mpr]
          · rfl
          · intro x _ hx
            rw [decide_eq_true_iff] at hx
            rcases hx with ⟨hx1, hx2⟩
            rw [decide_eq_true_iff] at hx1 hx2
            exact hx1 hx2
        · rw [if_neg hk]
          rw [List.find?_filter]
          have hpe : (fun a : ℕ × ℕ => decide ((fun kv : ℕ × ℕ => decide (kv.1 ≠ k)) a = true ∧
              (fun kv : ℕ × ℕ => decide (kv.1 = k')) a = true)) =
              (fun kv : ℕ × ℕ => decide (kv.1 = k')) := by
            funext a
            by_cases ha : a.1 = k'
            · simp [ha, hk]
            · simp [ha]
          rw [hpe]
      · have hlt : bucketIdx k < m.buckets.length := by
          by_contra hge
          have : m.buckets.getD (bucketIdx k) [] = [] := by
            rw [List.getD_eq_getElem?_getD, List.getElem?_eq_none (by omega)]
            rfl
          rw [VM.load, this] at h
          simp at h
        exact hlt
    · have hk : k' ≠ k := fun he => hb (he ▸ rfl)
      rw [if_neg hk]
      simp only [VM.load]
      rw [getD_set_ne_ (fun he => hb he.symm)]

/-! ## Tiling a gap by records -/

/-- `tiles rs a b`: the records `rs`, in order, exactly tile the byte range
`[a, b)`: each starts where the previous ended. -/
def tiles : List Rec → ℕ → ℕ → Prop
  | [], a, b => a = b
  | r :: rest, a, b =>
    r.pos = a ∧ r.pos + r.spanLen ≤ b ∧ tiles rest (r.pos + r.spanLen) b

theorem tiles_le : ∀ {rs : List Rec} {a b : ℕ}, tiles rs a b → a ≤ b := by
  intro rs
  induction rs with
  | nil => intro a b h; exact Nat.le_of_eq h
  | cons r rest ih =>
    intro a b h
    rcases h with ⟨h1, h2, _⟩
    omega

theorem tiles_mem_bounds : ∀ {rs : List Rec} {a b : ℕ}, tiles rs a b →
    ∀ r ∈ rs, a ≤ r.pos ∧ r.pos + r.spanLen ≤ b := by
  intro rs
  induction rs with
  | nil => intro a b _ r hr; cases hr
  | cons q rest ih =>
    intro a b h r hr
    rcases h with ⟨h1, h2, h3⟩
    rcases List.mem_cons.mp hr with rfl | hr'
    · omega
    · have := ih h3 r hr'
      omega

theorem tiles_cov : ∀ {rs : List Rec} {a b : ℕ}, tiles rs a b →
    ∀ i, (∃ r ∈ rs, inSpan i r) ↔ (a ≤ i ∧ i < b) := by
  intro rs
  induction rs with
  | nil =>
    intro a b h i
    have hab : a = b := h
    constructor
    · rintro ⟨r, hr, _⟩
      cases hr
    · rintro ⟨h1, h2⟩
      omega
  | cons q rest ih =>
    intro a b h i
    rcases h with ⟨h1, h2, h3⟩
    have hrest := ih h3 i
    have hle := tiles_le h3
    constructor
    · intro ⟨r, hr, hsp⟩
      rcases List.mem_cons.mp hr with rfl | hr'
      · rcases hsp with ⟨hs1, hs2⟩
        omega
      · have := (hrest.mp ⟨r, hr', hsp⟩)
        omega
    · intro ⟨hi1, hi2⟩
      by_cases hcase : i < q.pos + q.spanLen
      · exact ⟨q, List.mem_cons_self _ _, by constructor <;> omega⟩
      · obtain ⟨r, hr, hsp⟩ := hrest.mpr ⟨by omega, hi2⟩
        exact ⟨r, List.mem_cons_of_mem _ hr, hsp⟩

theorem tiles_sum : ∀ {rs : List Rec} {a b : ℕ}, tiles rs a b →
    (rs.map Rec.spanLen).sum = b - a := by
  intro rs
  induction rs with
  | nil =>
    intro a b h
    have hab : a = b := h
    simp [hab]
  | cons q rest ih =>
    intro a b h
    rcases h with ⟨h1, h2, h3⟩
    have := ih h3
    have hle := tiles_le h3
    simp only [List.map_cons, List.sum_cons]
    omega

/-- Shifting a tiled run left by `δ` tiles the shifted range. -/
theorem tiles_shift (δ : ℕ) : ∀ {rs : List Rec} {a b : ℕ}, tiles rs a b →
    δ ≤ a → tiles (rs.map (fun r => { r with pos := r.pos - δ })) (a - δ) (b - δ) := by
  intro rs
  induction rs with
  | nil =>
    intro a b h _
    have hab : a = b := h
    show a - δ = b - δ
    omega
  | cons q rest ih =>
    intro a b h hδ
    rcases h with ⟨h1, h2, h3⟩
    have hsl : q.spanLen = 16 + q.data.length := rfl
    have hrec := ih h3 (by omega)
    refine ⟨?_, ?_, ?_⟩
    · show q.pos - δ = a - δ
      omega
    · show (q.pos - δ) + (16 + q.data.length) ≤ b - δ
      rw [hsl] at h2
      omega
    · show tiles (rest.map (fun r => { r with pos := r.pos - δ }))
        ((q.pos - δ) + (16 + q.data.length)) (b - δ)
      have he : (q.pos - δ) + (16 + q.data.length) = q.pos + q.spanLen - δ := by
        rw [hsl]
        omega
      rw [he]
      exact hrec

/-- In a list of records with duplicate-free keys, members with equal keys
are equal. -/
theorem rec_key_inj {recs : List Rec} (h : (recs.map Rec.k).Nodup)
    {r1 r2 : Rec} (h1 : r1 ∈ recs) (h2 : r2 ∈ recs) (hk : r1.k = r2.k) :
    r1 = r2 :=
  List.inj_on_of_nodup_map h h1 h2 hk

theorem spanDisj_of_mem {recs : List Rec} (h : recs.Pairwise spanDisj)
    {r1 r2 : Rec} (h1 : r1 ∈ recs) (h2 : r2 ∈ recs) (hne : r1 ≠ r2) :
    spanDisj r1 r2 := by
  refine List.Pairwise.forall ?_ h h1 h2 hne
  intro a b hab
  rcases hab with h | h
  · exact Or.inr h
  · exact Or.inl h

/-- **Cover implies tiling.**  If every byte of `[a, b)` is covered by a
record, records have pairwise disjoint nonempty spans, and no span crosses
the range's boundary, then an ordered sub-run of the records exactly tiles
`[a, b)` — and it contains every record whose span lies inside the range. -/
theorem tiling_exists (recs : List Rec) (hdisj : recs.Pairwise spanDisj)
    (hlen : ∀ r ∈ recs, 0 < r.spanLen) :
    ∀ (n a b : ℕ), b - a ≤ n → a ≤ b →
    (∀ i, a ≤ i → i < b → covR recs i) →
    (∀ r ∈ recs, (∃ i, a ≤ i ∧ i < b ∧ inSpan i r) →
      a ≤ r.pos ∧ r.pos + r.spanLen ≤ b) →
    ∃ rs, (∀ r ∈ rs, r ∈ recs) ∧ tiles rs a b ∧
      (∀ r ∈ recs, a ≤ r.pos → r.pos + r.spanLen ≤ b → r ∈ rs) := by
  intro n
  induction n with
  | zero =>
    intro a b hn hab _ _
    have hb : a = b := by omega
    refine ⟨[], by simp, hb, ?_⟩
    intro r hr h1 h2
    have := hlen r hr
    omega
  | succ m ih =>
    intro a b hn hab hcov hcontain
    by_cases hlt : a < b
    · obtain ⟨r, hr, hsp⟩ := hcov a (le_refl a) hlt
      obtain ⟨hc1, hc2⟩ := hcontain r hr ⟨a, le_refl a, hlt, hsp⟩
      have hpos : r.pos = a := by
        rcases hsp with ⟨h1, _⟩
        omega
      have hsl := hlen r hr
      have hsubcontain : ∀ q ∈ recs,
          (∃ i, r.pos + r.spanLen ≤ i ∧ i < b ∧ inSpan i q) →
          r.pos + r.spanLen ≤ q.pos ∧ q.pos + q.spanLen ≤ b := by
        rintro q hq ⟨i, hi1, hi2, hisp⟩
        obtain ⟨hg1, hg2⟩ := hcontain q hq ⟨i, by omega, hi2, hisp⟩
        refine ⟨?_, hg2⟩
        by_contra hqlt
        push_neg at hqlt
        have hqr : q ≠ r := by
          intro he
          subst he
          rcases hisp with ⟨_, h2⟩
          omega
        have hdq := spanDisj_of_mem hdisj hq hr hqr
        rcases hisp with ⟨hs1, hs2⟩
        rcases hdq with h | h <;> omega
      obtain ⟨rs', hsub', htiles', hall'⟩ := ih (r.pos + r.spanLen) b
        (by omega) (by omega)
        (fun i hi1 hi2 => hcov i (by omega) hi2) hsubcontain
      refine ⟨r :: rs', ?_, ⟨hpos, hc2, htiles'⟩, ?_⟩
      · intro q hq
        rcases List.mem_cons.mp hq with rfl | hq'
        · exact hr
        · exact hsub' q hq'
      · intro q hq hq1 hq2
        by_cases hqr : q = r
        · exact hqr ▸ List.mem_cons_self _ _
        · refine List.mem_cons_of_mem _ (hall' q hq ?_ hq2)
          by_contra hqlt
          push_neg at hqlt
          have hdq := spanDisj_of_mem hdisj hq hr hqr
          have hqsl := hlen q hq
          rcases hdq with h | h <;> omega
    · have hb : a = b := by omega
      refine ⟨[], by simp, hb, ?_⟩
      intro r hr h1 h2
      have := hlen r hr
      omega

/-! ## The record walk of `readAndShift` -/

/-- The header walk over a tiled run of records: it terminates without the
`panic`, and its only effect is to re-point each walked key to its
destination offset (`δ` is the original source start, i.e. the walk's
`start - run`). -/
theorem rasLoop_step (mem : Mem) (gsize srcEnd dstStart : ℕ) (vm : VM)
    (start run : ℕ) :
    rasLoop mem gsize srcEnd dstStart vm start run =
      if start < srcEnd then
        if start + 16 > gsize then none
        else rasLoop mem gsize srcEnd dstStart
          (vm.store (rd64 mem (start + 8)) (dstStart + run))
          (start + (rd64 mem start + 16)) (run + (rd64 mem start + 16))
      else some vm := by
  rw [rasLoop.eq_def]

theorem rasLoop_spec (mem : Mem) (gsize dstStart δ : ℕ) :
    ∀ (rs : List Rec) (b run : ℕ) (vm : VM), tiles rs (δ + run) b → b ≤ gsize →
    (∀ r ∈ rs, encodes mem r ∧ r.data.length < 2 ^ 64 ∧ r.k < 2 ^ 64) →
    rasLoop mem gsize b dstStart vm (δ + run) run =
      some (rs.foldl (fun v r => VM.store v r.k (dstStart + (r.pos - δ))) vm) := by
  intro rs
  induction rs with
  | nil =>
    intro b run vm htiles _ _
    have hab : δ + run = b := htiles
    rw [rasLoop_step, if_neg (by omega)]
    rfl
  | cons r rest ih =>
    intro b run vm htiles hb henc
    rcases htiles with ⟨h1, h2, h3⟩
    have hsl : r.spanLen = 16 + r.data.length := rfl
    rw [hsl] at h2
    obtain ⟨he, hdl, hk⟩ := henc r (List.mem_cons_self _ _)
    have hdle : rd64 mem (δ + run) = r.data.length := by
      rw [← h1]
      exact rd64_of_bytes he.1 hdl
    have hke : rd64 mem (δ + run + 8) = r.k := by
      have h8 : ∀ j < 8, mem (δ + run + 8 + j) = byteAt r.k j := by
        intro j hj
        rw [← h1]
        exact he.2.1 j hj
      exact rd64_of_bytes h8 hk
    rw [rasLoop_step]
    rw [if_pos (by omega)]
    rw [if_neg (show ¬ δ + run + 16 > gsize by omega)]
    simp only [hdle, hke]
    have harg : δ + run + (r.data.length + 16) = δ + (run + (r.data.length + 16)) := by
      omega
    rw [harg]
    have htiles' : tiles rest (δ + (run + (r.data.length + 16))) b := by
      have he2 : r.pos + r.spanLen = δ + (run + (r.data.length + 16)) := by
        rw [hsl]
        omega
      exact he2 ▸ h3
    rw [ih b (run + (r.data.length + 16)) (VM.store vm r.k (dstStart + run)) htiles' hb
      (fun q hq => henc q (List.mem_cons_of_mem _ hq))]
    have hpr : dstStart + (r.pos - δ) = dstStart + run := by omega
    simp only [List.foldl_cons, hpr]

/-- The key→position bindings produced by a run of `store`s. -/
theorem load_foldl_store (f : Rec → ℕ) :
    ∀ (rs : List Rec) (vm : VM), vm.buckets.length = maxBucket →
    (rs.map Rec.k).Nodup →
    ∀ k, VM.load (rs.foldl (fun v r => VM.store v r.k (f r)) vm) k =
      match rs.find? (fun r => r.k = k) with
      | some r => some (f r)
      | none => VM.load vm k := by
  intro rs
  induction rs with
  | nil =>
    intro vm _ _ k
    rfl
  | cons r rest ih =>
    intro vm hlen hnd k
    have hnd' : (rest.map Rec.k).Nodup := by
      simp only [List.map_cons, List.nodup_cons] at hnd
      exact hnd.2
    have hknotin : r.k ∉ rest.map Rec.k := by
      simp only [List.map_cons, List.nodup_cons] at hnd
      exact hnd.1
    have hlen' : (VM.store vm r.k (f r)).buckets.length = maxBucket := by
      rw [VM.length_store, hlen]
    simp only [List.foldl_cons]
    rw [ih (VM.store vm r.k (f r)) hlen' hnd' k]
    by_cases hkr : k = r.k
    · subst hkr
      have hfind : rest.find? (fun q => q.k = r.k) = none := by
        rw [List.find?_eq_none]
        intro q hq hqk
        exact hknotin (List.mem_map.mpr ⟨q, hq, of_decide_eq_true hqk⟩)
      rw [hfind, List.find?_cons_of_pos _ (by simp)]
      rw [VM.load_store vm hlen _ _ _, if_pos rfl]
    · rw [List.find?_cons_of_neg _ (by simp [hkr]; exact fun h => hkr h.symm)]
      cases hf : rest.find? (fun q => q.k = k) with
      | some q => rfl
      | none =>
        rw [VM.load_store vm hlen _ _ _, if_neg hkr]

theorem length_foldl_store (f : Rec → ℕ) :
    ∀ (rs : List Rec) (vm : VM),
      (rs.foldl (fun v r => VM.store v r.k (f r)) vm).buckets.length =
        vm.buckets.length := by
  intro rs
  induction rs with
  | nil => intro vm; rfl
  | cons r rest ih =>
    intro vm
    simp only [List.foldl_cons]
    rw [ih, VM.length_store]

/-! ## The record-side arena invariant -/

/-- The clauses of the arena invariant about the live records, the buffer
contents and the key→position map (everything the compaction step must
preserve). -/
structure RecInv (g : GS) (recs : List Rec) : Prop where
  hkeys : (recs.map Rec.k).Nodup
  hkub : ∀ r ∈ recs, r.k < 2 ^ 64
  henc : ∀ r ∈ recs, encodes g.mem r
  hdlen : ∀ r ∈ recs, r.data.length < 2 ^ 64
  hbound : ∀ r ∈ recs, r.pos + r.spanLen ≤ g.size
  hdisj : recs.Pairwise spanDisj
  hvlen : g.vmap.buckets.length = maxBucket
  hvmap : ∀ k p, VM.load g.vmap k = some p ↔ ∃ r ∈ recs, r.k = k ∧ r.pos = p

theorem spanLen_pos (r : Rec) : 0 < r.spanLen := by
  unfold Rec.spanLen
  omega

theorem tiles_pairwise : ∀ {rs : List Rec} {a b : ℕ}, tiles rs a b →
    rs.Pairwise (fun r q => r.pos + r.spanLen ≤ q.pos) := by
  intro rs
  induction rs with
  | nil => intro a b _; exact List.Pairwise.nil
  | cons r rest ih =>
    intro a b h
    rcases h with ⟨h1, h2, h3⟩
    refine List.Pairwise.cons ?_ (ih h3)
    intro q hq
    exact (tiles_mem_bounds h3 q hq).1

theorem tiles_nodup {rs : List Rec} {a b : ℕ} (h : tiles rs a b) : rs.Nodup := by
  refine (tiles_pairwise h).imp ?_
  intro r q hrq he
  subst he
  have := spanLen_pos r
  omega

/-- The keys of a tiled run drawn from a duplicate-free record list are
duplicate-free. -/
theorem tiles_keys_nodup {recs rs : List Rec} {a b : ℕ}
    (hkeys : (recs.map Rec.k).Nodup) (hsub : ∀ r ∈ rs, r ∈ recs)
    (h : tiles rs a b) : (rs.map Rec.k).Nodup :=
  List.Nodup.map_on
    (fun x hx y hy hxy => rec_key_inj hkeys (hsub x hx) (hsub y hy) hxy)
    (tiles_nodup h)

/-- **The compaction step.**  One `readAndShift` between adjacent free
intervals `fs < nfs` (with the gap between them fully live) moves the run
of records in the gap flush left to `fs.Start`, re-points exactly their
keys, preserves every record-side invariant clause, and leaves the live
byte set equal to `[fs.Start, destEnd)` inside the touched region and
unchanged outside it. -/
theorem ras_step_spec (g : GS) (recs : List Rec) (fs nfs : FS)
    (hri : RecInv g recs)
    (hpfs : properIv fs) (hpnfs : properIv nfs)
    (hsep : sep fs nfs)
    (hbn : nfs.endp < g.size)
    (hffs : ∀ i, inIv i fs → ¬ covR recs i)
    (hfnfs : ∀ i, inIv i nfs → ¬ covR recs i)
    (hgap : ∀ i, fs.endp < i → i < nfs.Start → covR recs i) :
    ∃ g1 recs1,
      readAndShiftG g (fs.endp + 1) nfs.Start fs.Start
        (fs.Start + (nfs.Start - fs.endp - 1)) = some g1 ∧
      RecInv g1 recs1 ∧
      recs1.map (fun r => (r.k, r.data)) = recs.map (fun r => (r.k, r.data)) ∧
      g1.size = g.size ∧ g1.key = g.key ∧ g1.fsm = g.fsm ∧
      g1.oracle = g.oracle ∧ g1.octr = g.octr ∧
      ∀ i, covR recs1 i ↔
        ((i < fs.Start ∨ nfs.Start ≤ i) ∧ covR recs i) ∨
        (fs.Start ≤ i ∧ i < fs.Start + (nfs.Start - fs.endp - 1)) := by
  obtain ⟨hkeys, hkub, henc, hdlen, hbound, hdisj, hvlen, hvmap⟩ := hri
  have hfs1 : fs.Start ≤ fs.endp := hpfs
  have hnfs1 : nfs.Start ≤ nfs.endp := hpnfs
  have hsep' : fs.endp + 1 < nfs.Start := hsep
  -- the gap is nonempty and the destination region sits inside the buffer
  have hcontain : ∀ r ∈ recs,
      (∃ i, fs.endp + 1 ≤ i ∧ i < nfs.Start ∧ inSpan i r) →
      fs.endp + 1 ≤ r.pos ∧ r.pos + r.spanLen ≤ nfs.Start := by
    rintro r hr ⟨i, hi1, hi2, hsp1, hsp2⟩
    constructor
    · by_contra hlt
      push_neg at hlt
      exact hffs fs.endp ⟨hfs1, le_refl _⟩ ⟨r, hr, by omega, by omega⟩
    · by_contra hlt
      push_neg at hlt
      exact hfnfs nfs.Start ⟨le_refl _, hnfs1⟩ ⟨r, hr, by omega, by omega⟩
  obtain ⟨rs, hsub, htiles, hall⟩ := tiling_exists recs hdisj
    (fun r _ => spanLen_pos r) nfs.Start (fs.endp + 1) nfs.Start
    (by omega) (by omega) (fun i hi1 hi2 => hgap i (by omega) hi2) hcontain
  have hrsb := tiles_mem_bounds htiles
  have hrskeys : (rs.map Rec.k).Nodup := tiles_keys_nodup hkeys hsub htiles
  have hrsenc : ∀ r ∈ rs, encodes g.mem r ∧ r.data.length < 2 ^ 64 ∧ r.k < 2 ^ 64 :=
    fun r hr => ⟨henc r (hsub r hr), hdlen r (hsub r hr), hkub r (hsub r hr)⟩
  have hras := rasLoop_spec g.mem g.size fs.Start (fs.endp + 1) rs nfs.Start 0
    g.vmap (by simpa using htiles) (by omega) hrsenc
  simp only [Nat.add_zero] at hras
  set vm1 := rs.foldl
    (fun v r => VM.store v r.k (fs.Start + (r.pos - (fs.endp + 1)))) g.vmap with hvm1
  set mem1 := memCopy g.mem fs.Start (fs.Start + (nfs.Start - fs.endp - 1))
    (fs.endp + 1) nfs.Start with hmem1
  set reloc : Rec → Rec := fun r =>
    if fs.endp + 1 ≤ r.pos ∧ r.pos + r.spanLen ≤ nfs.Start then
      { r with pos := r.pos - (fs.endp + 1 - fs.Start) } else r with hreloc
  -- membership in the tiled run is exactly containment in the gap
  have hmemrs : ∀ r, r ∈ rs ↔
      (r ∈ recs ∧ fs.endp + 1 ≤ r.pos ∧ r.pos + r.spanLen ≤ nfs.Start) := by
    intro r
    constructor
    · intro hr
      exact ⟨hsub r hr, hrsb r hr⟩
    · rintro ⟨hr, h1, h2⟩
      exact hall r hr h1 h2
  have hrel_in : ∀ r ∈ rs,
      reloc r = { r with pos := r.pos - (fs.endp + 1 - fs.Start) } := by
    intro r hr
    simp only [hreloc]
    rw [if_pos ((hmemrs r).mp hr).2]
  have hrel_out : ∀ r, r ∉ rs → r ∈ recs → reloc r = r := by
    intro r hr hrec
    simp only [hreloc]
    rw [if_neg (fun hc => hr ((hmemrs r).mpr ⟨hrec, hc⟩))]
  have hrel_k : ∀ r, (reloc r).k = r.k := by
    intro r
    simp only [hreloc]
    split <;> rfl
  have hrel_d : ∀ r, (reloc r).data = r.data := by
    intro r
    simp only [hreloc]
    split <;> rfl
  have hrel_sl : ∀ r, (reloc r).spanLen = r.spanLen := by
    intro r
    simp only [hreloc]
    split <;> rfl
  -- spans of records outside the run avoid the whole region `[fs.Start, srcEnd)`
  have hout_disj : ∀ r ∈ recs, r ∉ rs → ∀ i, inSpan i r →
      ¬(fs.Start ≤ i ∧ i < nfs.Start) := by
    rintro r hr hnrs i hsp ⟨hi1, hi2⟩
    by_cases hif : i ≤ fs.endp
    · exact hffs i ⟨hi1, hif⟩ ⟨r, hr, hsp⟩
    · obtain ⟨q, hq, hqsp⟩ := (tiles_cov htiles i).mpr ⟨by omega, by omega⟩
      have hrq : r ≠ q := fun he => hnrs (he ▸ hq)
      have hd := spanDisj_of_mem hdisj hr (hsub q hq) hrq
      rcases hsp with ⟨a1, a2⟩
      rcases hqsp with ⟨b1, b2⟩
      rcases hd with h | h <;> omega
  -- the byte move
  have hmc : ∀ i, mem1 i =
      if fs.Start ≤ i ∧ i < fs.Start + (nfs.Start - fs.endp - 1) then
        g.mem (fs.endp + 1 + (i - fs.Start))
      else g.mem i := by
    intro i
    simp only [hmem1, memCopy]
    have h1 : min (fs.Start + (nfs.Start - fs.endp - 1) - fs.Start)
        (nfs.Start - (fs.endp + 1)) = nfs.Start - fs.endp - 1 := by omega
    rw [h1]
  have henc1 : ∀ r ∈ recs, encodes mem1 (reloc r) := by
    intro r hr
    obtain ⟨e1, e2, e3⟩ := henc r hr
    by_cases hin : r ∈ rs
    · rw [hrel_in r hin]
      obtain ⟨hb1, hb2⟩ := hrsb r hin
      have hsl : r.spanLen = 16 + r.data.length := rfl
      have hbyte : ∀ i, r.pos ≤ i → i < r.pos + r.spanLen →
          mem1 (i - (fs.endp + 1 - fs.Start)) = g.mem i := by
        intro i h1 h2
        rw [hmc]
        rw [if_pos (by rw [hsl] at hb2; omega)]
        congr 1
        omega
      refine ⟨?_, ?_, ?_⟩
      · intro j hj
        show mem1 (r.pos - (fs.endp + 1 - fs.Start) + j) = byteAt r.data.length j
        have hidx : r.pos - (fs.endp + 1 - fs.Start) + j =
            (r.pos + j) - (fs.endp + 1 - fs.Start) := by omega
        rw [hidx, hbyte (r.pos + j) (by omega) (by rw [hsl]; omega)]
        exact e1 j hj
      · intro j hj
        show mem1 (r.pos - (fs.endp + 1 - fs.Start) + 8 + j) = byteAt r.k j
        have hidx : r.pos - (fs.endp + 1 - fs.Start) + 8 + j =
            (r.pos + 8 + j) - (fs.endp + 1 - fs.Start) := by omega
        rw [hidx, hbyte (r.pos + 8 + j) (by omega) (by rw [hsl]; omega)]
        exact e2 j hj
      · intro j hj
        have hj' : j < r.data.length := hj
        show mem1 (r.pos - (fs.endp + 1 - fs.Start) + 16 + j) = r.data.getD j 0
        have hidx : r.pos - (fs.endp + 1 - fs.Start) + 16 + j =
            (r.pos + 16 + j) - (fs.endp + 1 - fs.Start) := by omega
        rw [hidx, hbyte (r.pos + 16 + j) (by omega) (by rw [hsl]; omega)]
        exact e3 j hj' 
    · rw [hrel_out r hin hr]
      have hsl : r.spanLen = 16 + r.data.length := rfl
      have hbyte : ∀ i, r.pos ≤ i → i < r.pos + r.spanLen → mem1 i = g.mem i := by
        intro i h1 h2
        rw [hmc]
        rw [if_neg]
        intro ⟨hc1, hc2⟩
        exact hout_disj r hr hin i ⟨h1, h2⟩ ⟨hc1, by omega⟩
      refine ⟨?_, ?_, ?_⟩
      · intro j hj
        rw [hbyte (r.pos + j) (by omega) (by rw [hsl]; omega)]
        exact e1 j hj
      · intro j hj
        rw [hbyte (r.pos + 8 + j) (by omega) (by rw [hsl]; omega)]
        exact e2 j hj
      · intro j hj
        rw [hbyte (r.pos + 16 + j) (by omega) (by rw [hsl]; omega)]
        exact e3 j hj
  -- pairwise span disjointness is preserved
  have hdisj1 : (recs.map reloc).Pairwise spanDisj := by
    rw [List.pairwise_map]
    refine List.Pairwise.imp_of_mem ?_ hdisj
    intro a b ha hb hab
    have hsla : a.spanLen = 16 + a.data.length := rfl
    have hslb : b.spanLen = 16 + b.data.length := rfl
    by_cases hain : a ∈ rs <;> by_cases hbin : b ∈ rs
    · rw [hrel_in a hain, hrel_in b hbin]
      obtain ⟨ha1, ha2⟩ := hrsb a hain
      obtain ⟨hb1, hb2⟩ := hrsb b hbin
      rcases hab with h | h
      · left
        show a.pos - (fs.endp + 1 - fs.Start) + (16 + a.data.length) ≤
          b.pos - (fs.endp + 1 - fs.Start)
        rw [hsla] at h ha2
        omega
      · right
        show b.pos - (fs.endp + 1 - fs.Start) + (16 + b.data.length) ≤
          a.pos - (fs.endp + 1 - fs.Start)
        rw [hslb] at h hb2
        omega
    · rw [hrel_in a hain, hrel_out b hbin hb]
      obtain ⟨ha1, ha2⟩ := hrsb a hain
      by_contra hc
      simp only [spanDisj, not_or, not_le] at hc
      obtain ⟨hc1, hc2⟩ := hc
      have hcc1 : b.pos < a.pos - (fs.endp + 1 - fs.Start) + a.spanLen := hc1
      have hcc2 : a.pos - (fs.endp + 1 - fs.Start) < b.pos + b.spanLen := hc2
      by_cases hcmp : a.pos - (fs.endp + 1 - fs.Start) ≤ b.pos
      · exact hout_disj b hb hbin b.pos ⟨le_refl _, by have := spanLen_pos b; omega⟩
          ⟨by omega, by rw [hsla] at hcc1 ha2; omega⟩
      · exact hout_disj b hb hbin (a.pos - (fs.endp + 1 - fs.Start))
          ⟨by omega, hcc2⟩ ⟨by omega, by rw [hsla] at ha2; omega⟩
    · rw [hrel_out a hain ha, hrel_in b hbin]
      obtain ⟨hb1, hb2⟩ := hrsb b hbin
      by_contra hc
      simp only [spanDisj, not_or, not_le] at hc
      obtain ⟨hc1, hc2⟩ := hc
      have hcc1 : b.pos - (fs.endp + 1 - fs.Start) < a.pos + a.spanLen := hc1
      have hcc2 : a.pos < b.pos - (fs.endp + 1 - fs.Start) + b.spanLen := hc2
      by_cases hcmp : b.pos - (fs.endp + 1 - fs.Start) ≤ a.pos
      · exact hout_disj a ha hain a.pos ⟨le_refl _, by have := spanLen_pos a; omega⟩
          ⟨by omega, by rw [hslb] at hcc2 hb2; omega⟩
      · exact hout_disj a ha hain (b.pos - (fs.endp + 1 - fs.Start))
          ⟨by omega, hcc1⟩ ⟨by omega, by rw [hslb] at hb2; omega⟩
    · rw [hrel_out a hain ha, hrel_out b hbin hb]
      exact hab
  -- vmap agreement
  have hload1 : ∀ k, VM.load vm1 k =
      match rs.find? (fun r => r.k = k) with
      | some r => some (fs.Start + (r.pos - (fs.endp + 1)))
      | none => VM.load g.vmap k :=
    fun k => load_foldl_store _ rs g.vmap hvlen hrskeys k
  have hvlen1 : vm1.buckets.length = maxBucket := by
    rw [hvm1, length_foldl_store, hvlen]
  have hvmap1 : ∀ k p, VM.load vm1 k = some p ↔
      ∃ r1 ∈ recs.map reloc, r1.k = k ∧ r1.pos = p := by
    intro k p
    rw [hload1 k]
    cases hf : rs.find? (fun r => r.k = k) with
    | some q =>
      have hqrs : q ∈ rs := List.mem_of_find?_eq_some hf
      have hqk : q.k = k := by simpa using List.find?_some hf
      have hqrecs := hsub q hqrs
      obtain ⟨hqb1, hqb2⟩ := hrsb q hqrs
      constructor
      · intro h
        have hp : p = fs.Start + (q.pos - (fs.endp + 1)) := (Option.some_inj.mp h).symm
        refine ⟨reloc q, List.mem_map.mpr ⟨q, hqrecs, rfl⟩, by rw [hrel_k]; exact hqk, ?_⟩
        rw [hrel_in q hqrs]
        show q.pos - (fs.endp + 1 - fs.Start) = p
        omega
      · rintro ⟨r1, hr1, hk1, hp1⟩
        obtain ⟨r, hr, rfl⟩ := List.mem_map.mp hr1
        have hrk : r.k = k := by rw [hrel_k r] at hk1; exact hk1
        have hreq : r = q := rec_key_inj hkeys hr hqrecs (by rw [hrk, hqk])
        subst hreq
        rw [hrel_in r hqrs] at hp1
        have hp1' : r.pos - (fs.endp + 1 - fs.Start) = p := hp1
        have harith : fs.Start + (r.pos - (fs.endp + 1)) =
            r.pos - (fs.endp + 1 - fs.Start) := by omega
        show some (fs.Start + (r.pos - (fs.endp + 1))) = some p
        rw [harith, hp1']
    | none =>
      have hnone : ∀ r ∈ rs, r.k ≠ k := by
        intro r hr hk
        have := List.find?_eq_none.mp hf r hr
        simp [hk] at this
      rw [hvmap k p]
      constructor
      · rintro ⟨r, hr, hk1, hp1⟩
        have hrnot : r ∉ rs := fun hc => hnone r hc hk1
        refine ⟨reloc r, List.mem_map.mpr ⟨r, hr, rfl⟩, by rw [hrel_k]; exact hk1, ?_⟩
        rw [hrel_out r hrnot hr]
        exact hp1
      · rintro ⟨r1, hr1, hk1, hp1⟩
        obtain ⟨r, hr, rfl⟩ := List.mem_map.mp hr1
        have hk' : r.k = k := by rw [hrel_k r] at hk1; exact hk1
        have hrnot : r ∉ rs := fun hc => hnone r hc hk'
        rw [hrel_out r hrnot hr] at hp1
        exact ⟨r, hr, hk', hp1⟩
  -- the shifted run tiles the destination region
  have htiles' := tiles_shift (fs.endp + 1 - fs.Start) htiles (by omega)
  have ha1 : fs.endp + 1 - (fs.endp + 1 - fs.Start) = fs.Start := by omega
  have ha2 : nfs.Start - (fs.endp + 1 - fs.Start) =
      fs.Start + (nfs.Start - fs.endp - 1) := by omega
  rw [ha1, ha2] at htiles'
  -- the local cover characterisation
  have hcloc : ∀ i, covR (recs.map reloc) i ↔
      ((i < fs.Start ∨ nfs.Start ≤ i) ∧ covR recs i) ∨
      (fs.Start ≤ i ∧ i < fs.Start + (nfs.Start - fs.endp - 1)) := by
    intro i
    constructor
    · rintro ⟨r1, hr1, hsp⟩
      obtain ⟨r, hr, rfl⟩ := List.mem_map.mp hr1
      by_cases hin : r ∈ rs
      · right
        rw [hrel_in r hin] at hsp
        obtain ⟨hb1, hb2⟩ := hrsb r hin
        have s1 : r.pos - (fs.endp + 1 - fs.Start) ≤ i := hsp.1
        have s2 : i < r.pos - (fs.endp + 1 - fs.Start) + (16 + r.data.length) := hsp.2
        have hb2' : r.pos + (16 + r.data.length) ≤ nfs.Start := hb2
        omega
      · rw [hrel_out r hin hr] at hsp
        left
        refine ⟨?_, ⟨r, hr, hsp⟩⟩
        by_contra hc
        push_neg at hc
        exact hout_disj r hr hin i hsp ⟨hc.1, hc.2⟩
    · rintro (⟨hior, ⟨r, hr, hsp⟩⟩ | ⟨h1, h2⟩)
      · have hrout : r ∉ rs := by
          intro hc
          obtain ⟨hb1, hb2⟩ := hrsb r hc
          rcases hsp with ⟨s1, s2⟩
          rcases hior with h | h <;> omega
        exact ⟨reloc r, List.mem_map.mpr ⟨r, hr, rfl⟩,
          by rw [hrel_out r hrout hr]; exact hsp⟩
      · obtain ⟨q', hq', hsp'⟩ := (tiles_cov htiles' i).mpr ⟨h1, h2⟩
        obtain ⟨q, hq, rfl⟩ := List.mem_map.mp hq'
        refine ⟨reloc q, List.mem_map.mpr ⟨q, hsub q hq, rfl⟩, ?_⟩
        rw [hrel_in q hq]
        exact hsp'
  refine ⟨{ g with vmap := vm1, mem := mem1 }, recs.map reloc, ?_, ?_, ?_,
    rfl, rfl, rfl, rfl, rfl, hcloc⟩
  · simp only [readAndShiftG]
    rw [hras]
  · refine ⟨?_, ?_, ?_, ?_, ?_, hdisj1, hvlen1, hvmap1⟩
    · have hkeyseq : (recs.map reloc).map Rec.k = recs.map Rec.k := by
        rw [List.map_map]
        exact List.map_congr_left (fun r _ => hrel_k r)
      rw [hkeyseq]
      exact hkeys
    · intro r1 hr1
      obtain ⟨r, hr, rfl⟩ := List.mem_map.mp hr1
      rw [hrel_k]
      exact hkub r hr
    · intro r1 hr1
      obtain ⟨r, hr, rfl⟩ := List.mem_map.mp hr1
      exact henc1 r hr
    · intro r1 hr1
      obtain ⟨r, hr, rfl⟩ := List.mem_map.mp hr1
      rw [hrel_d]
      exact hdlen r hr
    · intro r1 hr1
      obtain ⟨r, hr, rfl⟩ := List.mem_map.mp hr1
      rw [hrel_sl]
      by_cases hin : r ∈ rs
      · rw [hrel_in r hin]
        obtain ⟨hb1, hb2⟩ := hrsb r hin
        show r.pos - (fs.endp + 1 - fs.Start) + r.spanLen ≤ g.size
        omega
      · rw [hrel_out r hin hr]
        exact hbound r hr
  · rw [List.map_map]
    refine List.map_congr_left ?_
    intro r _
    show ((reloc r).k, (reloc r).data) = (r.k, r.data)
    rw [hrel_k, hrel_d]


/-! ## `merge`: compacting a whole extracted bundle -/

/-- The gap between each adjacent pair of bundle intervals is entirely
live. -/
def gapsCov (recs : List Rec) : List FS → Prop
  | [] => True
  | [_] => True
  | f :: f' :: rest =>
    (∀ i, f.endp < i → i < f'.Start → covR recs i) ∧ gapsCov recs (f' :: rest)

theorem gapsCov_transfer {recs recs1 : List Rec} (c : ℕ) :
    ∀ (l : List FS),
    (∀ i, c < i → covR recs i → covR recs1 i) →
    (∀ f ∈ l, c ≤ f.endp) →
    gapsCov recs l → gapsCov recs1 l := by
  intro l
  induction l with
  | nil => intro _ _ _; trivial
  | cons f tl ih =>
    intro htr hlb hg
    cases tl with
    | nil => trivial
    | cons f' rest =>
      rcases hg with ⟨hpair, htail⟩
      refine ⟨?_, ih htr (fun q hq => hlb q (List.mem_cons_of_mem _ hq)) htail⟩
      intro i hi1 hi2
      exact htr i (lt_of_le_of_lt (hlb f (List.mem_cons_self _ _)) hi1) (hpair i hi1 hi2)

theorem last_endp_ge {l : List FS} (f : FS) (hpw : ∀ f' ∈ l, sep f f')
    (hprop : ∀ f' ∈ l, properIv f') (hne : l ≠ []) :
    f.endp ≤ (l.getLast hne).endp := by
  have hmem := List.getLast_mem hne
  have h1 : f.endp + 1 < (l.getLast hne).Start := hpw _ hmem
  have h2' : (l.getLast hne).Start ≤ (l.getLast hne).endp := hprop _ hmem
  omega

theorem gapsCov_head_endp {recs : List Rec} (f' f : FS) (he : f'.endp = f.endp) :
    ∀ {tl : List FS}, gapsCov recs (f :: tl) → gapsCov recs (f' :: tl) := by
  intro tl
  cases tl with
  | nil => intro _; trivial
  | cons a b =>
    rintro ⟨hp, ht⟩
    exact ⟨fun i hi hj => hp i (by rw [← he]; exact hi) hj, ht⟩

theorem mergeG_cons2 (g : GS) (fs nfs : FS) (rest : List FS) :
    mergeG g (fs :: nfs :: rest) =
      match readAndShiftG g (fs.endp + 1) nfs.Start fs.Start
          (fs.Start + (nfs.Start - fs.endp - 1)) with
      | none => none
      | some g1 =>
        mergeG g1 ({ nfs with Start := fs.Start + (nfs.Start - fs.endp - 1) } :: rest) := by
  rw [mergeG]

/-- **`merge` compacts the bundle.**  Over any bundle of separated, proper,
in-bounds free intervals whose bytes are dead and whose in-between gaps are
fully live, `merge` succeeds and returns a fused interval ending at the
bundle's last byte whose size is the bundle's total; the records keep their
keys and payloads (in order), the record-side invariant is preserved, and
afterwards the live bytes inside the touched region are exactly the part
before the fused interval. -/
theorem mergeG_go : ∀ (n : ℕ) (bundle : List FS), bundle.length ≤ n →
    ∀ (g : GS) (recs : List Rec), RecInv g recs →
    ∀ (hne : bundle ≠ []),
    bundle.Pairwise sep →
    (∀ f ∈ bundle, properIv f) →
    (∀ f ∈ bundle, f.endp < g.size) →
    (∀ f ∈ bundle, ∀ i, inIv i f → ¬ covR recs i) →
    gapsCov recs bundle →
    ∃ g2 recs2 fsF,
      mergeG g bundle = some (g2, fsF) ∧
      RecInv g2 recs2 ∧
      recs2.map (fun r => (r.k, r.data)) = recs.map (fun r => (r.k, r.data)) ∧
      g2.size = g.size ∧ g2.key = g.key ∧ g2.fsm = g.fsm ∧
      g2.oracle = g.oracle ∧ g2.octr = g.octr ∧
      fsF.endp = (bundle.getLast hne).endp ∧
      fsF.Start + szSum bundle = fsF.endp + 1 ∧
      (bundle.head hne).Start ≤ fsF.Start ∧
      ∀ i, covR recs2 i ↔
        (covR recs i ∧ ¬((bundle.head hne).Start ≤ i ∧ i ≤ fsF.endp)) ∨
        ((bundle.head hne).Start ≤ i ∧ i < fsF.Start) := by
  intro n
  induction n with
  | zero =>
    intro bundle hlen g recs _ hne
    cases bundle with
    | nil => exact absurd rfl hne
    | cons f tl => simp at hlen
  | succ m ih =>
    intro bundle hlen g recs hri hne hpw hprop hfb hfree hgaps
    cases bundle with
    | nil => exact absurd rfl hne
    | cons fs tl =>
    cases tl with
    | nil =>
      have hpfs : properIv fs := hprop fs (List.mem_cons_self _ _)
      refine ⟨g, recs, fs, ?_, hri, rfl, rfl, rfl, rfl, rfl, rfl, by simp, ?_, by simp, ?_⟩
      · rw [mergeG]
      · have := size_of_proper hpfs
        simp only [szSum_cons, szSum_nil, List.head_cons]
        have hp : fs.Start ≤ fs.endp := hpfs
        omega
      · intro i
        simp only [List.head_cons, List.getLast_singleton]
        constructor
        · intro h
          left
          refine ⟨h, ?_⟩
          rintro ⟨h1, h2⟩
          exact hfree fs (List.mem_cons_self _ _) i ⟨h1, h2⟩ h
        · rintro (⟨h, _⟩ | ⟨h1, h2⟩)
          · exact h
          · omega
    | cons nfs rest =>
      have hpfs : properIv fs := hprop fs (List.mem_cons_self _ _)
      have hpnfs : properIv nfs := hprop nfs (by simp)
      rcases List.pairwise_cons.mp hpw with ⟨hfs_rel, hpw2⟩
      rcases List.pairwise_cons.mp hpw2 with ⟨hnfs_rel, hpw3⟩
      have hsepn : sep fs nfs := hfs_rel nfs (List.mem_cons_self _ _)
      have hsep' : fs.endp + 1 < nfs.Start := hsepn
      have hpfs' : fs.Start ≤ fs.endp := hpfs
      have hpnfs' : nfs.Start ≤ nfs.endp := hpnfs
      have hbn : nfs.endp < g.size := hfb nfs (by simp)
      have hffs : ∀ i, inIv i fs → ¬ covR recs i :=
        hfree fs (List.mem_cons_self _ _)
      have hfnfs : ∀ i, inIv i nfs → ¬ covR recs i := hfree nfs (by simp)
      have hgapc : ∀ i, fs.endp < i → i < nfs.Start → covR recs i := hgaps.1
      obtain ⟨g1, recs1, hras, hri1, hproj1, hsz1, hkey1, hfsm1, hora1, hoct1,
        hcloc1⟩ := ras_step_spec g recs fs nfs
        ⟨hri.hkeys, hri.hkub, hri.henc, hri.hdlen, hri.hbound, hri.hdisj,
         hri.hvlen, hri.hvmap⟩ hpfs hpnfs hsepn hbn hffs hfnfs hgapc
      have hde1 : fs.Start ≤ fs.Start + (nfs.Start - fs.endp - 1) := by omega
      have hde2 : fs.Start + (nfs.Start - fs.endp - 1) ≤ nfs.Start := by omega
      -- the recursive bundle
      have hpw' : ({ nfs with Start := fs.Start + (nfs.Start - fs.endp - 1) } ::
          rest).Pairwise sep := by
        refine List.pairwise_cons.mpr ⟨?_, hpw3⟩
        intro f hf
        exact hnfs_rel f hf
      have hprop' : ∀ f ∈ ({ nfs with Start := fs.Start + (nfs.Start - fs.endp - 1) } ::
          rest), properIv f := by
        intro f hf
        rcases List.mem_cons.mp hf with rfl | hf'
        · show fs.Start + (nfs.Start - fs.endp - 1) ≤ nfs.endp
          omega
        · exact hprop f (by simp [hf'])
      have hfb' : ∀ f ∈ ({ nfs with Start := fs.Start + (nfs.Start - fs.endp - 1) } ::
          rest), f.endp < g1.size := by
        intro f hf
        rw [hsz1]
        rcases List.mem_cons.mp hf with rfl | hf'
        · exact hbn
        · exact hfb f (by simp [hf'])
      have hfree1 : ∀ f ∈ ({ nfs with Start := fs.Start + (nfs.Start - fs.endp - 1) } ::
          rest), ∀ i, inIv i f → ¬ covR recs1 i := by
        intro f hf i hiv hcov1
        rcases (hcloc1 i).mp hcov1 with ⟨hior, hcv⟩ | ⟨h1, h2⟩
        · rcases List.mem_cons.mp hf with rfl | hf'
          · have hiv1 : fs.Start + (nfs.Start - fs.endp - 1) ≤ i := hiv.1
            have hiv2 : i ≤ nfs.endp := hiv.2
            rcases hior with h | h
            · omega
            · exact hfnfs i ⟨h, hiv2⟩ hcv
          · exact hfree f (by simp [hf']) i hiv hcv
        · rcases List.mem_cons.mp hf with rfl | hf'
          · have hiv1 : fs.Start + (nfs.Start - fs.endp - 1) ≤ i := hiv.1
            omega
          · have hsepf : sep nfs f := hnfs_rel f hf'
            have hsepf' : nfs.endp + 1 < f.Start := hsepf
            have hiv1 : f.Start ≤ i := hiv.1
            omega
      have hgaps1 : gapsCov recs1
          ({ nfs with Start := fs.Start + (nfs.Start - fs.endp - 1) } :: rest) := by
        have hg2 : gapsCov recs (nfs :: rest) := hgaps.2
        have hg3 : gapsCov recs
            ({ nfs with Start := fs.Start + (nfs.Start - fs.endp - 1) } :: rest) :=
          gapsCov_head_endp { nfs with Start := fs.Start + (nfs.Start - fs.endp - 1) }
            nfs rfl hg2
        refine gapsCov_transfer nfs.endp _ ?_ ?_ hg3
        · intro i hi hc
          exact (hcloc1 i).mpr (Or.inl ⟨Or.inr (by omega), hc⟩)
        · intro f hf
          rcases List.mem_cons.mp hf with rfl | hf'
          · show nfs.endp ≤ nfs.endp
            exact le_refl _
          · have hsepf : sep nfs f := hnfs_rel f hf'
            have := hprop f (by simp [hf'])
            have h1 : nfs.endp + 1 < f.Start := hsepf
            have h2 : f.Start ≤ f.endp := this
            omega
      obtain ⟨g2, recs2, fsF, hm2, hri2, hproj2, hsz2, hkey2, hfsm2, hora2, hoct2,
        hlast2, hsum2, hhead2, hcov2⟩ := ih
        ({ nfs with Start := fs.Start + (nfs.Start - fs.endp - 1) } :: rest)
        (by simpa using Nat.le_of_succ_le_succ (by simpa using hlen))
        g1 recs1 hri1 (by simp) hpw' hprop' hfb' hfree1 hgaps1
      have hheadde : fs.Start + (nfs.Start - fs.endp - 1) ≤ fsF.Start := hhead2
      have hnend : nfs.endp ≤ fsF.endp := by
        rw [hlast2]
        cases rest with
        | nil => simp
        | cons r0 rest' =>
          rw [List.getLast_cons_cons]
          exact last_endp_ge nfs (fun f' hf' => hnfs_rel f' hf')
            (fun f' hf' => hprop f' (by simp [hf'])) (by simp)
      refine ⟨g2, recs2, fsF, ?_, hri2, hproj2.trans hproj1, by rw [hsz2, hsz1],
        by rw [hkey2, hkey1], by rw [hfsm2, hfsm1], by rw [hora2, hora1],
        by rw [hoct2, hoct1], ?_, ?_, ?_, ?_⟩
      · rw [mergeG_cons2, hras]
        exact hm2
      · rw [hlast2]
        cases rest with
        | nil => simp
        | cons r0 rest' =>
          rw [List.getLast_cons_cons, List.getLast_cons_cons, List.getLast_cons_cons]
      · have hszn : szSum (fs :: nfs :: rest) =
            szSum ({ nfs with Start := fs.Start + (nfs.Start - fs.endp - 1) } :: rest) := by
          simp only [szSum_cons]
          have h1 := size_of_proper hpfs
          have h2 := size_of_proper hpnfs
          have h3 : ({ nfs with Start := fs.Start + (nfs.Start - fs.endp - 1) } : FS).Size =
              nfs.endp - (fs.Start + (nfs.Start - fs.endp - 1)) + 1 := by
            have hp : properIv ({ nfs with Start := fs.Start + (nfs.Start - fs.endp - 1) } : FS) := by
              show fs.Start + (nfs.Start - fs.endp - 1) ≤ nfs.endp
              omega
            simpa using size_of_proper hp
          rw [h1, h2, h3]
          omega
        rw [hszn]
        exact hsum2
      · show fs.Start ≤ fsF.Start
        omega
      · intro i
        rw [hcov2 i, hcloc1 i]
        simp only [List.head_cons]
        have hiv1 : fs.Start + (nfs.Start - fs.endp - 1) ≤ fsF.Start := hheadde
        by_cases hP : covR recs i
        · simp only [hP]
          simp
          omega
        · simp only [hP]
          simp
          omega

/-! ## Toward the write path -/

/-- A separated, proper family inside `[0, B)` totals at most `B` bytes. -/
theorem szSum_le_bound : ∀ (l : List FS) (a B : ℕ), l.Pairwise sep →
    (∀ f ∈ l, properIv f) → (∀ f ∈ l, a ≤ f.Start ∧ f.endp < B) →
    szSum l + a ≤ B ∨ l = [] := by
  intro l
  induction l with
  | nil => intro a B _ _ _; right; rfl
  | cons f tl ih =>
    intro a B hpw hprop hb
    left
    rcases List.pairwise_cons.mp hpw with ⟨hrel, hpw'⟩
    have hfp : f.Start ≤ f.endp := hprop f (List.mem_cons_self _ _)
    have hfb := hb f (List.mem_cons_self _ _)
    have hsz := size_of_proper (hprop f (List.mem_cons_self _ _))
    rcases ih (f.endp + 2) B hpw' (fun q hq => hprop q (List.mem_cons_of_mem _ hq))
      (fun q hq => ⟨by have := hrel q hq; have h : f.endp + 1 < q.Start := this; omega,
        (hb q (List.mem_cons_of_mem _ hq)).2⟩) with h | h
    · rw [szSum_cons]
      omega
    · subst h
      rw [szSum_cons, szSum_nil]
      omega

theorem head_start_le {l : List FS} (hpw : l.Pairwise sep)
    (hprop : ∀ f ∈ l, properIv f) (hne : l ≠ []) :
    ∀ f ∈ l, (l.head hne).Start ≤ f.Start := by
  intro f hf
  cases l with
  | nil => cases hf
  | cons a tl =>
    rcases List.mem_cons.mp hf with rfl | hf'
    · exact le_refl _
    · have h1 : a.endp + 1 < f.Start := (List.pairwise_cons.mp hpw).1 f hf'
      have h2 : a.Start ≤ a.endp := hprop a (List.mem_cons_self _ _)
      simp only [List.head_cons]
      omega

theorem endp_le_getLast : ∀ (l : List FS), l.Pairwise sep →
    (∀ f ∈ l, properIv f) → ∀ (hne : l ≠ []),
    ∀ f ∈ l, f.endp ≤ (l.getLast hne).endp := by
  intro l
  induction l with
  | nil => intro _ _ hne; exact absurd rfl hne
  | cons a tl ih =>
    intro hpw hprop hne f hf
    rcases List.pairwise_cons.mp hpw with ⟨hrel, hpw'⟩
    cases tl with
    | nil =>
      rcases List.mem_cons.mp hf with rfl | hf'
      · simp
      · cases hf'
    | cons b tl' =>
      rw [List.getLast_cons_cons]
      rcases List.mem_cons.mp hf with rfl | hf'
      · exact last_endp_ge f hrel (fun q hq => hprop q (List.mem_cons_of_mem _ hq))
          (by simp)
      · exact ih hpw' (fun q hq => hprop q (List.mem_cons_of_mem _ hq)) (by simp) f hf'

/-- The gaps inside a contiguous segment of the free list are live. -/
theorem gapsCov_mid (recs : List Rec) (gsize : ℕ) (F : List FS)
    (hpw : F.Pairwise sep)
    (hprop : ∀ f ∈ F, properIv f)
    (hfb : ∀ f ∈ F, f.endp < gsize)
    (hcov : ∀ i, i < gsize → covR recs i ∨ covL F i) :
    ∀ (mid pre suf : List FS), F = pre ++ mid ++ suf → gapsCov recs mid := by
  intro mid
  induction mid with
  | nil => intro pre suf _; trivial
  | cons f tl ihm =>
    intro pre suf hF
    cases tl with
    | nil => trivial
    | cons f' mid' =>
      refine ⟨?_, ihm (pre ++ [f]) suf (by rw [hF]; simp)⟩
      intro i hi1 hi2
      have hf'F : f' ∈ F := by rw [hF]; simp
      have hfF : f ∈ F := by rw [hF]; simp
      have hp' : f'.Start ≤ f'.endp := hprop f' hf'F
      have hisize : i < gsize := by
        have := hfb f' hf'F
        omega
      rcases hcov i hisize with h | h
      · exact h
      · exfalso
        obtain ⟨h0, hh0, hiv⟩ := h
        rw [hF] at hh0 hpw
        rw [List.append_assoc] at hh0 hpw
        rcases List.pairwise_append.mp hpw with ⟨hpre, hmidsuf, hcross⟩
        rcases List.mem_append.mp hh0 with hh0p | hh0m
        · have hsep0 : sep h0 f := hcross h0 hh0p f (by simp)
          have : h0.endp + 1 < f.Start := hsep0
          have hpf : f.Start ≤ f.endp := hprop f hfF
          have hiv2 : i ≤ h0.endp := hiv.2
          omega
        · rcases List.pairwise_cons.mp hmidsuf with ⟨hf_rel, hrest⟩
          rcases List.mem_cons.mp hh0m with rfl | hh0m'
          · have hiv2 : i ≤ h0.endp := hiv.2
            omega
          · rcases List.pairwise_cons.mp hrest with ⟨hf'_rel, _⟩
            rcases List.mem_cons.mp hh0m' with rfl | hh0m''
            · have hiv1 : h0.Start ≤ i := hiv.1
              omega
            · have hsep0 : sep f' h0 := hf'_rel h0 hh0m''
              have h1 : f'.endp + 1 < h0.Start := hsep0
              have hiv1 : h0.Start ≤ i := hiv.1
              omega

/-- The bytes `writeAt` lays down. -/
theorem writeAtG_len {mem : Mem} {pos : ℕ} {data : List ℕ} {k : ℕ} :
    ∀ j < 8, writeAtG mem pos data k (pos + j) = byteAt data.length j := by
  intro j hj
  simp only [writeAtG]
  rw [if_neg (by omega)]
  rw [wr64_outside (Or.inl (by omega))]
  exact wr64_read j hj

theorem writeAtG_key {mem : Mem} {pos : ℕ} {data : List ℕ} {k : ℕ} :
    ∀ j < 8, writeAtG mem pos data k (pos + 8 + j) = byteAt k j := by
  intro j hj
  simp only [writeAtG]
  rw [if_neg (by omega)]
  exact wr64_read j hj

theorem writeAtG_data {mem : Mem} {pos : ℕ} {data : List ℕ} {k : ℕ} :
    ∀ j < data.length, writeAtG mem pos data k (pos + 16 + j) = data.getD j 0 := by
  intro j hj
  simp only [writeAtG]
  rw [if_pos (by omega)]
  congr 1
  omega

theorem writeAtG_outside {mem : Mem} {pos : ℕ} {data : List ℕ} {k : ℕ} {i : ℕ}
    (h : i < pos ∨ pos + 16 + data.length ≤ i) :
    writeAtG mem pos data k i = mem i := by
  simp only [writeAtG]
  rw [if_neg (by omega)]
  rw [wr64_outside (by omega), wr64_outside (by omega)]

/-- The free-space-side clauses of the arena invariant. -/
structure FreeInv (g : GS) (recs : List Rec) : Prop where
  hfpw : (Tr.toL g.fsm.root).Pairwise sep
  hfprop : ∀ f ∈ Tr.toL g.fsm.root, properIv f
  hfbound : ∀ f ∈ Tr.toL g.fsm.root, f.endp < g.size
  hcover : ∀ i, i < g.size → covR recs i ∨ covL (Tr.toL g.fsm.root) i
  hnov : ∀ i, ¬(covR recs i ∧ covL (Tr.toL g.fsm.root) i)
  htfs : g.fsm.tfs = szSum (Tr.toL g.fsm.root)
  hext : g.fsm.extracted = 0

theorem writeInner_eq (g : GS) (data : List ℕ) (k : ℕ) {out : List FS}
    {fsm1 : FSMS} {g2 : GS} {fsF : FS}
    (hpe : poolExtractF g.fsm (16 + data.length) = .ok (out, fsm1))
    (hm : mergeG { g with fsm := fsm1 } out = some (g2, fsF)) :
    writeInner g data k =
      (.ok (), { g2 with
        mem := writeAtG g2.mem fsF.Start data k,
        vmap := VM.store g2.vmap k fsF.Start,
        fsm := (poolPutF g2.oracle g2.fsm
          { fsF with Start := fsF.Start + (16 + data.length) } g2.octr).1.1,
        octr := (poolPutF g2.oracle g2.fsm
          { fsF with Start := fsF.Start + (16 + data.length) } g2.octr).2 }) := by
  simp only [writeInner, hpe, hm]

/-- **`write` (inner) preserves the arena invariant.**  With a fresh key and
enough total free space, the unexported `write` succeeds; the new record
(fresh key, returned position, the payload) joins the live set, every other
record keeps its key and payload, and both invariant halves are
re-established. -/
theorem writeInner_spec (g : GS) (recs : List Rec) (data : List ℕ) (k : ℕ)
    (hri : RecInv g recs) (hfi : FreeInv g recs)
    (hsz2 : g.size < 2 ^ 64)
    (hkfresh : ∀ r ∈ recs, r.k ≠ k) (hkub : k < 2 ^ 64)
    (hspace : 16 + data.length ≤ g.fsm.tfs) :
    ∃ g' pos recs2,
      writeInner g data k = (.ok (), g') ∧
      RecInv g' (⟨k, pos, data⟩ :: recs2) ∧
      FreeInv g' (⟨k, pos, data⟩ :: recs2) ∧
      recs2.map (fun r => (r.k, r.data)) = recs.map (fun r => (r.k, r.data)) ∧
      g'.size = g.size ∧ g'.key = g.key ∧ g'.oracle = g.oracle ∧
      g'.fsm.tfs = g.fsm.tfs - (16 + data.length) := by
  obtain ⟨hfpw, hfprop, hfbound, hcover, hnov, htfs, hext⟩ := hfi
  -- the free family fits inside the buffer, so the payload is small
  have hszF : szSum (Tr.toL g.fsm.root) ≤ g.size := by
    rcases szSum_le_bound (Tr.toL g.fsm.root) 0 g.size hfpw hfprop
      (fun f hf => ⟨Nat.zero_le _, hfbound f hf⟩) with h | h
    · omega
    · rw [h, szSum_nil]
      exact Nat.zero_le _
  have htot_size : 16 + data.length ≤ g.size := by omega
  have hdlen : data.length < 2 ^ 64 := by omega
  -- extract the bundle
  obtain ⟨pre, out, suf, fsm1, hpe, hmidF, hF1, hnem, hge, htfs1, hext1⟩ :=
    poolExtractF_ok g.fsm (16 + data.length) hfpw hfprop htfs hext (by omega) hspace
  have houtsub : out.Sublist (Tr.toL g.fsm.root) := by
    rw [hmidF, List.append_assoc]
    exact List.Sublist.trans (List.sublist_append_left out suf)
      (List.sublist_append_right pre _)
  have houtF : ∀ f ∈ out, f ∈ Tr.toL g.fsm.root := fun f hf => houtsub.mem hf
  have hpssub : (pre ++ suf).Sublist (Tr.toL g.fsm.root) := by
    rw [hmidF, List.append_assoc]
    exact List.Sublist.append_left
      ((List.sublist_append_right out suf)) pre
  have hpsF : ∀ f ∈ pre ++ suf, f ∈ Tr.toL g.fsm.root := fun f hf => hpssub.mem hf
  have houtpw : out.Pairwise sep := hfpw.sublist houtsub
  have hpspw : (pre ++ suf).Pairwise sep := hfpw.sublist hpssub
  -- merge the bundle
  have hri1 : RecInv { g with fsm := fsm1 } recs :=
    ⟨hri.hkeys, hri.hkub, hri.henc, hri.hdlen, hri.hbound, hri.hdisj,
     hri.hvlen, hri.hvmap⟩
  obtain ⟨g2, recs2, fsF, hm, hri2, hproj2, hgsz2, hkey2, hfsm2, hora2, hoct2,
    hlast2, hsum2, hhead2, hcov2⟩ :=
    mergeG_go out.length out (le_refl _) { g with fsm := fsm1 } recs hri1 hnem
      houtpw (fun f hf => hfprop f (houtF f hf))
      (fun f hf => hfbound f (houtF f hf))
      (fun f hf i hiv hc => hnov i ⟨hc, ⟨f, houtF f hf, hiv⟩⟩)
      (gapsCov_mid recs g.size (Tr.toL g.fsm.root) hfpw hfprop hfbound hcover
        out pre suf hmidF)
  have hgsz2' : g2.size = g.size := hgsz2
  have hfsm2' : g2.fsm = fsm1 := hfsm2
  have hora2' : g2.oracle = g.oracle := hora2
  have hkey2' : g2.key = g.key := hkey2
  -- geometry of the fused interval
  have hend_size : fsF.endp < g.size := by
    rw [hlast2]
    exact hfbound _ (houtF _ (List.getLast_mem hnem))
  have hhd_le : (out.head hnem).Start ≤ fsF.Start := hhead2
  have hbound_new : fsF.Start + (16 + data.length) ≤ fsF.endp + 1 := by
    have h1 : 16 + data.length ≤ szSum out := hge
    omega
  -- the region `[fsF.Start, fsF.endp]` holds no record after the merge
  have hregion_empty : ∀ i, fsF.Start ≤ i → i ≤ fsF.endp → ¬ covR recs2 i := by
    intro i h1 h2 hc
    rcases (hcov2 i).mp hc with ⟨_, hnr⟩ | ⟨_, hlt⟩
    · exact hnr ⟨le_trans hhd_le h1, h2⟩
    · omega
  -- record bytes after the header write
  have hmem3 : ∀ i, (i < fsF.Start ∨ fsF.Start + 16 + data.length ≤ i) →
      writeAtG g2.mem fsF.Start data k i = g2.mem i := fun i h =>
    writeAtG_outside (by omega)
  have henc3 : ∀ r ∈ recs2, encodes (writeAtG g2.mem fsF.Start data k) r := by
    intro r hr
    obtain ⟨e1, e2, e3⟩ := hri2.henc r hr
    have hsl : r.spanLen = 16 + r.data.length := rfl
    have hbyte : ∀ i, r.pos ≤ i → i < r.pos + r.spanLen →
        writeAtG g2.mem fsF.Start data k i = g2.mem i := by
      intro i h1 h2
      refine hmem3 i ?_
      by_contra hc
      push_neg at hc
      exact hregion_empty i hc.1 (by omega) ⟨r, hr, h1, h2⟩
    refine ⟨?_, ?_, ?_⟩
    · intro j hj
      rw [hbyte (r.pos + j) (by omega) (by rw [hsl]; omega)]
      exact e1 j hj
    · intro j hj
      rw [hbyte (r.pos + 8 + j) (by omega) (by rw [hsl]; omega)]
      exact e2 j hj
    · intro j hj
      rw [hbyte (r.pos + 16 + j) (by omega) (by rw [hsl]; omega)]
      exact e3 j hj
  -- keys of the merged records are the old keys
  have hkeq : recs2.map Rec.k = recs.map Rec.k := by
    have h0 := congrArg (List.map Prod.fst) hproj2
    rw [List.map_map, List.map_map] at h0
    exact h0
  have hknotin2 : ∀ r ∈ recs2, r.k ≠ k := by
    intro r hr hk
    have hmem : k ∈ recs2.map Rec.k := List.mem_map.mpr ⟨r, hr, hk⟩
    rw [hkeq] at hmem
    obtain ⟨q, hq, hqk⟩ := List.mem_map.mp hmem
    exact hkfresh q hq hqk
  -- the new record
  have hrnew_enc : encodes (writeAtG g2.mem fsF.Start data k)
      ⟨k, fsF.Start, data⟩ := ⟨writeAtG_len, writeAtG_key, writeAtG_data⟩
  have hdisj3 : (⟨k, fsF.Start, data⟩ :: recs2).Pairwise spanDisj := by
    refine List.Pairwise.cons ?_ hri2.hdisj
    intro r hr
    by_contra hc
    simp only [spanDisj, not_or, not_le] at hc
    obtain ⟨hc1, hc2⟩ := hc
    have hc1' : r.pos < fsF.Start + (16 + data.length) := hc1
    have hc2' : fsF.Start < r.pos + r.spanLen := hc2
    by_cases hcmp : fsF.Start ≤ r.pos
    · exact hregion_empty r.pos hcmp (by omega)
        ⟨r, hr, le_refl _, by have := spanLen_pos r; omega⟩
    · exact hregion_empty fsF.Start (le_refl _) (by omega)
        ⟨r, hr, by omega, hc2'⟩
  -- the vmap after publishing the key
  have hvlen3 : (VM.store g2.vmap k fsF.Start).buckets.length = maxBucket := by
    rw [VM.length_store]
    exact hri2.hvlen
  have hvmap3 : ∀ k' p, VM.load (VM.store g2.vmap k fsF.Start) k' = some p ↔
      ∃ r ∈ (⟨k, fsF.Start, data⟩ : Rec) :: recs2, r.k = k' ∧ r.pos = p := by
    intro k' p
    rw [VM.load_store g2.vmap hri2.hvlen]
    by_cases hk' : k' = k
    · subst hk'
      rw [if_pos rfl]
      constructor
      · intro h
        exact ⟨⟨k', fsF.Start, data⟩, List.mem_cons_self _ _, rfl,
          Option.some_inj.mp h⟩
      · rintro ⟨r, hr, hk1, hp1⟩
        rcases List.mem_cons.mp hr with rfl | hr'
        · rw [← hp1]
        · exact absurd hk1 (hknotin2 r hr')
    · rw [if_neg hk']
      rw [hri2.hvmap k' p]
      constructor
      · rintro ⟨r, hr, hk1, hp1⟩
        exact ⟨r, List.mem_cons_of_mem _ hr, hk1, hp1⟩
      · rintro ⟨r, hr, hk1, hp1⟩
        rcases List.mem_cons.mp hr with rfl | hr'
        · exact absurd hk1 (fun h => hk' h.symm)
        · exact ⟨r, hr', hk1, hp1⟩
  -- decompose the free family around the extracted run
  have hFsplit := hfpw
  rw [hmidF, List.append_assoc] at hFsplit
  rcases List.pairwise_append.mp hFsplit with ⟨hpwpre, hpwos, hcrossPre⟩
  rcases List.pairwise_append.mp hpwos with ⟨hpwout, hpwsuf, hcrossOS⟩
  have hhd_mem : out.head hnem ∈ out := List.head_mem hnem
  have hlast_mem : out.getLast hnem ∈ out := List.getLast_mem hnem
  -- `pre`/`suf` intervals avoid the whole merged region
  have hps_sep : ∀ h ∈ pre ++ suf, ∀ i, inIv i h →
      ¬((out.head hnem).Start ≤ i ∧ i ≤ fsF.endp) := by
    rintro h hh i hiv ⟨hr1, hr2⟩
    rcases List.mem_append.mp hh with hhp | hhs
    · have hsep1 : sep h (out.head hnem) :=
        hcrossPre h hhp _ (List.mem_append_left _ hhd_mem)
      have h1 : h.endp + 1 < (out.head hnem).Start := hsep1
      have h2 : i ≤ h.endp := hiv.2
      omega
    · have hsep1 : sep (out.getLast hnem) h := hcrossOS _ hlast_mem h hhs
      have h1 : (out.getLast hnem).endp + 1 < h.Start := hsep1
      have h2 : h.Start ≤ i := hiv.1
      rw [← hlast2] at h1
      omega
  -- return the unused tail of the fused interval to the pool
  have hPP : ∃ fsm' c',
      poolPutF g2.oracle g2.fsm { fsF with Start := fsF.Start + (16 + data.length) }
        g2.octr = ((fsm', none), c') ∧
      fsm'.extracted = 0 ∧
      fsm'.tfs = szSum (Tr.toL fsm'.root) ∧
      (Tr.toL fsm'.root).Pairwise sep ∧
      (∀ f ∈ Tr.toL fsm'.root, properIv f) ∧
      (∀ i, covL (Tr.toL fsm'.root) i ↔ covL (pre ++ suf) i ∨
        inIv i { fsF with Start := fsF.Start + (16 + data.length) }) ∧
      fsm'.tfs = g.fsm.tfs - (16 + data.length) := by
    rw [hfsm2']
    have hszps : fsm1.tfs = szSum (pre ++ suf) := by
      have h1 : szSum (Tr.toL g.fsm.root) =
          szSum pre + szSum out + szSum suf := by
        rw [hmidF, szSum_append, szSum_append]
      have h2 : szSum (pre ++ suf) = szSum pre + szSum suf := szSum_append _ _
      omega
    by_cases hcase :
        ({ fsF with Start := fsF.Start + (16 + data.length) } : FS).Size = 0
    · have hse : fsF.endp < fsF.Start + (16 + data.length) := by
        by_contra hc
        push_neg at hc
        rw [FS.Size, if_neg (by simpa using Nat.not_lt.mpr hc)] at hcase
        simp at hcase
      refine ⟨{ fsm1 with extracted := fsm1.extracted - 1 }, g2.octr,
        ?_, by simp [hext1], ?_, ?_, ?_, ?_, ?_⟩
      · simp only [poolPutF]
        rw [if_neg (show ¬ ({ fsm1 with extracted := fsm1.extracted - 1 } : FSMS).extracted < 0 from by
              show ¬ fsm1.extracted - 1 < 0
              rw [hext1]
              decide),
          if_pos hcase]
      · show fsm1.tfs = szSum (Tr.toL fsm1.root)
        rw [hF1]
        exact hszps
      · show (Tr.toL fsm1.root).Pairwise sep
        rw [hF1]
        exact hpspw
      · show ∀ f ∈ Tr.toL fsm1.root, properIv f
        rw [hF1]
        exact fun f hf => hfprop f (hpsF f hf)
      · show ∀ i, covL (Tr.toL fsm1.root) i ↔ _
        rw [hF1]
        intro i
        constructor
        · exact Or.inl
        · rintro (h | ⟨h1, h2⟩)
          · exact h
          · have h1' : fsF.Start + (16 + data.length) ≤ i := h1
            have h2' : i ≤ fsF.endp := h2
            omega
      · show fsm1.tfs = g.fsm.tfs - (16 + data.length)
        have hle : szSum out = 16 + data.length := by omega
        omega
    · have hprop' : properIv ({ fsF with Start := fsF.Start + (16 + data.length) } : FS) := by
        by_contra hc
        simp only [properIv] at hc
        push_neg at hc
        rw [FS.Size, if_pos hc] at hcase
        exact hcase rfl
      have hdisjiv : ∀ f ∈ Tr.toL fsm1.root,
          DisjIv { fsF with Start := fsF.Start + (16 + data.length) } f := by
        intro f hf
        rw [hF1] at hf
        rcases List.mem_append.mp hf with hhp | hhs
        · have hsep1 : sep f (out.head hnem) :=
            hcrossPre f hhp _ (List.mem_append_left _ hhd_mem)
          have h1 : f.endp + 1 < (out.head hnem).Start := hsep1
          right
          show f.endp < fsF.Start + (16 + data.length)
          omega
        · have hsep1 : sep (out.getLast hnem) f := hcrossOS _ hlast_mem f hhs
          have h1 : (out.getLast hnem).endp + 1 < f.Start := hsep1
          rw [← hlast2] at h1
          left
          show fsF.endp < f.Start
          omega
      obtain ⟨hA, hB, hC, hD⟩ := insertT_spec g2.oracle fsm1.root
        { fsF with Start := fsF.Start + (16 + data.length) } none none g2.octr
        (by simpa [optL] using (hF1 ▸ hpspw))
        (by simp only [optL, List.nil_append, List.append_nil]
            rw [hF1]
            exact fun f hf => hfprop f (hpsF f hf))
        hprop'
        hdisjiv
        (fun p hp => Option.noConfusion hp)
        (fun q hq => Option.noConfusion hq)
      set tins := insertT g2.oracle fsm1.root
        { fsF with Start := fsF.Start + (16 + data.length) } none none g2.octr with htins
      refine ⟨{ root := tins.1,
                tfs := fsm1.tfs +
                  ({ fsF with Start := fsF.Start + (16 + data.length) } : FS).Size,
                extracted := fsm1.extracted - 1 }, tins.2,
        ?_, by simp [hext1], ?_, ?_, ?_, ?_, ?_⟩
      · simp only [poolPutF]
        rw [if_neg (show ¬ ({ fsm1 with extracted := fsm1.extracted - 1 } : FSMS).extracted < 0 from by
              show ¬ fsm1.extracted - 1 < 0
              rw [hext1]
              decide),
          if_neg hcase]
      · show fsm1.tfs + _ = szSum (Tr.toL _)
        rw [hD, hF1]
        omega
      · simpa [optL] using hA
      · simpa [optL] using hB
      · intro i
        rw [hC i, hF1]
      · show fsm1.tfs + ({ fsF with Start := fsF.Start + (16 + data.length) } : FS).Size =
          g.fsm.tfs - (16 + data.length)
        have hSizeEq : ({ fsF with Start := fsF.Start + (16 + data.length) } : FS).Size =
            szSum out - (16 + data.length) := by
          have h1 : ({ fsF with Start := fsF.Start + (16 + data.length) } : FS).Size =
              fsF.endp - (fsF.Start + (16 + data.length)) + 1 := by
            simpa using size_of_proper hprop'
          rw [h1]
          have ha : fsF.Start + szSum out = fsF.endp + 1 := hsum2
          have hb : fsF.Start + (16 + data.length) ≤ fsF.endp := hprop'
          omega
        have h2 : szSum out ≤ g.fsm.tfs := by
          have h3 : szSum (Tr.toL g.fsm.root) =
              szSum pre + szSum out + szSum suf := by
            rw [hmidF, szSum_append, szSum_append]
          omega
        omega
  obtain ⟨fsm', c', hpp, hext2, htfs2, hF2pw, hF2prop, hF2cov, htfseq⟩ := hPP
  have hwi := writeInner_eq g data k hpe hm
  rw [hpp] at hwi
  -- every free interval of the new family still sits inside the buffer
  have hF2bound : ∀ f ∈ Tr.toL fsm'.root, f.endp < g.size := by
    intro f hf
    have hcv : covL (Tr.toL fsm'.root) f.endp :=
      ⟨f, hf, hF2prop f hf, le_refl _⟩
    rcases (hF2cov f.endp).mp hcv with ⟨h0, hh0, hiv⟩ | hiv
    · have := hfbound h0 (hpsF h0 hh0)
      have h2 : f.endp ≤ h0.endp := hiv.2
      omega
    · have h2 : f.endp ≤ fsF.endp := hiv.2
      omega
  refine ⟨{ g2 with mem := writeAtG g2.mem fsF.Start data k,
                    vmap := VM.store g2.vmap k fsF.Start, fsm := fsm', octr := c' },
    fsF.Start, recs2, hwi, ?_, ?_, hproj2, hgsz2', hkey2', hora2', htfseq⟩
  · refine ⟨?_, ?_, ?_, ?_, ?_, hdisj3, hvlen3, hvmap3⟩
    · rw [List.map_cons]
      refine List.nodup_cons.mpr ⟨?_, ?_⟩
      · intro hmem
        obtain ⟨r, hr, hk⟩ := List.mem_map.mp hmem
        exact hknotin2 r hr hk
      · exact hri2.hkeys
    · intro r hr
      rcases List.mem_cons.mp hr with rfl | hr'
      · exact hkub
      · exact hri2.hkub r hr'
    · intro r hr
      rcases List.mem_cons.mp hr with rfl | hr'
      · exact hrnew_enc
      · exact henc3 r hr'
    · intro r hr
      rcases List.mem_cons.mp hr with rfl | hr'
      · exact hdlen
      · exact hri2.hdlen r hr'
    · intro r hr
      rcases List.mem_cons.mp hr with rfl | hr'
      · show fsF.Start + (16 + data.length) ≤ g2.size
        rw [hgsz2']
        omega
      · exact hri2.hbound r hr'
  · refine ⟨hF2pw, hF2prop, ?_, ?_, ?_, htfs2, hext2⟩
    · intro f hf
      show f.endp < g2.size
      rw [hgsz2']
      exact hF2bound f hf
    · intro i hi
      have hi' : i < g.size := by
        have : i < g2.size := hi
        rwa [hgsz2'] at this
      by_cases hreg : (out.head hnem).Start ≤ i ∧ i ≤ fsF.endp
      · by_cases h2 : i < fsF.Start
        · obtain ⟨r, hr, hsp⟩ := (hcov2 i).mpr (Or.inr ⟨hreg.1, h2⟩)
          exact Or.inl ⟨r, List.mem_cons_of_mem _ hr, hsp⟩
        · by_cases h3 : i < fsF.Start + (16 + data.length)
          · refine Or.inl ⟨⟨k, fsF.Start, data⟩, List.mem_cons_self _ _, ?_, ?_⟩
            · show fsF.Start ≤ i
              omega
            · show i < fsF.Start + (16 + data.length)
              exact h3
          · refine Or.inr ((hF2cov i).mpr (Or.inr ⟨?_, ?_⟩))
            · show fsF.Start + (16 + data.length) ≤ i
              omega
            · show i ≤ fsF.endp
              exact hreg.2
      · rcases hcover i hi' with hc | hc
        · obtain ⟨r, hr, hsp⟩ := (hcov2 i).mpr (Or.inl ⟨hc, hreg⟩)
          exact Or.inl ⟨r, List.mem_cons_of_mem _ hr, hsp⟩
        · obtain ⟨h0, hh0, hiv⟩ := hc
          rw [hmidF] at hh0
          rw [List.append_assoc] at hh0
          rcases List.mem_append.mp hh0 with hhp | hhos
          · exact Or.inr ((hF2cov i).mpr
              (Or.inl ⟨h0, List.mem_append_left _ hhp, hiv⟩))
          · rcases List.mem_append.mp hhos with hho | hhs
            · exfalso
              refine hreg ⟨?_, ?_⟩
              · have := head_start_le houtpw (fun f hf => hfprop f (houtF f hf))
                  hnem h0 hho
                have h1 : h0.Start ≤ i := hiv.1
                omega
              · have := endp_le_getLast out houtpw
                  (fun f hf => hfprop f (houtF f hf)) hnem h0 hho
                have h1 : i ≤ h0.endp := hiv.2
                rw [hlast2]
                omega
            · exact Or.inr ((hF2cov i).mpr
                (Or.inl ⟨h0, List.mem_append_right _ hhs, hiv⟩))
    · rintro i ⟨hcr, hcl⟩
      rcases (hF2cov i).mp hcl with hA | hB
      · -- an old `pre`/`suf` interval covers `i`
        obtain ⟨h0, hh0, hiv0⟩ := hA
        obtain ⟨r, hr, hsp⟩ := hcr
        rcases List.mem_cons.mp hr with rfl | hr'
        · -- the fresh record sits inside the region
          refine hps_sep h0 hh0 i hiv0 ⟨?_, ?_⟩
          · have h1 : fsF.Start ≤ i := hsp.1
            omega
          · have h2 : i < fsF.Start + (16 + data.length) := hsp.2
            omega
        · rcases (hcov2 i).mp ⟨r, hr', hsp⟩ with ⟨hcv, _⟩ | ⟨hge', hlt⟩
          · exact hnov i ⟨hcv, ⟨h0, hpsF h0 hh0, hiv0⟩⟩
          · exact hps_sep h0 hh0 i hiv0 ⟨hge', by omega⟩
      · -- the returned tail covers `i`
        have hB1 : fsF.Start + (16 + data.length) ≤ i := hB.1
        have hB2 : i ≤ fsF.endp := hB.2
        obtain ⟨r, hr, hsp⟩ := hcr
        rcases List.mem_cons.mp hr with rfl | hr'
        · have h2 : i < fsF.Start + (16 + data.length) := hsp.2
          omega
        · exact hregion_empty i (by omega) hB2 ⟨r, hr', hsp⟩

/-! ## The whole-arena invariant -/

/-- The arena invariant, tying a reachable `Gravity` state to its ghost
list of live records. -/
structure Inv (g : GS) (recs : List Rec) : Prop where
  ri : RecInv g recs
  fi : FreeInv g recs
  hsz1 : 16 < g.size
  hsz2 : g.size < 2 ^ 64
  hkc1 : 1 ≤ g.key
  hkc2 : g.key < 2 ^ 64
  hkmin : ∀ r ∈ recs, 2 ≤ r.k
  hkle : ∀ r ∈ recs, r.k ≤ g.key
  hsum : (recs.map Rec.spanLen).sum + g.fsm.tfs = g.size

/-- An at-rest state reads back every live record's payload. -/
theorem readG_at_rest {g : GS} {recs : List Rec} (hri : RecInv g recs)
    {r : Rec} (hr : r ∈ recs) : readG g r.k = .ok r.data := by
  have hload : VM.load g.vmap r.k = some r.pos :=
    (hri.hvmap r.k r.pos).mpr ⟨r, hr, rfl, rfl⟩
  have hb := hri.hbound r hr
  have hsl : r.spanLen = 16 + r.data.length := rfl
  rw [hsl] at hb
  have hdl : rd64 g.mem r.pos = r.data.length :=
    rd64_of_bytes (hri.henc r hr).1 (hri.hdlen r hr)
  simp only [readG, hload]
  rw [if_neg (by omega), if_neg (by omega)]
  simp only [hdl]
  rw [if_neg (by omega)]
  congr 1
  refine List.ext_getElem (by simp) ?_
  intro n h1 h2
  simp only [List.getElem_map, List.getElem_range]
  rw [(hri.henc r hr).2.2 n (by simpa using h2)]
  exact List.getD_eq_getElem r.data 0 h2

/-- A key bound to no record reads back `WrongReadPosition`. -/
theorem readG_dead {g : GS} {recs : List Rec} (hri : RecInv g recs)
    {key : ℕ} (hk : ∀ r ∈ recs, r.k ≠ key) :
    readG g key = .error .wrongReadPosition := by
  have hload : VM.load g.vmap key = none := by
    cases h : VM.load g.vmap key with
    | none => rfl
    | some p =>
      obtain ⟨r, hr, hk1, _⟩ := (hri.hvmap key p).mp h
      exact absurd hk1 (hk r hr)
  simp only [readG, hload]

/-- Freeing a key bound to no record fails with `WrongReadPosition` and
leaves the state untouched. -/
theorem freeG_dead {g : GS} {recs : List Rec} (hri : RecInv g recs)
    {key : ℕ} (hk : ∀ r ∈ recs, r.k ≠ key) :
    freeG g key = (.error .wrongReadPosition, g) := by
  have hload : VM.load g.vmap key = none := by
    cases h : VM.load g.vmap key with
    | none => rfl
    | some p =>
      obtain ⟨r, hr, hk1, _⟩ := (hri.hvmap key p).mp h
      exact absurd hk1 (hk r hr)
  have hLD : VM.loadAndDelete g.vmap key = (none, g.vmap) := by
    rw [VM.loadAndDelete, hload]
  simp only [freeG, hLD]

theorem getD_replicate_nil (n i : ℕ) :
    (List.replicate n ([] : List (ℕ × ℕ))).getD i [] = [] := by
  rw [List.getD_eq_getElem?_getD, List.getElem?_replicate]
  split <;> rfl

/-- `NewGravity` establishes the invariant with no live records. -/
theorem newGravityG_inv {mem : Mem} {size : ℕ} {o : ℕ → Bool} {g0 : GS}
    (h0 : newGravityG mem size o = some g0) (hub : size < 2 ^ 64) :
    Inv g0 [] ∧ g0.size = size ∧ g0.key = 1 ∧ g0.fsm.tfs = size := by
  rw [newGravityG] at h0
  by_cases hsz : size ≤ 16
  · rw [if_pos hsz] at h0
    cases h0
  · rw [if_neg hsz] at h0
    push_neg at hsz
    have hsize : FS.Size ⟨0, size - 1⟩ = size := by
      rw [FS.Size, if_neg (by show ¬ (0 > size - 1); omega)]
      show size - 1 - 0 + 1 = size
      omega
    have hadd : addF o newFSMS ⟨0, size - 1⟩ 0 =
        (.ok { root := .node ⟨0, size - 1⟩ .nil .nil,
               tfs := 0 + FS.Size ⟨0, size - 1⟩, extracted := 0 }, 0) := by
      rw [addF, if_neg (by rw [hsize]; omega)]
      rfl
    rw [hadd] at h0
    have hg0 : g0 = { mem := mem, size := size, key := 1, vmap := newShardedStore,
                      fsm := { root := .node ⟨0, size - 1⟩ .nil .nil,
                               tfs := 0 + FS.Size ⟨0, size - 1⟩, extracted := 0 },
                      oracle := o, octr := 0 } := (Option.some_inj.mp h0).symm
    subst hg0
    have htoL : Tr.toL (.node ⟨0, size - 1⟩ .nil .nil) = [⟨0, size - 1⟩] := rfl
    refine ⟨⟨?_, ?_, (by show 16 < size; omega), (by show size < 2 ^ 64; exact hub),
      (by show (1 : ℕ) ≤ 1; omega), (by show (1 : ℕ) < 2 ^ 64; omega),
      (by intro r hr; cases hr), (by intro r hr; cases hr), ?_⟩, rfl, rfl, ?_⟩
    · refine ⟨by simp, (by intro r hr; cases hr), (by intro r hr; cases hr),
        (by intro r hr; cases hr), (by intro r hr; cases hr), List.Pairwise.nil,
        rfl, ?_⟩
      intro kk p
      constructor
      · intro h
        exfalso
        rw [VM.load] at h
        rw [show ((newShardedStore.buckets.getD (bucketIdx kk) [])) = [] from
          getD_replicate_nil _ _] at h
        simp at h
      · rintro ⟨r, hr, _⟩
        cases hr
    · refine ⟨?_, ?_, ?_, ?_, ?_, ?_, rfl⟩
      · rw [htoL]
        exact List.pairwise_singleton _ _
      · rw [htoL]
        intro f hf
        rcases List.mem_cons.mp hf with rfl | hf'
        · show (0 : ℕ) ≤ size - 1
          omega
        · cases hf'
      · rw [htoL]
        intro f hf
        rcases List.mem_cons.mp hf with rfl | hf'
        · show size - 1 < size
          omega
        · cases hf'
      · intro i hi
        have hi' : i < size := hi
        refine Or.inr ?_
        rw [htoL]
        exact ⟨⟨0, size - 1⟩, List.mem_cons_self _ _, Nat.zero_le i,
          show i ≤ size - 1 by omega⟩
      · rintro i ⟨⟨r, hr, _⟩, _⟩
        cases hr
      · rw [htoL]
        show 0 + FS.Size ⟨0, size - 1⟩ = szSum [⟨0, size - 1⟩]
        rw [szSum_cons, szSum_nil]
        omega
    · show ([] : List ℕ).sum + (0 + FS.Size ⟨0, size - 1⟩) = size
      rw [hsize]
      simp
    · show 0 + FS.Size ⟨0, size - 1⟩ = size
      rw [hsize]
      omega

theorem sum_span_filter {recs : List Rec} (hkeys : (recs.map Rec.k).Nodup)
    {r : Rec} (hr : r ∈ recs) :
    ((recs.filter (fun q => q.k ≠ r.k)).map Rec.spanLen).sum + r.spanLen =
      (recs.map Rec.spanLen).sum := by
  induction recs with
  | nil => cases hr
  | cons a tl ih =>
    simp only [List.map_cons, List.nodup_cons] at hkeys
    by_cases hak : a.k = r.k
    · rw [List.filter_cons_of_neg (by simp [hak])]
      have hra : r = a := by
        rcases List.mem_cons.mp hr with h | h
        · exact h
        · exact absurd (List.mem_map.mpr ⟨r, h, hak.symm ▸ rfl⟩) hkeys.1
      have htl : tl.filter (fun q => q.k ≠ r.k) = tl := by
        rw [List.filter_eq_self]
        intro q hq
        simp only [decide_eq_true_eq]
        intro hqk
        exact hkeys.1 (List.mem_map.mpr ⟨q, hq, by rw [hqk, hak]⟩)
      rw [htl, List.map_cons, List.sum_cons, hra]
      omega
    · rw [List.filter_cons_of_pos (by simp [hak])]
      have hrtl : r ∈ tl := by
        rcases List.mem_cons.mp hr with h | h
        · subst h
          exact absurd rfl hak
        · exact h
      rw [List.map_cons, List.sum_cons, List.map_cons, List.sum_cons]
      have := ih hkeys.2 hrtl
      omega

/-- **`Free` of a live key preserves the invariant.**  The key's record
leaves the ghost set, its whole span is handed back to the free-space
manager (merging with abutting intervals), and nothing else changes. -/
theorem freeG_live (g : GS) (recs : List Rec) (hInv : Inv g recs)
    (r : Rec) (hr : r ∈ recs) :
    ∃ g', freeG g r.k = (.ok (), g') ∧
      Inv g' (recs.filter (fun q => q.k ≠ r.k)) ∧
      g'.size = g.size ∧ g'.key = g.key ∧ g'.mem = g.mem := by
  obtain ⟨hri, hfi, hsz1, hsz2, hkc1, hkc2, hkmin, hkle, hsum⟩ := hInv
  obtain ⟨hfpw, hfprop, hfbound, hcover, hnov, htfs, hext⟩ := hfi
  have hload : VM.load g.vmap r.k = some r.pos :=
    (hri.hvmap r.k r.pos).mpr ⟨r, hr, rfl, rfl⟩
  have hLD0 : VM.loadAndDelete g.vmap r.k =
      (some r.pos, (VM.loadAndDelete g.vmap r.k).2) := by
    have h1 : (VM.loadAndDelete g.vmap r.k).1 = some r.pos := by
      rw [VM.loadAndDelete_fst, hload]
    rw [← h1]
  obtain ⟨vmd, hLD⟩ : ∃ vmd, VM.loadAndDelete g.vmap r.k = (some r.pos, vmd) :=
    ⟨_, hLD0⟩
  have hvmd2 : (VM.loadAndDelete g.vmap r.k).2 = vmd := by rw [hLD]
  have hbnd := hri.hbound r hr
  have hsl : r.spanLen = 16 + r.data.length := rfl
  rw [hsl] at hbnd
  have hdl : rd64 g.mem r.pos = r.data.length :=
    rd64_of_bytes (hri.henc r hr).1 (hri.hdlen r hr)
  have hnn_iv : ∀ i, inIv i (⟨r.pos, r.pos + (16 + rd64 g.mem r.pos) - 1⟩ : FS) ↔
      inSpan i r := by
    intro i
    constructor
    · rintro ⟨h1, h2⟩
      have h1' : r.pos ≤ i := h1
      have h2' : i ≤ r.pos + (16 + rd64 g.mem r.pos) - 1 := h2
      rw [hdl] at h2'
      exact ⟨h1', by rw [hsl]; omega⟩
    · rintro ⟨h1, h2⟩
      rw [hsl] at h2
      refine ⟨h1, ?_⟩
      show i ≤ r.pos + (16 + rd64 g.mem r.pos) - 1
      rw [hdl]
      omega
  have hpnn : properIv (⟨r.pos, r.pos + (16 + rd64 g.mem r.pos) - 1⟩ : FS) := by
    show r.pos ≤ r.pos + (16 + rd64 g.mem r.pos) - 1
    omega
  have hnnend : (⟨r.pos, r.pos + (16 + rd64 g.mem r.pos) - 1⟩ : FS).endp < g.size := by
    show r.pos + (16 + rd64 g.mem r.pos) - 1 < g.size
    rw [hdl]
    omega
  have hSznn : (⟨r.pos, r.pos + (16 + rd64 g.mem r.pos) - 1⟩ : FS).Size =
      r.spanLen := by
    rw [size_of_proper hpnn, hsl]
    show r.pos + (16 + rd64 g.mem r.pos) - 1 - r.pos + 1 = 16 + r.data.length
    rw [hdl]
    omega
  have hSz0 : (⟨r.pos, r.pos + (16 + rd64 g.mem r.pos) - 1⟩ : FS).Size ≠ 0 := by
    rw [hSznn]
    have := spanLen_pos r
    omega
  have hdisjF : ∀ f ∈ Tr.toL g.fsm.root,
      DisjIv (⟨r.pos, r.pos + (16 + rd64 g.mem r.pos) - 1⟩ : FS) f := by
    intro f hf
    by_contra hc
    rw [DisjIv] at hc
    push_neg at hc
    obtain ⟨hc1, hc2⟩ := hc
    have hpf : f.Start ≤ f.endp := hfprop f hf
    have hc2' : r.pos ≤ f.endp := hc2
    by_cases hcmp : r.pos ≤ f.Start
    · exact hnov f.Start ⟨⟨r, hr, (hnn_iv f.Start).mp ⟨hcmp, hc1⟩⟩,
        ⟨f, hf, le_refl _, hpf⟩⟩
    · push_neg at hcmp
      exact hnov r.pos ⟨⟨r, hr, (hnn_iv r.pos).mp ⟨le_refl _, hpnn⟩⟩,
        ⟨f, hf, le_of_lt hcmp, hc2'⟩⟩
  obtain ⟨hA, hB, hC, hD⟩ := insertT_spec g.oracle g.fsm.root
    ⟨r.pos, r.pos + (16 + rd64 g.mem r.pos) - 1⟩ none none g.octr
    (by simpa [optL] using hfpw)
    (by simp only [optL, List.nil_append, List.append_nil]; exact hfprop)
    hpnn hdisjF
    (fun p hp => Option.noConfusion hp)
    (fun q hq => Option.noConfusion hq)
  set tins := insertT g.oracle g.fsm.root
    ⟨r.pos, r.pos + (16 + rd64 g.mem r.pos) - 1⟩ none none g.octr with htins
  have haddF : addF g.oracle g.fsm
      ⟨r.pos, r.pos + (16 + rd64 g.mem r.pos) - 1⟩ g.octr =
      (.ok { root := tins.1,
             tfs := g.fsm.tfs +
               (⟨r.pos, r.pos + (16 + rd64 g.mem r.pos) - 1⟩ : FS).Size,
             extracted := g.fsm.extracted }, tins.2) := by
    rw [addF, if_neg hSz0]
  have hfree : freeG g r.k = (.ok (),
      { g with vmap := vmd,
               fsm := { root := tins.1,
                        tfs := g.fsm.tfs +
                          (⟨r.pos, r.pos + (16 + rd64 g.mem r.pos) - 1⟩ : FS).Size,
                        extracted := g.fsm.extracted },
               octr := tins.2 }) := by
    simp only [freeG, hLD]
    rw [if_neg (by omega)]
    simp only [haddF]
  have hmemf : ∀ q, q ∈ recs.filter (fun q => q.k ≠ r.k) ↔
      (q ∈ recs ∧ q.k ≠ r.k) := by
    intro q
    rw [List.mem_filter]
    simp
  have hA' : (Tr.toL tins.1).Pairwise sep := by simpa [optL] using hA
  have hB' : ∀ f ∈ Tr.toL tins.1, properIv f := by simpa [optL] using hB
  refine ⟨_, hfree, ⟨?_, ?_, hsz1, hsz2, hkc1, hkc2,
    (fun q hq => hkmin q ((hmemf q).mp hq).1),
    (fun q hq => hkle q ((hmemf q).mp hq).1), ?_⟩, rfl, rfl, rfl⟩
  · refine ⟨?_, ?_, ?_, ?_, ?_, ?_, ?_, ?_⟩
    · exact hri.hkeys.sublist ((List.filter_sublist recs).map Rec.k)
    · exact fun q hq => hri.hkub q ((hmemf q).mp hq).1
    · exact fun q hq => hri.henc q ((hmemf q).mp hq).1
    · exact fun q hq => hri.hdlen q ((hmemf q).mp hq).1
    · exact fun q hq => hri.hbound q ((hmemf q).mp hq).1
    · exact hri.hdisj.sublist (List.filter_sublist recs)
    · show vmd.buckets.length = maxBucket
      rw [← hvmd2, VM.length_loadAndDelete]
      exact hri.hvlen
    · intro k' p
      show VM.load vmd k' = some p ↔ _
      rw [← hvmd2, VM.load_loadAndDelete]
      by_cases hk' : k' = r.k
      · rw [if_pos hk']
        constructor
        · intro h
          cases h
        · rintro ⟨q, hq, hk1, _⟩
          have hqk := ((hmemf q).mp hq).2
          rw [hk'] at hk1
          exact absurd hk1 hqk
      · rw [if_neg hk']
        rw [hri.hvmap k' p]
        constructor
        · rintro ⟨q, hq, hk1, hp1⟩
          refine ⟨q, (hmemf q).mpr ⟨hq, ?_⟩, hk1, hp1⟩
          rw [hk1]
          exact hk'
        · rintro ⟨q, hq, hk1, hp1⟩
          exact ⟨q, ((hmemf q).mp hq).1, hk1, hp1⟩
  · refine ⟨hA', hB', ?_, ?_, ?_, ?_, hext⟩
    · intro f hf
      show f.endp < g.size
      have hcv : covL (Tr.toL tins.1) f.endp := ⟨f, hf, hB' f hf, le_refl _⟩
      rcases (hC f.endp).mp hcv with h | h
      · have := hfbound _ h.choose_spec.1
        obtain ⟨h0, hh0, hiv⟩ := h
        have := hfbound h0 hh0
        have h2 : f.endp ≤ h0.endp := hiv.2
        omega
      · have h2 : f.endp ≤ r.pos + (16 + rd64 g.mem r.pos) - 1 := h.2
        rw [hdl] at h2
        omega
    · intro i hi
      have hi' : i < g.size := hi
      rcases hcover i hi' with hc | hc
      · obtain ⟨q, hq, hspq⟩ := hc
        by_cases hqk : q.k = r.k
        · have hqr : q = r := rec_key_inj hri.hkeys hq hr hqk
          subst hqr
          exact Or.inr ((hC i).mpr (Or.inr ((hnn_iv i).mpr hspq)))
        · exact Or.inl ⟨q, (hmemf q).mpr ⟨hq, hqk⟩, hspq⟩
      · exact Or.inr ((hC i).mpr (Or.inl hc))
    · rintro i ⟨⟨q, hq', hspq⟩, hclF'⟩
      obtain ⟨hq, hqk⟩ := (hmemf q).mp hq'
      rcases (hC i).mp hclF' with h | h
      · exact hnov i ⟨⟨q, hq, hspq⟩, h⟩
      · have hspr : inSpan i r := (hnn_iv i).mp h
        have hqr : q ≠ r := fun he => hqk (he ▸ rfl)
        have hdq := spanDisj_of_mem hri.hdisj hq hr hqr
        rcases hspq with ⟨a1, a2⟩
        rcases hspr with ⟨b1, b2⟩
        rcases hdq with hh | hh <;> omega
    · show g.fsm.tfs + _ = szSum (Tr.toL tins.1)
      have hD' : szSum (Tr.toL tins.1) = szSum (Tr.toL g.fsm.root) +
          (⟨r.pos, r.pos + (16 + rd64 g.mem r.pos) - 1⟩ : FS).Size := hD
      omega
  · show ((recs.filter (fun q => q.k ≠ r.k)).map Rec.spanLen).sum +
      (g.fsm.tfs + (⟨r.pos, r.pos + (16 + rd64 g.mem r.pos) - 1⟩ : FS).Size) = g.size
    have hsf := sum_span_filter hri.hkeys hr
    rw [hSznn]
    omega

/-- **`Write` succeeds** given room: it returns the next key and the record
joins the live set; the key counter advances by one. -/
theorem writeG_ok (g : GS) (recs : List Rec) (data : List ℕ)
    (hInv : Inv g recs)
    (hkw : g.key + 1 < 2 ^ 64)
    (hspace : 16 + data.length ≤ g.fsm.tfs) :
    ∃ g' pos recs2,
      writeG g data = ((g.key + 1, none), g') ∧
      Inv g' (⟨g.key + 1, pos, data⟩ :: recs2) ∧
      recs2.map (fun r => (r.k, r.data)) = recs.map (fun r => (r.k, r.data)) ∧
      g'.size = g.size ∧ g'.key = g.key + 1 := by
  obtain ⟨hri, hfi, hsz1, hsz2, hkc1, hkc2, hkmin, hkle, hsum⟩ := hInv
  have hkmod : (g.key + 1) % 2 ^ 64 = g.key + 1 := Nat.mod_eq_of_lt hkw
  have hri0 : RecInv { g with key := (g.key + 1) % 2 ^ 64 } recs :=
    ⟨hri.hkeys, hri.hkub, hri.henc, hri.hdlen, hri.hbound, hri.hdisj,
     hri.hvlen, hri.hvmap⟩
  have hfi0 : FreeInv { g with key := (g.key + 1) % 2 ^ 64 } recs :=
    ⟨hfi.hfpw, hfi.hfprop, hfi.hfbound, hfi.hcover, hfi.hnov, hfi.htfs, hfi.hext⟩
  have hkfresh : ∀ r ∈ recs, r.k ≠ (g.key + 1) % 2 ^ 64 := by
    intro r hr
    rw [hkmod]
    have := hkle r hr
    omega
  obtain ⟨g', pos, recs2, hwi, hri', hfi', hproj, hsz', hkey', hora', htfs'⟩ :=
    writeInner_spec { g with key := (g.key + 1) % 2 ^ 64 } recs data
      ((g.key + 1) % 2 ^ 64) hri0 hfi0 hsz2 hkfresh (by rw [hkmod]; omega) hspace
  have hwg : writeG g data = (((g.key + 1) % 2 ^ 64, none), g') := by
    simp only [writeG, hwi]
  have hkeq : recs2.map Rec.k = recs.map Rec.k := by
    have h0 := congrArg (List.map Prod.fst) hproj
    rw [List.map_map, List.map_map] at h0
    exact h0
  have hspan2 : recs2.map Rec.spanLen = recs.map Rec.spanLen := by
    have h0 := congrArg (List.map (fun p : ℕ × List ℕ => 16 + p.2.length)) hproj
    rw [List.map_map, List.map_map] at h0
    exact h0
  have hkey'' : g'.key = g.key + 1 := by
    rw [hkey']
    exact hkmod
  have hsz'' : g'.size = g.size := hsz'
  have hkofrecs2 : ∀ q ∈ recs2, 2 ≤ q.k ∧ q.k ≤ g.key := by
    intro q hq
    have : q.k ∈ recs2.map Rec.k := List.mem_map.mpr ⟨q, hq, rfl⟩
    rw [hkeq] at this
    obtain ⟨q0, hq0, hq0k⟩ := List.mem_map.mp this
    rw [← hq0k]
    exact ⟨hkmin q0 hq0, hkle q0 hq0⟩
  rw [hkmod] at hwi hri' hfi' hwg
  refine ⟨g', pos, recs2, hwg, ⟨hri', hfi', by rw [hsz'']; exact hsz1,
    by rw [hsz'']; exact hsz2, by rw [hkey'']; omega, by rw [hkey'']; omega,
    ?_, ?_, ?_⟩, hproj, hsz'', hkey''⟩
  · intro q hq
    rcases List.mem_cons.mp hq with rfl | hq'
    · show 2 ≤ g.key + 1
      omega
    · exact (hkofrecs2 q hq').1
  · intro q hq
    rw [hkey'']
    rcases List.mem_cons.mp hq with rfl | hq'
    · exact le_refl _
    · have := (hkofrecs2 q hq').2
      omega
  · have hs2 : (recs2.map Rec.spanLen).sum = (recs.map Rec.spanLen).sum := by
      rw [hspan2]
    have htfs'' : g'.fsm.tfs = g.fsm.tfs - (16 + data.length) := htfs'
    show (16 + data.length) + (recs2.map Rec.spanLen).sum + g'.fsm.tfs = g'.size
    rw [hs2, htfs'', hsz'']
    omega

/-- **`Write` without enough total free space** fails with `NotEnoughSpace`;
the only state change is the already-consumed key. -/
theorem writeG_fail (g : GS) (recs : List Rec) (data : List ℕ)
    (hInv : Inv g recs)
    (hkw : g.key + 1 < 2 ^ 64)
    (hspace : g.fsm.tfs < 16 + data.length) :
    writeG g data = ((g.key + 1, some .notEnoughSpace), { g with key := g.key + 1 }) ∧
    Inv { g with key := g.key + 1 } recs := by
  obtain ⟨hri, hfi, hsz1, hsz2, hkc1, hkc2, hkmin, hkle, hsum⟩ := hInv
  have hkmod : (g.key + 1) % 2 ^ 64 = g.key + 1 := Nat.mod_eq_of_lt hkw
  have hpe : poolExtractF g.fsm (16 + data.length) = .error .notEnoughSpace := by
    rw [poolExtractF]
    rw [if_neg (fun hc => absurd hc.2 (by rw [hfi.hext]; omega))]
    rw [if_pos (Or.inr hspace)]
  have hwin : writeInner { g with key := (g.key + 1) % 2 ^ 64 } data
      ((g.key + 1) % 2 ^ 64) =
      (.error .notEnoughSpace, { g with key := (g.key + 1) % 2 ^ 64 }) := by
    simp only [writeInner, hpe]
  constructor
  · simp only [writeG, hwin]
    rw [hkmod]
  · rw [← hkmod]
    refine ⟨⟨hri.hkeys, hri.hkub, hri.henc, hri.hdlen, hri.hbound, hri.hdisj,
      hri.hvlen, hri.hvmap⟩,
      ⟨hfi.hfpw, hfi.hfprop, hfi.hfbound, hfi.hcover, hfi.hnov, hfi.htfs, hfi.hext⟩,
      hsz1, hsz2, ?_, ?_, hkmin, ?_, hsum⟩
    · show 1 ≤ (g.key + 1) % 2 ^ 64
      rw [hkmod]
      omega
    · show (g.key + 1) % 2 ^ 64 < 2 ^ 64
      rw [hkmod]
      omega
    · intro r hr
      show r.k ≤ (g.key + 1) % 2 ^ 64
      rw [hkmod]
      have := hkle r hr
      omega

/-- A key is live with a given payload. -/
def liveR (recs : List Rec) (k : ℕ) (b : List ℕ) : Prop :=
  ∃ r ∈ recs, r.k = k ∧ r.data = b

/-- Number of `write` operations in a trace (each consumes one key). -/
def writesOf : List Op → ℕ
  | [] => 0
  | .write _ :: tl => 1 + writesOf tl
  | _ :: tl => writesOf tl

theorem writesOf_cons (op : Op) (tl : List Op) :
    writesOf (op :: tl) = writesOf [op] + writesOf tl := by
  cases op <;> simp [writesOf]

/-- One user operation preserves the invariant; the key counter advances by
the number of writes; live records not freed by the operation stay live with
the same payload. -/
theorem execOp_inv (g : GS) (recs : List Rec) (op : Op) (hInv : Inv g recs)
    (hkw : g.key + writesOf [op] < 2 ^ 64) :
    ∃ recs', Inv (execOp g op) recs' ∧
      (execOp g op).size = g.size ∧
      (execOp g op).key = g.key + writesOf [op] ∧
      (∀ k b, liveR recs k b → op ≠ .free k → liveR recs' k b) := by
  cases op with
  | read k' =>
    exact ⟨recs, hInv, rfl, by simp [execOp, writesOf], fun k b h _ => h⟩
  | write d =>
    have hkw' : g.key + 1 < 2 ^ 64 := by
      simpa [writesOf] using hkw
    by_cases hspace : 16 + d.length ≤ g.fsm.tfs
    · obtain ⟨g', pos, recs2, hwg, hInv', hproj, hsz', hkey'⟩ :=
        writeG_ok g recs d hInv hkw' hspace
      refine ⟨⟨g.key + 1, pos, d⟩ :: recs2, ?_, ?_, ?_, ?_⟩
      · show Inv (writeG g d).2 _
        rw [hwg]
        exact hInv'
      · show (writeG g d).2.size = g.size
        rw [hwg]
        exact hsz'
      · show (writeG g d).2.key = g.key + writesOf [Op.write d]
        rw [hwg, hkey']
        simp [writesOf]
      · rintro k b ⟨r, hr, hk, hd⟩ _
        have hmem : (k, b) ∈ recs.map (fun r => (r.k, r.data)) :=
          List.mem_map.mpr ⟨r, hr, by rw [hk, hd]⟩
        rw [← hproj] at hmem
        obtain ⟨r2, hr2, hr2e⟩ := List.mem_map.mp hmem
        refine ⟨r2, List.mem_cons_of_mem _ hr2, ?_, ?_⟩
        · exact congrArg Prod.fst hr2e
        · exact congrArg Prod.snd hr2e
    · push_neg at hspace
      obtain ⟨hwg, hInv'⟩ := writeG_fail g recs d hInv hkw' hspace
      refine ⟨recs, ?_, ?_, ?_, fun k b h _ => h⟩
      · show Inv (writeG g d).2 _
        rw [hwg]
        exact hInv'
      · show (writeG g d).2.size = g.size
        rw [hwg]
      · show (writeG g d).2.key = g.key + writesOf [Op.write d]
        rw [hwg]
        simp [writesOf]
  | free k' =>
    by_cases hlive : ∃ r ∈ recs, r.k = k'
    · obtain ⟨r, hr, hk⟩ := hlive
      obtain ⟨g', hfr, hInv', hsz', hkey', _⟩ := freeG_live g recs hInv r hr
      refine ⟨recs.filter (fun q => q.k ≠ r.k), ?_, ?_, ?_, ?_⟩
      · show Inv (freeG g k').2 _
        rw [← hk, hfr]
        exact hInv'
      · show (freeG g k').2.size = g.size
        rw [← hk, hfr]
        exact hsz'
      · show (freeG g k').2.key = g.key + writesOf [Op.free k']
        rw [← hk, hfr]
        simpa [writesOf] using hkey'
      · rintro k b ⟨q, hq, hqk, hqd⟩ hne
        refine ⟨q, ?_, hqk, hqd⟩
        rw [List.mem_filter]
        refine ⟨hq, ?_⟩
        simp only [decide_eq_true_eq]
        intro hqr
        apply hne
        rw [← hk, ← hqr, hqk]
    · push_neg at hlive
      have hfr := freeG_dead hInv.ri hlive
      refine ⟨recs, ?_, ?_, ?_, fun k b h _ => h⟩
      · show Inv (freeG g k').2 _
        rw [hfr]
        exact hInv
      · show (freeG g k').2.size = g.size
        rw [hfr]
      · show (freeG g k').2.key = g.key + writesOf [Op.free k']
        rw [hfr]
        simp [writesOf]

/-- Invariant preservation over a whole trace. -/
theorem execOps_inv : ∀ (ops : List Op) (g : GS) (recs : List Rec), Inv g recs →
    g.key + writesOf ops < 2 ^ 64 →
    ∃ recs', Inv (execOps g ops) recs' ∧
      (execOps g ops).size = g.size ∧
      (execOps g ops).key = g.key + writesOf ops ∧
      (∀ k b, liveR recs k b → Op.free k ∉ ops → liveR recs' k b) := by
  intro ops
  induction ops with
  | nil =>
    intro g recs hInv _
    exact ⟨recs, hInv, rfl, by simp [execOps, writesOf], fun k b h _ => h⟩
  | cons op tl ih =>
    intro g recs hInv hkw
    rw [writesOf_cons] at hkw
    obtain ⟨recs1, hInv1, hsz1, hkey1, hlive1⟩ :=
      execOp_inv g recs op hInv (by omega)
    obtain ⟨recs2, hInv2, hsz2, hkey2, hlive2⟩ :=
      ih (execOp g op) recs1 hInv1 (by rw [hkey1]; omega)
    have hexec : execOps g (op :: tl) = execOps (execOp g op) tl := rfl
    refine ⟨recs2, hexec ▸ hInv2, ?_, ?_, ?_⟩
    · rw [hexec, hsz2, hsz1]
    · rw [hexec, hkey2, hkey1]
      have hwc := writesOf_cons op tl
      omega
    · intro k b h hnm
      refine hlive2 k b (hlive1 k b h ?_) ?_
      · intro he
        exact hnm (he ▸ List.mem_cons_self _ _)
      · intro hm
        exact hnm (List.mem_cons_of_mem _ hm)

/-! ## The traced claims -/

/-- **C1.**  Round-trip: for every successful `write(b)` returning key `k`
(the key counter's next value), as long as `free(k)` has not been called,
`read(k)` returns exactly the payload `b`, regardless of intervening writes
and frees of other keys — including when compaction has physically relocated
the record.  (Traces start from `NewGravity`; the key-counter bound keeps the
`uint64` counter from wrapping.) -/
theorem C1_round_trip (mem0 : Mem) (bsz : ℕ) (o : ℕ → Bool) (g0 : GS)
    (h0 : newGravityG mem0 bsz o = some g0) (hub : bsz < 2 ^ 64)
    (pref : List Op) (b : List ℕ) (σ : List Op)
    (hwrap : 1 + writesOf pref + 1 + writesOf σ < 2 ^ 64)
    (hspace : 16 + b.length ≤ (execOps g0 pref).fsm.tfs)
    (hnof : Op.free (1 + writesOf pref + 1) ∉ σ) :
    ∃ g2, writeG (execOps g0 pref) b = ((1 + writesOf pref + 1, none), g2) ∧
      readG (execOps g2 σ) (1 + writesOf pref + 1) = .ok b := by
  obtain ⟨hInv0, hsz0, hkey0, _⟩ := newGravityG_inv h0 hub
  obtain ⟨recs1, hInv1, hsz1, hkey1, _⟩ := execOps_inv pref g0 [] hInv0
    (by rw [hkey0]; omega)
  rw [hkey0] at hkey1
  obtain ⟨g2, pos, recs2, hwg, hInv2, hproj2, hsz2, hkey2⟩ :=
    writeG_ok (execOps g0 pref) recs1 b hInv1 (by rw [hkey1]; omega) hspace
  rw [hkey1] at hwg hInv2 hkey2
  obtain ⟨recs3, hInv3, hsz3, hkey3, hlive3⟩ := execOps_inv σ g2
    (⟨1 + writesOf pref + 1, pos, b⟩ :: recs2) hInv2 (by rw [hkey2]; omega)
  obtain ⟨r, hr, hk, hd⟩ := hlive3 (1 + writesOf pref + 1) b
    ⟨⟨1 + writesOf pref + 1, pos, b⟩, List.mem_cons_self _ _, rfl, rfl⟩ hnof
  refine ⟨g2, hwg, ?_⟩
  rw [← hk, ← hd]
  exact readG_at_rest hInv3.ri hr

/-- **C2.**  Cover invariant: after any quiescent sequence of
`write`/`free`/`read` operations from a fresh arena, the live records —
exactly the keys bound in the key→position map, each physically encoded in
the buffer (length header, key header and payload bytes), so each span is
the record's actual span — together with the free intervals cover every
buffer byte exactly once, and the sum of the spans (16 header/key bytes
plus payload length) plus `TotalFreeSpace()` equals the buffer length. -/
theorem C2_cover_invariant (mem0 : Mem) (bsz : ℕ) (o : ℕ → Bool) (g0 : GS)
    (h0 : newGravityG mem0 bsz o = some g0) (hub : bsz < 2 ^ 64)
    (ops : List Op) (hwrap : 1 + writesOf ops < 2 ^ 64) :
    ∃ recs : List Rec,
      (∀ k p, VM.load (execOps g0 ops).vmap k = some p ↔
        ∃ r ∈ recs, r.k = k ∧ r.pos = p) ∧
      (∀ r ∈ recs, encodes (execOps g0 ops).mem r) ∧
      (∀ i < bsz, covR recs i ∨ covL (Tr.toL (execOps g0 ops).fsm.root) i) ∧
      (∀ i, ¬(covR recs i ∧ covL (Tr.toL (execOps g0 ops).fsm.root) i)) ∧
      (recs.map Rec.spanLen).sum + totalFreeSpaceG (execOps g0 ops) = bsz := by
  obtain ⟨hInv0, hsz0, hkey0, _⟩ := newGravityG_inv h0 hub
  obtain ⟨recs, hInv, hsz, _, _⟩ := execOps_inv ops g0 [] hInv0
    (by rw [hkey0]; omega)
  have hbsz : (execOps g0 ops).size = bsz := by rw [hsz, hsz0]
  refine ⟨recs, hInv.ri.hvmap, hInv.ri.henc, ?_, hInv.fi.hnov, ?_⟩
  · intro i hi
    exact hInv.fi.hcover i (by rw [hbsz]; exact hi)
  · have hs := hInv.hsum
    show (recs.map Rec.spanLen).sum + (execOps g0 ops).fsm.tfs = bsz
    rw [hbsz] at hs
    exact hs

/-- **C5.**  Key/header agreement: at quiescence, for every key `k` bound in
the key→position map with value `p`, the 8 buffer bytes at offsets `p+8`
through `p+15` are `k` encoded little-endian — both the initial write of a
record and every compaction-time relocation preserve this. -/
theorem C5_key_header_agreement (mem0 : Mem) (bsz : ℕ) (o : ℕ → Bool) (g0 : GS)
    (h0 : newGravityG mem0 bsz o = some g0) (hub : bsz < 2 ^ 64)
    (ops : List Op) (hwrap : 1 + writesOf ops < 2 ^ 64) :
    ∀ k p, VM.load (execOps g0 ops).vmap k = some p →
      ∀ j < 8, (execOps g0 ops).mem (p + 8 + j) = byteAt k j := by
  obtain ⟨hInv0, hsz0, hkey0, _⟩ := newGravityG_inv h0 hub
  obtain ⟨recs, hInv, _, _, _⟩ := execOps_inv ops g0 [] hInv0
    (by rw [hkey0]; omega)
  intro k p hload j hj
  obtain ⟨r, hr, hk, hp⟩ := (hInv.ri.hvmap k p).mp hload
  subst hk
  subst hp
  exact (hInv.ri.henc r hr).2.1 j hj

/-- **C9.**  Freed is gone, and free is guarded: after `Free(k)` succeeds for
a live key `k` (one bound in the key→position map), both `Read(k)` and a
second `Free(k)` fail with `WrongReadPosition`, while `Read(k')` for every
other key `k'` that read successfully before still returns the same
payload. -/
theorem C9_freed_is_gone (mem0 : Mem) (bsz : ℕ) (o : ℕ → Bool) (g0 : GS)
    (h0 : newGravityG mem0 bsz o = some g0) (hub : bsz < 2 ^ 64)
    (ops : List Op) (hwrap : 1 + writesOf ops < 2 ^ 64)
    (k p0 : ℕ) (hlive : VM.load (execOps g0 ops).vmap k = some p0) :
    ∃ g', freeG (execOps g0 ops) k = (.ok (), g') ∧
      readG g' k = .error .wrongReadPosition ∧
      (freeG g' k).1 = .error .wrongReadPosition ∧
      ∀ k' d, k' ≠ k → readG (execOps g0 ops) k' = .ok d →
        readG g' k' = .ok d := by
  obtain ⟨hInv0, hsz0, hkey0, _⟩ := newGravityG_inv h0 hub
  obtain ⟨recs, hInv, _, _, _⟩ := execOps_inv ops g0 [] hInv0
    (by rw [hkey0]; omega)
  obtain ⟨r, hr, hk, _⟩ := (hInv.ri.hvmap k p0).mp hlive
  subst hk
  obtain ⟨g', hfr, hInv', _, _, _⟩ := freeG_live (execOps g0 ops) recs hInv r hr
  have hnok : ∀ q ∈ recs.filter (fun q => q.k ≠ r.k), q.k ≠ r.k := by
    intro q hq
    have := (List.mem_filter.mp hq).2
    simpa using this
  refine ⟨g', hfr, readG_dead hInv'.ri hnok, by rw [freeG_dead hInv'.ri hnok], ?_⟩
  intro k' d hk' hrd
  cases hload : VM.load (execOps g0 ops).vmap k' with
  | none =>
    rw [readG_dead hInv.ri ?none_case] at hrd
    · cases hrd
    case none_case =>
      intro q hq hqk
      have := (hInv.ri.hvmap k' q.pos).mpr ⟨q, hq, hqk, rfl⟩
      rw [hload] at this
      cases this
  | some p' =>
    obtain ⟨q, hq, hqk, _⟩ := (hInv.ri.hvmap k' p').mp hload
    have hq' : q ∈ recs.filter (fun q2 => q2.k ≠ r.k) := by
      rw [List.mem_filter]
      refine ⟨hq, ?_⟩
      simp only [decide_eq_true_eq]
      rw [hqk]
      exact hk'
    have h1 : readG (execOps g0 ops) q.k = .ok q.data := readG_at_rest hInv.ri hq
    have h2 : readG g' q.k = .ok q.data := readG_at_rest hInv'.ri hq'
    rw [hqk] at h1 h2
    rw [h1] at hrd
    injection hrd with hd
    rw [h2, hd]

/-! ## Concrete witnesses -/

/-- An all-zero 40-byte buffer. -/
def memZ : Mem := fun _ => 0

/-- A constant random oracle. -/
def oT : ℕ → Bool := fun _ => true

/-- The arena `NewGravity` builds over that buffer. -/
def g0c : GS :=
  { mem := memZ, size := 40, key := 1, vmap := newShardedStore,
    fsm := { root := .node ⟨0, 39⟩ .nil .nil, tfs := 40, extracted := 0 },
    oracle := oT, octr := 0 }

theorem g0c_new : newGravityG memZ 40 oT = some g0c := rfl

/-- Round trip at a concrete arena: write `[9]`, read it back. -/
theorem C1_witness :
    newGravityG memZ 40 oT = some g0c ∧
    (40 : ℕ) < 2 ^ 64 ∧
    1 + writesOf [] + 1 + writesOf [] < 2 ^ 64 ∧
    16 + [(9 : ℕ)].length ≤ (execOps g0c []).fsm.tfs ∧
    Op.free (1 + writesOf [] + 1) ∉ ([] : List Op) ∧
    ∃ g2, writeG (execOps g0c []) [9] = ((1 + writesOf ([] : List Op) + 1, none), g2) ∧
      readG (execOps g2 []) (1 + writesOf ([] : List Op) + 1) = .ok [9] :=
  ⟨g0c_new, by norm_num, by norm_num [writesOf], by decide, by simp,
   C1_round_trip memZ 40 oT g0c g0c_new (by norm_num) [] [9] []
     (by norm_num [writesOf]) (by decide) (by simp)⟩

/-- Cover invariant at a concrete arena after one write. -/
theorem C2_witness :
    newGravityG memZ 40 oT = some g0c ∧
    (40 : ℕ) < 2 ^ 64 ∧
    1 + writesOf [Op.write [3]] < 2 ^ 64 ∧
    ∃ recs : List Rec,
      (∀ k p, VM.load (execOps g0c [Op.write [3]]).vmap k = some p ↔
        ∃ r ∈ recs, r.k = k ∧ r.pos = p) ∧
      (∀ r ∈ recs, encodes (execOps g0c [Op.write [3]]).mem r) ∧
      (∀ i < 40, covR recs i ∨
        covL (Tr.toL (execOps g0c [Op.write [3]]).fsm.root) i) ∧
      (∀ i, ¬(covR recs i ∧
        covL (Tr.toL (execOps g0c [Op.write [3]]).fsm.root) i)) ∧
      (recs.map Rec.spanLen).sum + totalFreeSpaceG (execOps g0c [Op.write [3]]) = 40 :=
  ⟨g0c_new, by norm_num, by norm_num [writesOf],
   C2_cover_invariant memZ 40 oT g0c g0c_new (by norm_num) [Op.write [3]]
     (by norm_num [writesOf])⟩

/-- Key/header agreement at a concrete arena after one write. -/
theorem C5_witness :
    newGravityG memZ 40 oT = some g0c ∧
    (40 : ℕ) < 2 ^ 64 ∧
    1 + writesOf [Op.write [5]] < 2 ^ 64 ∧
    ∀ k p, VM.load (execOps g0c [Op.write [5]]).vmap k = some p →
      ∀ j < 8, (execOps g0c [Op.write [5]]).mem (p + 8 + j) = byteAt k j :=
  ⟨g0c_new, by norm_num, by norm_num [writesOf],
   C5_key_header_agreement memZ 40 oT g0c g0c_new (by norm_num) [Op.write [5]]
     (by norm_num [writesOf])⟩

/-- Freed-is-gone at a concrete arena: write `[5]` (key 2), then free it. -/
theorem C9_witness :
    newGravityG memZ 40 oT = some g0c ∧
    (40 : ℕ) < 2 ^ 64 ∧
    1 + writesOf [Op.write [5]] < 2 ^ 64 ∧
    ∃ p0, VM.load (execOps g0c [Op.write [5]]).vmap 2 = some p0 ∧
    ∃ g', freeG (execOps g0c [Op.write [5]]) 2 = (.ok (), g') ∧
      readG g' 2 = .error .wrongReadPosition ∧
      (freeG g' 2).1 = .error .wrongReadPosition ∧
      ∀ k' d, k' ≠ 2 → readG (execOps g0c [Op.write [5]]) k' = .ok d →
        readG g' k' = .ok d := by
  refine ⟨g0c_new, by norm_num, by norm_num [writesOf], ?_⟩
  have hInv0 := (newGravityG_inv g0c_new (by norm_num)).1
  obtain ⟨g2, pos, recs2, hwg, hInv2, _, _, _⟩ :=
    writeG_ok g0c [] [5] hInv0 (by decide) (by decide)
  have hexec : execOps g0c [Op.write [5]] = g2 := by
    show (writeG g0c [5]).2 = g2
    rw [hwg]
  have hload : VM.load g2.vmap 2 = some pos :=
    (hInv2.ri.hvmap 2 pos).mpr ⟨⟨2, pos, [5]⟩, List.mem_cons_self _ _, rfl, rfl⟩
  refine ⟨pos, by rw [hexec]; exact hload, ?_⟩
  exact C9_freed_is_gone memZ 40 oT g0c g0c_new (by norm_num) [Op.write [5]]
    (by norm_num [writesOf]) 2 pos (by rw [hexec]; exact hload)

end Gravity
